import Mathlib

/-!
Verification development for the eg-walker reference implementation
(`causal-graph.ts`, the simple list oplog / replay engine, and the fancy
oplog layer).  The TypeScript sources are shallowly embedded: JavaScript
in-place mutation becomes explicit state passing, `throw` becomes
`Option.none` (or a returned partial state where the partially mutated
object survives the exception), and unbounded `while` loops become
structural recursion on an explicit fuel argument (every use below supplies
sufficient fuel).  JavaScript arrays become `List`, JavaScript objects used
as string-keyed maps become association lists in key-insertion order, and
binary searches over sorted lists are modelled by linear searches with the
same comparison predicate (the sources keep those lists sorted).
-/

namespace EgWalker

/-- Result of the JS `binary-search` package: a non-negative hit index or the
two's complement of the insertion point.  We model the two cases explicitly. -/
inductive SearchResult where
  | found (idx : Nat)
  | notFound (insertIdx : Nat)
deriving DecidableEq, Repr

/-- Lexicographic comparison of char lists; models the JS `<` operator on
strings (UTF-16 code-unit order, which agrees with code-point order for the
ASCII agent names used throughout). -/
def chLt (a b : List Char) : Bool :=
  match a, b with
  | [], [] => false
  | [], _ :: _ => true
  | _ :: _, [] => false
  | x :: xs, y :: ys => x.val < y.val || (x.val = y.val && chLt xs ys)

/-- JS string comparison `a < b`. -/
def strLt (a b : String) : Bool := chLt a.data b.data

/-- An external identifier: `(agent, seq)`.  `Id` in causal-graph.ts. -/
abbrev Id := String × Nat

/-- A local version.  Non-negative in every reachable state, so `Nat`. -/
abbrev LV := Nat

/-- Half-open local version range `[start, end)`. -/
abbrev LVRange := Nat × Nat

/-- A run-length encoded causal-graph entry (`CGEntry`). -/
structure CGEntry where
  version : Nat
  vEnd : Nat
  agent : String
  seq : Nat
  parents : List Nat
deriving DecidableEq, Repr

/-- Per-agent index record (`ClientEntry`). -/
structure ClientEntry where
  seq : Nat
  seqEnd : Nat
  version : Nat
deriving DecidableEq, Repr

/-- The causal graph state (`CausalGraphInner` in causal-graph.ts; the
`CausalGraph` class is a thin wrapper around it).  `agentToVersion` is a JS
object keyed by agent, modelled as an association list in insertion order. -/
structure CausalGraph where
  heads : List Nat
  entries : List CGEntry
  agentToVersion : List (String × List ClientEntry)
deriving DecidableEq, Repr

/-- createCG. -/
def createCG : CausalGraph := ⟨[], [], []⟩

/-- pushRLEList: try to RLE-append the new item to the final element of the
list, otherwise push it.  The JS `tryAppend` mutates its first argument; we
model it as returning the merged value on success. -/
def pushRLEList (tryAppend : α → α → Option α) (list : List α) (item : α) : List α :=
  match list.getLast? with
  | none => [item]
  | some last =>
    match tryAppend last item with
    | some merged => list.dropLast ++ [merged]
    | none => list ++ [item]

/-- tryAppendEntries: merge condition for adjacent causal-graph entries. -/
def tryAppendEntries (a b : CGEntry) : Option CGEntry :=
  if b.version = a.vEnd ∧ a.agent = b.agent ∧ a.seq + (a.vEnd - a.version) = b.seq
      ∧ b.parents = [a.vEnd - 1] then
    some { a with vEnd := b.vEnd }
  else none

/-- tryAppendClientEntry: merge condition for adjacent per-agent index spans. -/
def tryAppendClientEntry (a b : ClientEntry) : Option ClientEntry :=
  if b.seq = a.seqEnd ∧ b.version = a.version + (a.seqEnd - a.seq) then
    some { a with seqEnd := b.seqEnd }
  else none

/-- tryRangeAppend for `[start, end)` ranges. -/
def tryRangeAppend (r1 r2 : LVRange) : Option LVRange :=
  if r1.2 = r2.1 then some (r1.1, r2.2) else none

/-- tryRevRangeAppend for ranges accumulated in reverse order. -/
def tryRevRangeAppend (r1 r2 : LVRange) : Option LVRange :=
  if r1.1 = r2.2 then some (r2.1, r1.2) else none

/-- Insertion of one element into an ascending list (the JS
`v.sort((a, b) => a - b)` result is the ascending reordering). -/
def insertAsc (x : Nat) : List Nat → List Nat
  | [] => [x]
  | y :: ys => if x ≤ y then x :: y :: ys else y :: insertAsc x ys

/-- sortVersions: sort a version list ascending. -/
def sortVersions (v : List Nat) : List Nat := v.foldr insertAsc []

/-- advanceFrontier: drop the parents from the frontier, add the new last
version and re-sort ascending. -/
def advanceFrontier (frontier : List Nat) (vLast : Nat) (parents : List Nat) : List Nat :=
  sortVersions ((frontier.filter (fun v => ¬ parents.contains v)) ++ [vLast])

/-- Lookup of `cg.agentToVersion[agent]`; `none` models the JS `undefined`. -/
def avFor (cg : CausalGraph) (agent : String) : Option (List ClientEntry) :=
  (cg.agentToVersion.find? (fun p => p.1 = agent)).map (fun p => p.2)

/-- Replace the client-entry list stored for an agent (the agent must already
be present); models assignment through the object reference `av`. -/
def setAv (cg : CausalGraph) (agent : String) (av : List ClientEntry) : CausalGraph :=
  { cg with agentToVersion :=
      cg.agentToVersion.map (fun p => if p.1 = agent then (p.1, av) else p) }

/-- Add a fresh agent key to the `agentToVersion` object (JS property
creation appends in insertion order). -/
def addAgent (cg : CausalGraph) (agent : String) (av : List ClientEntry) : CausalGraph :=
  { cg with agentToVersion := cg.agentToVersion ++ [(agent, av)] }

/-- nextLV. -/
def nextLV (cg : CausalGraph) : Nat :=
  match cg.entries.getLast? with
  | none => 0
  | some e => e.vEnd

/-- nextSeqForAgent. -/
def nextSeqForAgent (cg : CausalGraph) (agent : String) : Nat :=
  match avFor cg agent with
  | none => 0
  | some entries =>
    match entries.getLast? with
    | none => 0
    | some e => e.seqEnd

/-- findAVIndex: the binary search over the (sorted, disjoint) per-agent
spans, modelled as the equivalent linear scan with the same comparator. -/
def findAVIndexGo (seq : Nat) : List ClientEntry → Nat → SearchResult
  | [], i => .notFound i
  | e :: rest, i =>
    if seq < e.seq then .notFound i
    else if seq < e.seqEnd then .found i
    else findAVIndexGo seq rest (i + 1)

/-- findAVIndex, at index 0. -/
def findAVIndex (av : List ClientEntry) (seq : Nat) : SearchResult :=
  findAVIndexGo seq av 0

/-- findClientEntryRaw. -/
def findClientEntryRaw (cg : CausalGraph) (agent : String) (seq : Nat) :
    Option ClientEntry :=
  match avFor cg agent with
  | none => none
  | some av =>
    match findAVIndex av seq with
    | .found i => av.get? i
    | .notFound _ => none

/-- findClientEntry: entry plus offset of `seq` within it. -/
def findClientEntry (cg : CausalGraph) (agent : String) (seq : Nat) :
    Option (ClientEntry × Nat) :=
  (findClientEntryRaw cg agent seq).map (fun ce => (ce, seq - ce.seq))

/-- findClientEntryTrimmed: the containing span trimmed to start at `seq`. -/
def findClientEntryTrimmed (cg : CausalGraph) (agent : String) (seq : Nat) :
    Option ClientEntry :=
  match findClientEntry cg agent seq with
  | none => none
  | some (ce, offset) =>
    if offset = 0 then some ce
    else some { seq := seq, seqEnd := ce.seqEnd, version := ce.version + offset }

/-- hasVersion. -/
def hasVersion (cg : CausalGraph) (agent : String) (seq : Nat) : Bool :=
  (findClientEntryRaw cg agent seq).isSome

/-- findEntryContainingRaw: the entry containing local version `v`; the JS
binary search over the gapless sorted entry list is modelled as a linear
search with the same containment test.  `none` models the thrown
`UnknownVersion` error. -/
def findEntryContainingRaw (cg : CausalGraph) (v : Nat) : Option CGEntry :=
  cg.entries.find? (fun e => e.version ≤ v ∧ v < e.vEnd)

/-- findEntryContaining: entry plus offset. -/
def findEntryContaining (cg : CausalGraph) (v : Nat) : Option (CGEntry × Nat) :=
  (findEntryContainingRaw cg v).map (fun e => (e, v - e.version))

/-- lvToId (also `lvToRaw` in the simple variant). -/
def lvToId (cg : CausalGraph) (v : Nat) : Option Id :=
  (findEntryContaining cg v).map (fun p => (p.1.agent, p.1.seq + p.2))

/-- lvToIdList / lvToRawList. -/
def lvToIdList (cg : CausalGraph) (parents : List Nat) : Option (List Id) :=
  parents.mapM (lvToId cg)

/-- idToLV (also `rawToLV`): the version at the trimmed client entry;
`none` models the thrown `UnknownId` error. -/
def idToLV (cg : CausalGraph) (agent : String) (seq : Nat) : Option Nat :=
  (findClientEntryTrimmed cg agent seq).map (fun ce => ce.version)

/-- idToLVList / rawToLVList. -/
def idToLVList (cg : CausalGraph) (ids : List Id) : Option (List Nat) :=
  ids.mapM (fun p => idToLV cg p.1 p.2)

/-- rawVersionCmp: JS three-way comparison of `(agent, seq)` pairs. -/
def rawVersionCmp (a b : Id) : Int :=
  if strLt a.1 b.1 then -1
  else if strLt b.1 a.1 then 1
  else (a.2 : Int) - (b.2 : Int)

/-- lvCmp. -/
def lvCmp (cg : CausalGraph) (a b : Nat) : Option Int := do
  let ra ← lvToId cg a
  let rb ← lvToId cg b
  pure (rawVersionCmp ra rb)

/-- internalAddToEntries: append (or RLE-extend) the next causal-graph entry
and advance the heads.  `version` is always `nextLV cg` at every call site, so
`len > 0` (the JS assert) holds there.  The JS reference-equality fast path
`parents === cg.heads` computes the same frontier as `advanceFrontier`; we
model it as a value comparison. -/
def internalAddToEntries (cg : CausalGraph) (version : Nat) (agent : String)
    (seqStart seqEnd : Nat) (parents : List Nat) : CausalGraph × Nat :=
  let len := seqEnd - seqStart
  let vEnd := version + len
  let entry : CGEntry :=
    { version := version, vEnd := vEnd, agent := agent, seq := seqStart, parents := parents }
  let entries := pushRLEList tryAppendEntries cg.entries entry
  let heads := if parents = cg.heads then [vEnd - 1]
               else advanceFrontier cg.heads (vEnd - 1) parents
  ({ cg with entries := entries, heads := heads }, len)

/-- The client-entry splice step of `add`: insert the new span at the target
index, RLE-merging with the predecessor when possible. -/
def spliceClientEntry (av : List ClientEntry) (idx : Nat) (newEntry : ClientEntry) :
    List ClientEntry :=
  if idx = 0 then av.insertIdx 0 newEntry
  else
    match av.get? (idx - 1) with
    | none => av.insertIdx idx newEntry
    | some prev =>
      match tryAppendClientEntry prev newEntry with
      | some merged => av.set (idx - 1) merged
      | none => av.insertIdx idx newEntry

/-- add (causal-graph.ts): add a span of versions for one agent, trimming the
part that is already known.  Returns the updated graph and the number of
versions actually added. -/
def add (cg : CausalGraph) (agent : String) (seqStart seqEnd : Nat)
    (parents : List Nat) : CausalGraph × Nat :=
  if seqStart = seqEnd then (cg, 0)
  else
    let version := nextLV cg
    match avFor cg agent with
    | none =>
      let cg1 := addAgent cg agent [{ seq := seqStart, seqEnd := seqEnd, version := version }]
      internalAddToEntries cg1 version agent seqStart seqEnd parents
    | some av =>
      match findAVIndex av (seqEnd - 1) with
      | .found _ => (cg, 0)
      | .notFound idx =>
        let overlap :=
          if 1 ≤ idx then
            match av.get? (idx - 1) with
            | some prev => if seqStart < prev.seqEnd then some prev else none
            | none => none
          else none
        match overlap with
        | some prev =>
          -- the JS assert `prev.seqEnd < seqEnd` holds (otherwise the binary
          -- search would have found the final seq)
          let seqStart1 := prev.seqEnd
          let prevEndLV := prev.version + (prev.seqEnd - prev.seq)
          let parents1 := [prevEndLV - 1]
          if prevEndLV = version then
            let cg1 := setAv cg agent (av.set (idx - 1) { prev with seqEnd := seqEnd })
            internalAddToEntries cg1 version agent seqStart1 seqEnd parents1
          else
            let cg1 := setAv cg agent
              (spliceClientEntry av idx { seq := seqStart1, seqEnd := seqEnd, version := version })
            internalAddToEntries cg1 version agent seqStart1 seqEnd parents1
        | none =>
          let cg1 := setAv cg agent
            (spliceClientEntry av idx { seq := seqStart, seqEnd := seqEnd, version := version })
          internalAddToEntries cg1 version agent seqStart seqEnd parents

/-- addRemote: resolve the raw parent Ids, then `add`.  `none` models the
`UnknownId` exception thrown while resolving a missing parent (it is raised
before the graph is touched). -/
def addRemote (cg : CausalGraph) (id : Id) (len : Nat) (rawParents : List Id) :
    Option (CausalGraph × Nat) :=
  (idToLVList cg rawParents).map (fun parents => add cg id.1 id.2 (id.2 + len) parents)

/-- A serialized causal-graph diff entry (`PartialSerializedCGEntry`). -/
structure PSEntry where
  agent : String
  seq : Nat
  len : Nat
  parents : List Id
deriving DecidableEq, Repr

/-- One `while (start != end)` loop of serializeDiff, over a single range.
The loop strictly increases `start`, so we recurse on fuel `stop - start`. -/
def serializeRange (cg : CausalGraph) (fuel : Nat) (start stop : Nat) :
    Option (List PSEntry) :=
  match fuel with
  | 0 => if start = stop then some [] else none
  | fuel + 1 =>
    if start = stop then some []
    else do
      let (e, offset) ← findEntryContaining cg start
      let localEnd := min stop e.vEnd
      let len := localEnd - start
      let parents ← if offset = 0 then lvToIdList cg e.parents
                    else pure [(e.agent, e.seq + offset - 1)]
      let rest ← serializeRange cg fuel (start + len) stop
      pure ({ agent := e.agent, seq := e.seq + offset, len := len, parents := parents } :: rest)

/-- serializeDiff. -/
def serializeDiff (cg : CausalGraph) (ranges : List LVRange) : Option (List PSEntry) :=
  (ranges.mapM (fun r => serializeRange cg (r.2 - r.1) r.1 r.2)).map List.flatten

/-- The entry-by-entry loop of mergePartialVersions.  The JS function mutates
`cg` in place, so when `addRemote` throws partway through, the entries merged
so far remain in the caller's graph: we return the partially updated graph
together with `none` in that case, and the inserted LV range on success. -/
def mergePartialGo (cg : CausalGraph) (data : List PSEntry) (start : Nat) :
    CausalGraph × Option LVRange :=
  match data with
  | [] => (cg, some (start, nextLV cg))
  | e :: rest =>
    match addRemote cg (e.agent, e.seq) e.len e.parents with
    | none => (cg, none)
    | some (cg1, _) => mergePartialGo cg1 rest start

/-- mergePartialVersions (with the exception semantics described at
`mergePartialGo`). -/
def mergePartialVersionsRun (cg : CausalGraph) (data : List PSEntry) :
    CausalGraph × Option LVRange :=
  mergePartialGo cg data (nextLV cg)

/-- summarizeVersion: per-agent RLE list of known seq ranges, in agent
insertion order. -/
def summarizeVersion (cg : CausalGraph) : List (String × List (Nat × Nat)) :=
  cg.agentToVersion.foldl
    (fun result p =>
      if p.2.isEmpty then result
      else result ++
        [(p.1, p.2.foldl (fun versions ce => pushRLEList tryRangeAppend versions (ce.seq, ce.seqEnd)) [])])
    []

/-- eachVersionBetween: the visited (entry, clippedStart, clippedEnd)
triples.  The JS loop starts at the entry containing `vStart` (throwing when
there is none) and stops before the first entry at or past `vEnd`; over the
sorted gapless entry list that is exactly the entries intersecting
`[vStart, vEnd)`. -/
def eachVersionBetween (cg : CausalGraph) (vStart vEnd : Nat) :
    Option (List (CGEntry × Nat × Nat)) :=
  match findEntryContainingRaw cg vStart with
  | none => none
  | some _ =>
    some ((cg.entries.filter (fun e => vStart < e.vEnd ∧ e.version < vEnd)).map
      (fun e => (e, max vStart e.version, min vEnd e.vEnd)))

/-- iterVersionsBetween: the yielded (possibly clipped) entries, in ascending
order. -/
def iterVersionsBetween (cg : CausalGraph) (vStart vEnd : Nat) :
    Option (List CGEntry) :=
  if vStart = vEnd then some []
  else
    match findEntryContainingRaw cg vStart with
    | none => none
    | some _ =>
      some ((cg.entries.filter (fun e => vStart < e.vEnd ∧ e.version < vEnd)).map
        (fun e =>
          if vStart ≤ e.version ∧ e.vEnd ≤ vEnd then e
          else
            let vLocalStart := max vStart e.version
            let vLocalEnd := min vEnd e.vEnd
            { version := vLocalStart, vEnd := vLocalEnd, agent := e.agent,
              seq := e.seq + (vLocalStart - e.version),
              parents := if vLocalStart = e.version then e.parents else [vLocalStart - 1] }))

/-- DiffFlag. -/
inductive DiffFlag where
  | A
  | B
  | Shared
deriving DecidableEq, Repr

/-- Insertion into a descending-sorted list; models `enq` on the max-first
binary heap of the `priorityqueuejs` package (duplicates allowed, `deq` and
`peek` take the head). -/
def insertDesc (x : Nat) : List Nat → List Nat
  | [] => [x]
  | y :: ys => if x ≥ y then x :: y :: ys else y :: insertDesc x ys

/-- Lookup in the `flags: Map<number, DiffFlag>`. -/
def flagsGet (flags : List (Nat × DiffFlag)) (v : Nat) : Option DiffFlag :=
  (flags.find? (fun p => p.1 = v)).map (fun p => p.2)

/-- Update of the flags map. -/
def flagsSet (flags : List (Nat × DiffFlag)) (v : Nat) (f : DiffFlag) :
    List (Nat × DiffFlag) :=
  if (flags.find? (fun p => p.1 = v)).isSome then
    flags.map (fun p => if p.1 = v then (v, f) else p)
  else flags ++ [(v, f)]

/-- State of the `diff` walk: the max-queue, the flags map, the count of
Shared queue members, and the two (reversed, RLE) output range lists. -/
structure DiffState where
  queue : List Nat
  flags : List (Nat × DiffFlag)
  numShared : Nat
  aOnly : List LVRange
  bOnly : List LVRange
deriving DecidableEq, Repr

/-- The `enq` closure of `diff`. -/
def diffEnq (st : DiffState) (v : Nat) (flag : DiffFlag) : DiffState :=
  match flagsGet st.flags v with
  | none =>
    let ns := if flag = .Shared then st.numShared + 1 else st.numShared
    { st with
      queue := insertDesc v st.queue
      flags := flagsSet st.flags v flag
      numShared := ns }
  | some currentType =>
    if flag ≠ currentType ∧ currentType ≠ .Shared then
      { st with
        flags := flagsSet st.flags v .Shared
        numShared := st.numShared + 1 }
    else st

/-- The `markRun` closure of `diff`: record `[start, endInclusive]` under the
flag (Shared runs are skipped; `endInclusive < start` never occurs at the
call sites). -/
def diffMarkRun (aOnly bOnly : List LVRange) (start endIncl : Nat) (flag : DiffFlag) :
    List LVRange × List LVRange :=
  match flag with
  | .Shared => (aOnly, bOnly)
  | .A => (pushRLEList tryRevRangeAppend aOnly (start, endIncl + 1), bOnly)
  | .B => (aOnly, pushRLEList tryRevRangeAppend bOnly (start, endIncl + 1))

/-- The inner `while` of the `diff` loop: consume queued versions that fall
into the entry currently being processed (recursing on the shrinking
queue). -/
def diffInnerLoop (flags : List (Nat × DiffFlag)) (eVersion : Nat) :
    List Nat → Nat → Nat → DiffFlag → List LVRange → List LVRange →
    Option (List Nat × Nat × Nat × DiffFlag × List LVRange × List LVRange)
  | [], numShared, v, flag, aOnly, bOnly => some ([], numShared, v, flag, aOnly, bOnly)
  | v2 :: rest, numShared, v, flag, aOnly, bOnly =>
    if v2 ≥ eVersion then
      match flagsGet flags v2 with
      | none => none
      | some flag2 =>
        let numShared1 := if flag2 = .Shared then numShared - 1 else numShared
        if flag2 ≠ flag then
          let (aOnly1, bOnly1) := diffMarkRun aOnly bOnly (v2 + 1) v flag
          diffInnerLoop flags eVersion rest numShared1 v2 .Shared aOnly1 bOnly1
        else
          diffInnerLoop flags eVersion rest numShared1 v flag aOnly bOnly
    else some (v2 :: rest, numShared, v, flag, aOnly, bOnly)

/-- The outer `while (queue.size() > numShared)` loop of `diff`, on fuel.
Each iteration strictly lowers the largest queued version, so any fuel at
least `nextLV cg + |a| + |b| + 1` is sufficient. -/
def diffLoop (cg : CausalGraph) : Nat → DiffState → Option DiffState
  | 0, st => if st.queue.length ≤ st.numShared then some st else none
  | fuel + 1, st =>
    if st.queue.length ≤ st.numShared then some st
    else
      match st.queue with
      | [] => none
      | v :: rest => do
        let flag ← flagsGet st.flags v
        let numShared0 := if flag = .Shared then st.numShared - 1 else st.numShared
        let e ← findEntryContainingRaw cg v
        let (queue1, numShared1, v1, flag1, aOnly1, bOnly1) ←
          diffInnerLoop st.flags e.version rest numShared0 v flag st.aOnly st.bOnly
        let (aOnly2, bOnly2) := diffMarkRun aOnly1 bOnly1 e.version v1 flag1
        let st1 : DiffState :=
          { queue := queue1, flags := st.flags, numShared := numShared1,
            aOnly := aOnly2, bOnly := bOnly2 }
        let st2 := e.parents.foldl (fun s p => diffEnq s p flag1) st1
        diffLoop cg fuel st2

/-- diff: versions only in the history of `a`, and only in the history of
`b`, both as ascending RLE range lists. -/
def diff (cg : CausalGraph) (a b : List Nat) : Option (List LVRange × List LVRange) := do
  let st0 : DiffState := { queue := [], flags := [], numShared := 0, aOnly := [], bOnly := [] }
  let st1 := a.foldl (fun s v => diffEnq s v .A) st0
  let st2 := b.foldl (fun s v => diffEnq s v .B) st1
  let stF ← diffLoop cg (nextLV cg + a.length + b.length + 1) st2
  pure (stF.aOnly.reverse, stF.bOnly.reverse)

/-- Drop queued versions landing in the entry being processed
(`while (!queue.isEmpty() && queue.peek() >= e.version) queue.deq()`). -/
def dropGe (eVersion : Nat) : List Nat → List Nat
  | [] => []
  | v :: rest => if v ≥ eVersion then dropGe eVersion rest else v :: rest

/-- The loop of versionContainsLV, on fuel.  Each iteration clears the whole
entry interval containing the current maximum, so `nextLV cg + 1` fuel is
always sufficient. -/
def vclLoop (cg : CausalGraph) (target : Nat) : Nat → List Nat → Option Bool
  | 0, queue => if queue = [] then some false else none
  | _ + 1, [] => some false
  | fuel + 1, v :: rest =>
    if v = target then some true
    else
      match findEntryContainingRaw cg v with
      | none => none
      | some e =>
        if e.version ≤ target then some true
        else
          let rest1 := dropGe e.version rest
          if e.parents.contains target then some true
          else
            vclLoop cg target fuel
              (e.parents.foldl (fun q p => if p > target then insertDesc p q else q) rest1)

/-- versionContainsLV: does the frontier causally contain `target`? -/
def versionContainsLV (cg : CausalGraph) (frontier : List Nat) (target : Nat) :
    Option Bool :=
  if frontier.contains target then some true
  else
    vclLoop cg target (nextLV cg + 1)
      (frontier.foldl (fun q v => if v > target then insertDesc v q else q) [])

/-- The entry-clearing inner loop of findDominators2
(`while (!queue.isEmpty() && queue.peek() >= e.version * 2)`). -/
def fdClear (eVersion : Nat) : List Nat → Nat → List (Nat × Bool) →
    List Nat × Nat × List (Nat × Bool)
  | [], ir, acc => ([], ir, acc)
  | v2Enc :: rest, ir, acc =>
    if v2Enc ≥ eVersion * 2 then
      if v2Enc % 2 = 0 then fdClear eVersion rest (ir - 1) (acc ++ [(v2Enc / 2, false)])
      else fdClear eVersion rest ir acc
    else (v2Enc :: rest, ir, acc)

/-- The main loop of findDominators2 (the ≥ 3 inputs case), on fuel;
`nextLV cg + 1` fuel is always sufficient.  The accumulator collects the
`cb` calls in order. -/
def fdLoop (cg : CausalGraph) : Nat → List Nat → Nat → List (Nat × Bool) →
    Option (List (Nat × Bool))
  | 0, queue, ir, acc => if queue = [] ∨ ir = 0 then some acc else none
  | _ + 1, [], _, acc => some acc
  | fuel + 1, vEnc :: rest, ir, acc =>
    if ir = 0 then some acc
    else
      let isInput := vEnc % 2 = 0
      let v := vEnc / 2
      let acc1 := if isInput then acc ++ [(v, true)] else acc
      let ir1 := if isInput then ir - 1 else ir
      match findEntryContainingRaw cg v with
      | none => none
      | some e =>
        let (rest1, ir2, acc2) := fdClear e.version rest ir1 acc1
        let queue1 := e.parents.foldl (fun q p => insertDesc (p * 2 + 1) q) rest1
        fdLoop cg fuel queue1 ir2 acc2

/-- findDominators2: the ordered `(version, isDominator)` callback calls. -/
def findDominators2 (cg : CausalGraph) (versions : List Nat) :
    Option (List (Nat × Bool)) :=
  match versions with
  | [] => some []
  | [v] => some [(v, true)]
  | [v0, v1] =>
    if v0 = v1 then some [(v0, true), (v0, false)]
    else
      let w0 := if v0 > v1 then v1 else v0
      let w1 := if v0 > v1 then v0 else v1
      (versionContainsLV cg [w1] w0).map (fun c => [(w1, true), (w0, !c)])
  | _ =>
    fdLoop cg (nextLV cg + 1)
      (versions.foldl (fun q v => insertDesc (v * 2) q) []) versions.length []

/-- findDominators. -/
def findDominators (cg : CausalGraph) (versions : List Nat) : Option (List Nat) :=
  if versions.length ≤ 1 then some versions
  else
    (findDominators2 cg versions).map
      (fun out => ((out.filter (fun p => p.2)).map (fun p => p.1)).reverse)

/-- insertRLEList for per-agent spans keyed by `seq` (simple causal-graph
variant): append/RLE-merge at the tail in the common case, otherwise splice
at the sorted position (the binary-search insertion point over the sorted
list equals the count of smaller keys); `none` models the
`item already exists` exception. -/
def insertRLEList (list : List ClientEntry) (newItem : ClientEntry) :
    Option (List ClientEntry) :=
  match list.getLast? with
  | none => some [newItem]
  | some last =>
    if newItem.seq ≥ last.seq then some (pushRLEList tryAppendClientEntry list newItem)
    else if list.any (fun e => e.seq = newItem.seq) then none
    else
      let idx := (list.filter (fun e => e.seq < newItem.seq)).length
      if idx = 0 then some (list.insertIdx 0 newItem)
      else
        match list.get? (idx - 1) with
        | none => some (list.insertIdx idx newItem)
        | some prev =>
          match tryAppendClientEntry prev newItem with
          | some merged => some (list.set (idx - 1) merged)
          | none => some (list.insertIdx idx newItem)

/-- clientEntriesForAgent creates the agent's (empty) entry list on first
access (`??=`); this is the key-creation half. -/
def ensureAgent (cg : CausalGraph) (agent : String) : CausalGraph :=
  if (cg.agentToVersion.find? (fun p => p.1 = agent)).isSome then cg
  else addAgent cg agent []

/-- add (simple causal-graph variant): the `while (true)` trimming loop
followed by the insertion.  `nextLV` is read before the loop in the source,
but the loop does not touch the graph, so reading it after trimming is
equivalent.  Fuel bounds the trimming loop (each pass strictly raises
`seqStart`, so `seqEnd - seqStart + 1` passes suffice); the outer `none`
models the `insertRLEList` exception (or exhausted fuel, which cannot happen
at the call sites below), the inner `none` models the JS `null` result for a
fully-known span. -/
def addSimpleGo (cg : CausalGraph) (agent : String) (parents : List Nat)
    (seqStart seqEnd : Nat) : Nat → Option (CausalGraph × Option CGEntry)
  | 0 => none
  | fuel + 1 =>
    match findClientEntryTrimmed cg agent seqStart with
    | some existingEntry =>
      if existingEntry.seqEnd ≥ seqEnd then some (cg, none)
      else
        addSimpleGo cg agent
          [existingEntry.version + (existingEntry.seqEnd - existingEntry.seq) - 1]
          existingEntry.seqEnd seqEnd fuel
    | none =>
      let version := nextLV cg
      let len := seqEnd - seqStart
      let vEnd := version + len
      let entry : CGEntry :=
        { version := version, vEnd := vEnd, agent := agent, seq := seqStart, parents := parents }
      let cg1 := { cg with entries := pushRLEList tryAppendEntries cg.entries entry }
      let cg2 := ensureAgent cg1 agent
      match avFor cg2 agent with
      | none => none
      | some av =>
        match insertRLEList av { seq := seqStart, seqEnd := seqEnd, version := version } with
        | none => none
        | some av1 =>
          let cg3 := setAv cg2 agent av1
          some ({ cg3 with heads := advanceFrontier cg3.heads (vEnd - 1) parents }, some entry)

/-- add (simple variant) with its fuel supplied. -/
def addSimple (cg : CausalGraph) (agent : String) (seqStart seqEnd : Nat)
    (parents : List Nat) : Option (CausalGraph × Option CGEntry) :=
  addSimpleGo cg agent parents seqStart seqEnd (seqEnd - seqStart + 1)

/-- addRaw (simple variant): resolve raw parents, then add. -/
def addRaw (cg : CausalGraph) (id : Id) (len : Nat) (rawParents : List Id) :
    Option (CausalGraph × Option CGEntry) := do
  let parents ← idToLVList cg rawParents
  addSimple cg id.1 id.2 (id.2 + len) parents

/-- The entry loop of the simple-variant mergePartialVersions (which calls
`addRaw`); same exception semantics as `mergePartialGo`. -/
def mergePartialGoSimple (cg : CausalGraph) (data : List PSEntry) (start : Nat) :
    CausalGraph × Option LVRange :=
  match data with
  | [] => (cg, some (start, nextLV cg))
  | e :: rest =>
    match addRaw cg (e.agent, e.seq) e.len e.parents with
    | none => (cg, none)
    | some (cg1, _) => mergePartialGoSimple cg1 rest start

/-- mergePartialVersions (simple variant) with partial-mutation-on-error
semantics. -/
def mergePartialVersionsRunSimple (cg : CausalGraph) (data : List PSEntry) :
    CausalGraph × Option LVRange :=
  mergePartialGoSimple cg data (nextLV cg)

/-- The inner client-entry loop of intersectWithSummaryFull for one summary
range of one agent, starting from the binary-search position.  Produces the
visitor calls `(agent, startSeq, endSeq, version)` in order; `-1` stands for
a span the local graph does not know. -/
def intersectLoop (agent : String) : List ClientEntry → Nat → Nat →
    List (String × Nat × Nat × Int)
  | [], startSeq, endSeq =>
    if startSeq < endSeq then [(agent, startSeq, endSeq, -1)] else []
  | ce :: rest, startSeq, endSeq =>
    if ce.seq ≥ endSeq then
      if startSeq < endSeq then [(agent, startSeq, endSeq, -1)] else []
    else
      let pre : List (String × Nat × Nat × Int) :=
        if ce.seq > startSeq then [(agent, startSeq, ce.seq, -1)] else []
      let startSeq1 := if ce.seq > startSeq then ce.seq else startSeq
      let seqOffset := startSeq1 - ce.seq
      let versionStart := ce.version + seqOffset
      let localSeqEnd := min ce.seqEnd endSeq
      pre ++ [(agent, startSeq1, localSeqEnd, (versionStart : Int))] ++
        intersectLoop agent rest localSeqEnd endSeq

/-- The start index used by intersectWithSummaryFull: the binary-search hit
or its insertion point. -/
def intersectStartIdx (av : List ClientEntry) (seq : Nat) : Nat :=
  match findAVIndex av seq with
  | .found i => i
  | .notFound i => i

/-- intersectWithSummaryFull: the ordered visitor calls. -/
def intersectWithSummaryFull (cg : CausalGraph)
    (summary : List (String × List (Nat × Nat))) : List (String × Nat × Nat × Int) :=
  summary.foldl
    (fun acc p =>
      acc ++ p.2.foldl
        (fun acc2 r =>
          acc2 ++
            (match avFor cg p.1 with
             | none => if r.1 < r.2 then [(p.1, r.1, r.2, (-1 : Int))] else []
             | some av => intersectLoop p.1 (av.drop (intersectStartIdx av r.1)) r.1 r.2))
        [])
    []

/-- Append a range to the remainder summary being built (`remainder[agent]
??= []; push`). -/
def remAdd (rem : List (String × List (Nat × Nat))) (agent : String) (s e : Nat) :
    List (String × List (Nat × Nat)) :=
  if (rem.find? (fun p => p.1 = agent)).isSome then
    rem.map (fun p => if p.1 = agent then (p.1, p.2 ++ [(s, e)]) else p)
  else rem ++ [(agent, [(s, e)])]

/-- intersectWithSummary: the most recent common version (as dominators) and
the remainder summary (`none` models the JS `null`). -/
def intersectWithSummary (cg : CausalGraph) (summary : List (String × List (Nat × Nat)))
    (versionsIn : List Nat) :
    Option (List Nat × Option (List (String × List (Nat × Nat)))) := do
  let step := fun (st : List Nat × Option (List (String × List (Nat × Nat))))
      (visit : String × Nat × Nat × Int) =>
    match visit with
    | (agent, startSeq, endSeq, versionStart) =>
      if versionStart ≥ 0 then do
        let vs := versionStart.toNat
        let versionEnd := vs + (endSeq - startSeq)
        let visits ← eachVersionBetween cg vs versionEnd
        let vls ← visits.mapM
          (fun t => if t.2.2 - 1 < t.1.version then none else some (t.2.2 - 1))
        pure (st.1 ++ vls, st.2)
      else
        pure (st.1, some (remAdd (st.2.getD []) agent startSeq endSeq))
  let stF ← (intersectWithSummaryFull cg summary).foldlM step (versionsIn, none)
  let doms ← findDominators cg stF.1
  pure (doms, stF.2)

namespace Simple

/-- A list operation of the simple oplog: insert one element at `pos`, or
delete the element at `pos`. -/
inductive ListOp (T : Type) where
  | ins (pos : Nat) (content : T)
  | del (pos : Nat)
deriving DecidableEq, Repr

/-- The simple oplog: one operation per local version (the LV of an op is its
index in `ops`). -/
structure ListOpLog (T : Type) where
  ops : List (ListOp T)
  cg : CausalGraph
deriving DecidableEq, Repr

/-- createOpLog. -/
def createOpLog (T : Type) : ListOpLog T := ⟨[], createCG⟩

/-- localInsert: assign the next seq for the agent, extend the causal graph
at the current heads, and push one insert op per element (each at the next
position). -/
def localInsert (oplog : ListOpLog T) (agent : String) (pos : Nat) (content : List T) :
    Option (ListOpLog T) := do
  let seq := nextSeqForAgent oplog.cg agent
  let (cg1, _) ← addSimple oplog.cg agent seq (seq + content.length) oplog.cg.heads
  pure { ops := oplog.ops ++ content.mapIdx (fun i val => ListOp.ins (pos + i) val), cg := cg1 }

/-- localDelete: push `len` single-position deletes at the same position. -/
def localDelete (oplog : ListOpLog T) (agent : String) (pos : Nat) (len : Nat) :
    Option (ListOpLog T) := do
  if len = 0 then none
  else
    let seq := nextSeqForAgent oplog.cg agent
    let (cg1, _) ← addSimpleGo oplog.cg agent oplog.cg.heads seq (seq + len) (len + 1)
    pure { ops := oplog.ops ++ List.replicate len (ListOp.del pos), cg := cg1 }

/-- pushOp: add one remote op.  Returns `false` (and leaves the log alone)
when the version is already known; `none` models the internal assertion
`oplog length and cg do not match` (and exceptions from `addRaw`).  The JS
`content === undefined` check is subsumed by the `ListOp` type. -/
def pushOp (oplog : ListOpLog T) (id : Id) (parents : List Id) (op : ListOp T) :
    Option (ListOpLog T × Bool) := do
  let (cg1, entry) ← addRaw oplog.cg id 1 parents
  match entry with
  | none => pure (oplog, false)
  | some e =>
    if e.version = oplog.ops.length then
      pure (⟨oplog.ops ++ [op], cg1⟩, true)
    else none

/-- getLatestVersion. -/
def getLatestVersion (oplog : ListOpLog T) : Option (List Id) :=
  lvToIdList oplog.cg oplog.cg.heads

/-- mergeOplogInto.  The JS function mutates `dest` in place and can throw
from `mergePartialVersions` partway through; we return the destination as it
is left when the call completes or throws (second component `true` on
completion).  An out-of-range `src.ops[i]` access in the final copy loop is
modelled as failure. -/
def mergeOplogIntoRun (dest src : ListOpLog T) : ListOpLog T × Bool :=
  match intersectWithSummary src.cg (summarizeVersion dest.cg) [] with
  | none => (dest, false)
  | some common =>
    match diff src.cg common.1 src.cg.heads with
    | none => (dest, false)
    | some dres =>
      match serializeDiff src.cg dres.2 with
      | none => (dest, false)
      | some cgDiff =>
        match (mergePartialVersionsRunSimple dest.cg cgDiff).2 with
        | none => ({ dest with cg := (mergePartialVersionsRunSimple dest.cg cgDiff).1 }, false)
        | some _ =>
          match dres.2.mapM (fun r => (List.range' r.1 (r.2 - r.1)).mapM (fun i => src.ops.get? i)) with
          | none => ({ dest with cg := (mergePartialVersionsRunSimple dest.cg cgDiff).1 }, false)
          | some chunks =>
            (⟨dest.ops ++ chunks.flatten, (mergePartialVersionsRunSimple dest.cg cgDiff).1⟩, true)

/-- A CRDT item of the replay engine.  `curState`/`endState` use the JS
encoding: `-1` not-yet-inserted, `0` inserted, `≥ 1` deleted (that many
times).  `originLeft`/`rightParent` are LVs, `-1` for the document
boundary. -/
structure Item where
  opId : Nat
  curState : Int
  endState : Int
  originLeft : Int
  rightParent : Int
deriving DecidableEq, Repr

/-- The replay context.  `itemsByLV` aliases the very item objects stored in
`items`, so we model it as lookup by `opId` (opIds are unique across items);
`delTargets` is the JS array (filled with `-1`) modelled as an association
list, where a missing key behaves like the JS `-1` (reading it crashes the
replay). -/
structure EditContext where
  items : List Item
  delTargets : List (Nat × Nat)
  curVersion : List Nat
deriving DecidableEq, Repr

/-- itemWidth. -/
def itemWidth (state : Int) : Nat := if state = 0 then 1 else 0

/-- Lookup through `itemsByLV`. -/
def getItemByLV (ctx : EditContext) (lv : Nat) : Option Item :=
  ctx.items.find? (fun it => it.opId = lv)

/-- In-place mutation of the item reached through `itemsByLV`. -/
def updateItemByLV (ctx : EditContext) (lv : Nat) (f : Item → Item) : EditContext :=
  { ctx with items := ctx.items.map (fun it => if it.opId = lv then f it else it) }

/-- delTargets read. -/
def dtGet (dt : List (Nat × Nat)) (k : Nat) : Option Nat :=
  (dt.find? (fun p => p.1 = k)).map (fun p => p.2)

/-- delTargets write. -/
def dtSet (dt : List (Nat × Nat)) (k v : Nat) : List (Nat × Nat) :=
  if (dt.find? (fun p => p.1 = k)).isSome then
    dt.map (fun p => if p.1 = k then (k, v) else p)
  else dt ++ [(k, v)]

/-- advance1: re-apply an already-processed op to the item states.  `none`
models the assertion failures. -/
def advance1 (ctx : EditContext) (oplog : ListOpLog T) (opId : Nat) :
    Option EditContext := do
  let op ← oplog.ops.get? opId
  match op with
  | .del _ => do
    let targetLV ← dtGet ctx.delTargets opId
    let item ← getItemByLV ctx targetLV
    if item.curState ≥ 0 ∧ item.endState ≥ 1 then
      pure (updateItemByLV ctx targetLV (fun it => { it with curState := it.curState + 1 }))
    else none
  | .ins _ _ => do
    let item ← getItemByLV ctx opId
    if item.curState = -1 then
      pure (updateItemByLV ctx opId (fun it => { it with curState := 0 }))
    else none

/-- retreat1: roll an already-processed op back out of the item states. -/
def retreat1 (ctx : EditContext) (oplog : ListOpLog T) (opId : Nat) :
    Option EditContext := do
  let op ← oplog.ops.get? opId
  let targetLV ← match op with
    | .del _ => dtGet ctx.delTargets opId
    | .ins _ _ => pure opId
  let item ← getItemByLV ctx targetLV
  let ok : Bool := match op with
    | .del _ => decide (item.curState ≥ 1 ∧ item.endState ≥ 1)
    | .ins _ _ => decide (item.curState = 0)
  if ok then
    pure (updateItemByLV ctx targetLV (fun it => { it with curState := it.curState - 1 }))
  else none

/-- The `while (curPos < targetPos)` walk of findByCurPos; returns
`(idx, endPos)`. -/
def findByCurPosGo (target : Nat) : List Item → Nat → Nat → Nat → Option (Nat × Nat)
  | items, curPos, endPos, i =>
    if curPos < target then
      match items with
      | [] => none
      | item :: rest =>
        findByCurPosGo target rest (curPos + itemWidth item.curState)
          (endPos + itemWidth item.endState) (i + 1)
    else some (i, endPos)

/-- findByCurPos. -/
def findByCurPos (ctx : EditContext) (targetPos : Nat) : Option (Nat × Nat) :=
  findByCurPosGo targetPos ctx.items 0 0 0

/-- findItemIdx (throws when the needle is absent). -/
def findItemIdx (items : List Item) (needle : Nat) : Option Nat :=
  items.findIdx? (fun it => it.opId = needle)

/-- The skip loop of the delete branch of apply1: advance to the next
currently-inserted item, accumulating endState widths.  Returns the number
of items skipped and the final endPos; `none` models falling off the end. -/
def skipNonInserted : List Item → Nat → Option (Nat × Nat)
  | [], _ => none
  | item :: rest, endPos =>
    if item.curState = 0 then some (0, endPos)
    else (skipNonInserted rest (endPos + itemWidth item.endState)).map
      (fun r => (r.1 + 1, r.2))

/-- The right-parent scan of the insert branch of apply1. -/
def scanRightParent (originLeft : Int) : List Item → Int
  | [] => -1
  | nextItem :: rest =>
    if nextItem.curState ≠ -1 then
      if nextItem.originLeft = originLeft then (nextItem.opId : Int) else -1
    else scanRightParent originLeft rest

/-- The scan loop of integrate over the item suffix starting at `scanIdx`.
`cursor` is `(idx, endPos)`.  `none` models the `invalid state` throw and
missing `findItemIdx` needles. -/
def integrateLoop (cg : CausalGraph) (allItems : List Item) (newItem : Item)
    (leftIdx rightIdx : Int) :
    List Item → Nat → Nat → Bool → Nat × Nat → Option (Nat × Nat)
  | [], _, _, _, cursor => some cursor
  | other :: rest, scanIdx, scanEndPos, scanning, cursor =>
    if other.curState ≠ -1 then some cursor
    else if (other.opId : Int) = newItem.rightParent then none
    else
      let oleftIdxO : Option Int :=
        if other.originLeft = -1 then some (-1)
        else (allItems.findIdx? (fun it => (it.opId : Int) = other.originLeft)).map
          (fun n => (n : Int))
      match oleftIdxO with
      | none => none
      | some oleftIdx =>
        if oleftIdx < leftIdx then some cursor
        else
          let stepRes : Option (Bool ⊕ Unit) :=
            if oleftIdx = leftIdx then
              let orightIdxO : Option Int :=
                if other.rightParent = -1 then some (allItems.length : Int)
                else (allItems.findIdx? (fun it => (it.opId : Int) = other.rightParent)).map
                  (fun n => (n : Int))
              match orightIdxO with
              | none => none
              | some orightIdx =>
                if orightIdx = rightIdx then
                  match lvCmp cg newItem.opId other.opId with
                  | none => none
                  | some c =>
                    if c < 0 then some (Sum.inr ())
                    else some (Sum.inl (decide (orightIdx < rightIdx)))
                else some (Sum.inl (decide (orightIdx < rightIdx)))
            else some (Sum.inl scanning)
          match stepRes with
          | none => none
          | some (Sum.inr _) => some cursor
          | some (Sum.inl scanning1) =>
            let scanEndPos1 := scanEndPos + itemWidth other.endState
            let scanIdx1 := scanIdx + 1
            let cursor1 := if scanning1 then cursor else (scanIdx1, scanEndPos1)
            integrateLoop cg allItems newItem leftIdx rightIdx rest scanIdx1 scanEndPos1
              scanning1 cursor1

/-- integrate (the Fugue / Sync9 rule): find the insertion index for the new
item among concurrent not-yet-inserted items, returning the updated
cursor. -/
def integrate (ctx : EditContext) (cg : CausalGraph) (newItem : Item)
    (cursor : Nat × Nat) : Option (Nat × Nat) :=
  match ctx.items.get? cursor.1 with
  | none => some cursor
  | some it0 =>
    if it0.curState ≠ -1 then some cursor
    else
      let rightIdxO : Option Int :=
        if newItem.rightParent = -1 then some (ctx.items.length : Int)
        else (findItemIdx ctx.items newItem.rightParent.toNat).map (fun n => (n : Int))
      match rightIdxO with
      | none => none
      | some rightIdx =>
        integrateLoop cg ctx.items newItem ((cursor.1 : Int) - 1) rightIdx
          (ctx.items.drop cursor.1) cursor.1 cursor.2 false cursor

/-- apply1: apply the op at `opId` to the CRDT item list and (when present)
to the document snapshot. -/
def apply1 (ctx : EditContext) (snapshot : Option (List T)) (oplog : ListOpLog T)
    (opId : Nat) : Option (EditContext × Option (List T)) := do
  let op ← oplog.ops.get? opId
  match op with
  | .del pos => do
    let (idx0, endPos0) ← findByCurPos ctx pos
    let (skip, endPos1) ← skipNonInserted (ctx.items.drop idx0) endPos0
    let idx1 := idx0 + skip
    let item ← ctx.items.get? idx1
    if item.curState ≠ 0 then none
    else
      let snapshot1 :=
        if item.endState = 0 then snapshot.map (fun s => s.eraseIdx endPos1)
        else snapshot
      let items1 := ctx.items.set idx1 { item with curState := 1, endState := 1 }
      pure ({ ctx with items := items1, delTargets := dtSet ctx.delTargets opId item.opId },
        snapshot1)
  | .ins pos content => do
    let (idx0, endPos0) ← findByCurPos ctx pos
    let prevOk : Bool ←
      if idx0 = 0 then pure true
      else (ctx.items.get? (idx0 - 1)).map (fun prevItem => decide (prevItem.curState = 0))
    if ¬ prevOk then none
    else do
      let originLeft : Int ←
        if idx0 = 0 then pure (-1)
        else (ctx.items.get? (idx0 - 1)).map (fun prevItem => (prevItem.opId : Int))
      let rightParent := scanRightParent originLeft (ctx.items.drop idx0)
      let newItem : Item :=
        { opId := opId, curState := 0, endState := 0,
          originLeft := originLeft, rightParent := rightParent }
      let cursor ← integrate ctx oplog.cg newItem (idx0, endPos0)
      let items1 := ctx.items.insertIdx cursor.1 newItem
      let snapshot1 := snapshot.map (fun s => s.insertIdx cursor.2 content)
      pure ({ ctx with items := items1 }, snapshot1)

/-- Ascending loop over the LVs `start, …, start + n - 1`. -/
def foldRangeAsc (f : σ → Nat → Option σ) (start : Nat) : Nat → σ → Option σ
  | 0, s => some s
  | n + 1, s => do foldRangeAsc f (start + 1) n (← f s start)

/-- Descending loop over the LVs `start + n - 1, …, start`. -/
def foldRangeDesc (f : σ → Nat → Option σ) (start : Nat) : Nat → σ → Option σ
  | 0, s => some s
  | n + 1, s => do foldRangeDesc f start n (← f s (start + n))

/-- traverseAndApply: walk the causal graph between `fromOp` and `toOp`,
retreating (in reverse), advancing, then applying each entry, and tracking
`curVersion`. -/
def traverseAndApply (ctx : EditContext) (oplog : ListOpLog T)
    (snapshot : Option (List T)) (fromOp toOp : Nat) :
    Option (EditContext × Option (List T)) := do
  let entries ← iterVersionsBetween oplog.cg fromOp toOp
  entries.foldlM
    (fun (st : EditContext × Option (List T)) entry => do
      let (aOnly, bOnly) ← diff oplog.cg st.1.curVersion entry.parents
      let ctx1 ← (aOnly.reverse).foldlM
        (fun c r => foldRangeDesc (fun c2 lv => retreat1 c2 oplog lv) r.1 (r.2 - r.1) c) st.1
      let ctx2 ← bOnly.foldlM
        (fun c r => foldRangeAsc (fun c2 lv => advance1 c2 oplog lv) r.1 (r.2 - r.1) c) ctx1
      let stA ← foldRangeAsc
        (fun (p : EditContext × Option (List T)) lv => apply1 p.1 p.2 oplog lv)
        entry.version (entry.vEnd - entry.version) (ctx2, st.2)
      pure ({ stA.1 with curVersion := [entry.vEnd - 1] }, stA.2))
    (ctx, snapshot)

/-- A branch: a materialized snapshot plus its version frontier. -/
structure Branch (T : Type) where
  snapshot : List T
  version : List Nat
deriving DecidableEq, Repr

/-- createEmptyBranch. -/
def createEmptyBranch (T : Type) : Branch T := ⟨[], []⟩

/-- checkout: replay the whole oplog into a fresh snapshot. -/
def checkout (oplog : ListOpLog T) : Option (Branch T) := do
  let ctx : EditContext := ⟨[], [], []⟩
  let (_, snapshot) ← traverseAndApply ctx oplog (some []) 0 (nextLV oplog.cg)
  let s ← snapshot
  pure ⟨s, oplog.cg.heads⟩

/-- checkoutSimple. -/
def checkoutSimple (oplog : ListOpLog T) : Option (List T) :=
  (checkout oplog).map (fun b => b.snapshot)

end Simple

/-- The set, as the spec's words describe it, of LVs that appear in no
entry's parents list (ascending). -/
def headsNoParent (cg : CausalGraph) : List Nat :=
  (List.range (nextLV cg)).filter
    (fun v => ¬ cg.entries.any (fun e => e.parents.contains v))

/-- Is `v` the final LV of the entry containing it? -/
def lastOfEntry (cg : CausalGraph) (v : Nat) : Bool :=
  cg.entries.any (fun e => e.version ≤ v ∧ v + 1 = e.vEnd)

/-- Does `v` appear in some entry's parents list? -/
def appearsAsParent (cg : CausalGraph) (v : Nat) : Bool :=
  cg.entries.any (fun e => e.parents.contains v)

/-- The corrected description of `heads`: the LVs with no descendant, i.e.
the final LVs of their entries that appear in no parents list (ascending). -/
def headSpec (cg : CausalGraph) : List Nat :=
  (List.range (nextLV cg)).filter
    (fun v => lastOfEntry cg v ∧ ¬ appearsAsParent cg v)

/-- Gaplessness of the entry list starting at LV `n`: each entry begins
where the previous one ended, and is non-empty. -/
def entriesFrom : Nat → List CGEntry → Bool
  | _, [] => true
  | n, e :: rest => e.version = n && n < e.vEnd && entriesFrom e.vEnd rest

/-- RLE-maximality: no two adjacent stored entries satisfy the
`tryAppendEntries` merge condition. -/
def rleMaximal (cg : CausalGraph) : Prop :=
  List.Chain' (fun a b => (tryAppendEntries a b).isNone) cg.entries

/-- Gaplessness of a causal graph's entry list, from LV 0. -/
def gapless (cg : CausalGraph) : Prop :=
  entriesFrom 0 cg.entries = true

/-- The causal graphs reachable through the public mutators, with arguments
a caller can legitimately pass: `add` with parents that exist (this is what
every caller in the repository does), `addRemote` with any raw input that
does not make it throw, and `mergePartialVersions` with any serialized diff
(a failing diff leaves the partially merged graph behind, which is the state
the caller keeps). -/
inductive Reachable : CausalGraph → Prop
  | base : Reachable createCG
  | add {cg agent seqStart seqEnd parents} : Reachable cg →
      seqStart ≤ seqEnd →
      (∀ p ∈ parents, p < nextLV cg) →
      Reachable (add cg agent seqStart seqEnd parents).1
  | addRemote {cg id len rawParents res} : Reachable cg →
      addRemote cg id len rawParents = some res →
      Reachable res.1
  | mergePartial {cg data} : Reachable cg →
      Reachable (mergePartialVersionsRun cg data).1

/-- Well-formedness of one agent's client-entry list: non-empty spans,
sorted by seq and pairwise disjoint. -/
def avWF (av : List ClientEntry) : Prop :=
  (∀ ce ∈ av, ce.seq < ce.seqEnd) ∧ List.Chain' (fun a b => a.seqEnd ≤ b.seq) av

/-- Well-formedness of a causal graph, maintained by every reachable state:
the structural entry invariants, the heads characterization, and the mutual
consistency of the entry list with the per-agent index. -/
structure WF (cg : CausalGraph) : Prop where
  gap : gapless cg
  parentsLT : ∀ e ∈ cg.entries, ∀ p ∈ e.parents, p < e.version
  rle : rleMaximal cg
  headsOk : cg.heads = headSpec cg
  keysNodup : (cg.agentToVersion.map Prod.fst).Nodup
  avOk : ∀ p ∈ cg.agentToVersion, avWF p.2
  cToE : ∀ p ∈ cg.agentToVersion, ∀ ce ∈ p.2, ∀ k, k < ce.seqEnd - ce.seq →
    lvToId cg (ce.version + k) = some (p.1, ce.seq + k)
  eToC : ∀ e ∈ cg.entries, ∀ k, k < e.vEnd - e.version →
    idToLV cg e.agent (e.seq + k) = some (e.version + k)

/-- The LV where an entry list beginning at `n` ends. -/
def nextFrom (n : Nat) (es : List CGEntry) : Nat :=
  match es.getLast? with
  | none => n
  | some e => e.vEnd

/-- The length of the maximal suffix of the seq span `[seqStart, seqEnd)`
none of whose `(agent, seq)` pairs is known to the graph. -/
def unknownSuffixLen (cg : CausalGraph) (agent : String) (seqStart seqEnd : Nat) : Nat :=
  (((List.range' seqStart (seqEnd - seqStart)).reverse).takeWhile
    (fun s => ¬ hasVersion cg agent s)).length

/-- The C9 scenario: starting from an empty log, `(u1, 0)` inserts `A` at 0
with no parents, and `(u2, 0)` concurrently inserts `B` at 0 with no
parents. -/
def c9oplog : Option (Simple.ListOpLog Char) := do
  let (l1, _) ← Simple.pushOp (Simple.createOpLog Char) ("u1", 0) [] (Simple.ListOp.ins 0 'A')
  let (l2, _) ← Simple.pushOp l1 ("u2", 0) [] (Simple.ListOp.ins 0 'B')
  pure l2

/-- The C3 destination oplog: one remote op `(a, 5)` with no parents (a
perfectly legal `pushOp` call sequence; see `c3destBuild`). -/
def c3dest : Simple.ListOpLog Char :=
  ⟨[Simple.ListOp.ins 0 'X'],
   ⟨[0], [⟨0, 1, "a", 5, []⟩], [("a", [⟨5, 6, 0⟩])]⟩⟩

/-- The build of `c3dest` through the public API. -/
def c3destBuild : Option (Simple.ListOpLog Char) := do
  let (l1, _) ← Simple.pushOp (Simple.createOpLog Char) ("a", 5) [] (Simple.ListOp.ins 0 'X')
  pure l1

/-- The C3 source oplog: agent `a` wrote seqs 0..5 in a chain, agent `d`
wrote one op on an independent branch, and agent `c` wrote one op whose
parent is `(a, 2)`.  (It shares the pair `(a, 5)` with `c3dest`, the way two
peers that reused an agent name can.) -/
def c3src : Simple.ListOpLog Char :=
  ⟨[Simple.ListOp.ins 0 'h', Simple.ListOp.ins 1 'i', Simple.ListOp.ins 2 'j',
    Simple.ListOp.ins 3 'k', Simple.ListOp.ins 4 'l', Simple.ListOp.ins 5 'm',
    Simple.ListOp.ins 0 'D', Simple.ListOp.ins 0 'C'],
   ⟨[5, 6, 7],
    [⟨0, 6, "a", 0, []⟩, ⟨6, 7, "d", 0, []⟩, ⟨7, 8, "c", 0, [2]⟩],
    [("a", [⟨0, 6, 0⟩]), ("d", [⟨0, 1, 6⟩]), ("c", [⟨0, 1, 7⟩])]⟩⟩

/-- The build of `c3src` through the public API. -/
def c3srcBuild : Option (Simple.ListOpLog Char) := do
  let (l1, _) ← Simple.pushOp (Simple.createOpLog Char) ("a", 0) [] (Simple.ListOp.ins 0 'h')
  let (l2, _) ← Simple.pushOp l1 ("a", 1) [("a", 0)] (Simple.ListOp.ins 1 'i')
  let (l3, _) ← Simple.pushOp l2 ("a", 2) [("a", 1)] (Simple.ListOp.ins 2 'j')
  let (l4, _) ← Simple.pushOp l3 ("a", 3) [("a", 2)] (Simple.ListOp.ins 3 'k')
  let (l5, _) ← Simple.pushOp l4 ("a", 4) [("a", 3)] (Simple.ListOp.ins 4 'l')
  let (l6, _) ← Simple.pushOp l5 ("a", 5) [("a", 4)] (Simple.ListOp.ins 5 'm')
  let (l7, _) ← Simple.pushOp l6 ("d", 0) [] (Simple.ListOp.ins 0 'D')
  let (l8, _) ← Simple.pushOp l7 ("c", 0) [("a", 2)] (Simple.ListOp.ins 0 'C')
  pure l8

/-- A concrete three-version causal graph: agent `a` assigns LVs 0,1 as one
run, then agent `b` assigns LV 2 with parent 1. -/
def c8cgW : CausalGraph :=
  (add (add createCG "a" 0 2 []).1 "b" 0 1 [1]).1

namespace Fancy

/-- A list operation of the run-length-encoded oplog of part_007's first
half: insert a content run at `pos`, or delete `len` items at `pos`
(`ListOp` there). -/
inductive FOp (T : Type) where
  | ins (pos : Nat) (content : List T)
  | del (pos : Nat) (len : Nat)
deriving DecidableEq, Repr

/-- opLen. -/
def opLen : FOp T → Nat
  | .ins _ content => content.length
  | .del _ len => len

/-- `OpWithVersion`: an operation stamped with the LV of its first item. -/
structure OpWithV (T : Type) where
  op : FOp T
  version : Nat
deriving DecidableEq, Repr

/-- tryMergeOpWithV: RLE merge condition for adjacent stored operations.  The
JS function mutates `a` and returns a Bool; we return the merged value. -/
def tryMergeOpWithV (a b : OpWithV T) : Option (OpWithV T) :=
  match a.op, b.op with
  | .ins apos acontent, .ins bpos bcontent =>
    if apos + acontent.length = bpos ∧ a.version + acontent.length = b.version then
      some ⟨.ins apos (acontent ++ bcontent), a.version⟩
    else none
  | .del apos alen, .del bpos blen =>
    if apos = bpos ∧ a.version + alen = b.version then
      some ⟨.del apos (alen + blen), a.version⟩
    else none
  | _, _ => none

/-- The RLE oplog (`ListOpLog` in part_007's first half). -/
structure FOpLog (T : Type) where
  ops : List (OpWithV T)
  cg : CausalGraph
deriving DecidableEq, Repr

/-- createOpLog. -/
def createFOpLog (T : Type) : FOpLog T := ⟨[], createCG⟩

/-- The truncation performed by pushRemoteOp when part of the span is already
known: keep the tail of the operation, dropping `sliceAt` items. -/
def sliceTail : FOp T → Nat → FOp T
  | .del pos len, sliceAt => .del pos (len - sliceAt)
  | .ins pos content, sliceAt => .ins (pos + sliceAt) (content.drop sliceAt)

/-- pushRemoteOp: add a remote operation, trimming the part that is already
known.  `none` models the `assert(len > 0)` failure and the `UnknownId`
exception from addRemote. -/
def pushRemoteOp (oplog : FOpLog T) (id : Id) (parents : List Id) (op : FOp T) :
    Option (FOpLog T × Nat) :=
  let len := opLen op
  if len = 0 then none
  else
    let version := nextLV oplog.cg
    match addRemote oplog.cg id len parents with
    | none => none
    | some (cg1, lenAdded) =>
      if lenAdded = 0 then some ({ oplog with cg := cg1 }, 0)
      else
        let op1 := if lenAdded < len then sliceTail op (len - lenAdded) else op
        some ({ ops := pushRLEList tryMergeOpWithV oplog.ops ⟨op1, version⟩,
                cg := cg1 }, lenAdded)

end Fancy

/-- Causal ancestry: `Anc cg a b` iff `a` is in the history of `b` (including
`a = b`).  Within one RLE entry the versions are sequential, and an entry's
parents link its first version to earlier history. -/
inductive Anc (cg : CausalGraph) : Nat → Nat → Prop
  | refl (v : Nat) : Anc cg v v
  | inEntry {a b : Nat} (e : CGEntry) : e ∈ cg.entries → e.version ≤ a → a ≤ b →
      b < e.vEnd → Anc cg a b
  | parent {a b : Nat} (p : Nat) (e : CGEntry) : e ∈ cg.entries → e.version ≤ b →
      b < e.vEnd → p ∈ e.parents → Anc cg a p → Anc cg a b

/-- A dominator of a version set: a member that is an ancestor of no other
member. -/
def DomSpec (cg : CausalGraph) (versions : List Nat) (v : Nat) : Prop :=
  v ∈ versions ∧ ∀ w ∈ versions, Anc cg v w → w = v

/-- The even (input-encoded) values of a findDominators2 queue, decoded. -/
def evens (q : List Nat) : List Nat :=
  (q.filter (fun x => x % 2 = 0)).map (fun x => x / 2)

/-- The versions marked as dominators among ordered callback results. -/
def trues (acc : List (Nat × Bool)) : List Nat :=
  (acc.filter (fun pr => pr.2)).map (fun pr => pr.1)

end EgWalker

namespace EgWalker

/-! Theorems. -/

theorem contains_iff_mem (l : List Nat) (x : Nat) : l.contains x = true ↔ x ∈ l := by
  simp [List.contains]

theorem insertAsc_perm (x : Nat) (l : List Nat) : (insertAsc x l).Perm (x :: l) := by
  induction l with
  | nil => simp [insertAsc]
  | cons y ys ih =>
    by_cases h : x ≤ y
    · simp [insertAsc, h]
    · simp only [insertAsc, if_neg h]
      exact ((ih.cons y).trans (List.Perm.swap x y ys))

theorem insertAsc_sorted (x : Nat) (l : List Nat) (h : l.Sorted (· ≤ ·)) :
    (insertAsc x l).Sorted (· ≤ ·) := by
  induction l with
  | nil => exact List.sorted_singleton x
  | cons y ys ih =>
    rw [List.sorted_cons] at h
    by_cases hxy : x ≤ y
    · simp only [insertAsc, if_pos hxy, List.sorted_cons]
      refine ⟨?_, h⟩
      intro b hb
      cases hb with
      | head => exact hxy
      | tail _ hb => exact Nat.le_trans hxy (h.1 b hb)
    · simp only [insertAsc, if_neg hxy, List.sorted_cons]
      refine ⟨?_, ih h.2⟩
      intro b hb
      have hmem := (insertAsc_perm x ys).mem_iff.mp hb
      cases hmem with
      | head => exact Nat.le_of_not_le hxy
      | tail _ hb2 => exact h.1 b hb2

theorem sortVersions_perm (l : List Nat) : (sortVersions l).Perm l := by
  induction l with
  | nil => simp [sortVersions]
  | cons x xs ih =>
    simp only [sortVersions, List.foldr_cons]
    exact (insertAsc_perm x _).trans (ih.cons x)

theorem sortVersions_sorted (l : List Nat) : (sortVersions l).Sorted (· ≤ ·) := by
  induction l with
  | nil => simp [sortVersions]
  | cons x xs ih => exact insertAsc_sorted x _ ih

theorem sorted_nodup_eq_of_mem (l₁ l₂ : List Nat) (h₁ : l₁.Nodup) (h₂ : l₂.Nodup)
    (hs₁ : l₁.Sorted (· ≤ ·)) (hs₂ : l₂.Sorted (· ≤ ·))
    (hm : ∀ x, x ∈ l₁ ↔ x ∈ l₂) : l₁ = l₂ := by
  apply List.eq_of_perm_of_sorted _ hs₁ hs₂
  apply List.perm_iff_count.mpr
  intro a
  by_cases hmem : a ∈ l₁
  · rw [List.count_eq_one_of_mem h₁ hmem, List.count_eq_one_of_mem h₂ ((hm a).mp hmem)]
  · have hm2 : a ∉ l₂ := fun h => hmem ((hm a).mpr h)
    rw [List.count_eq_zero.mpr hmem, List.count_eq_zero.mpr hm2]

theorem advanceFrontier_mem (frontier : List Nat) (vLast : Nat) (parents : List Nat)
    (x : Nat) :
    x ∈ advanceFrontier frontier vLast parents ↔
      (x ∈ frontier ∧ x ∉ parents) ∨ x = vLast := by
  unfold advanceFrontier
  rw [(sortVersions_perm _).mem_iff]
  simp only [List.mem_append, List.mem_filter, List.mem_singleton]
  constructor
  · rintro (⟨hm, hp⟩ | h)
    · left
      refine ⟨hm, ?_⟩
      intro hx
      rw [decide_eq_true_iff] at hp
      exact hp ((contains_iff_mem parents x).mpr hx)
    · right; exact h
  · rintro (⟨hm, hp⟩ | h)
    · left
      refine ⟨hm, ?_⟩
      rw [decide_eq_true_iff]
      intro hc
      exact hp ((contains_iff_mem parents x).mp hc)
    · right; exact h

theorem advanceFrontier_nodup (frontier : List Nat) (vLast : Nat) (parents : List Nat)
    (h : frontier.Nodup) (hfresh : vLast ∉ frontier) :
    (advanceFrontier frontier vLast parents).Nodup := by
  unfold advanceFrontier
  apply (sortVersions_perm _).nodup_iff.mpr
  apply List.Nodup.append (h.filter _) (List.nodup_singleton vLast)
  intro a ha hb
  rw [List.mem_singleton] at hb
  subst hb
  exact hfresh (List.mem_of_mem_filter ha)

theorem advanceFrontier_sorted (frontier : List Nat) (vLast : Nat) (parents : List Nat) :
    (advanceFrontier frontier vLast parents).Sorted (· ≤ ·) :=
  sortVersions_sorted _

theorem findAVIndexGo_found (s : Nat) :
    ∀ (av : List ClientEntry) (i0 i : Nat), findAVIndexGo s av i0 = .found i →
    i0 ≤ i ∧ (∃ ce, av.get? (i - i0) = some ce ∧ ce.seq ≤ s ∧ s < ce.seqEnd) ∧
    (∀ j < i - i0, ∃ ce2, av.get? j = some ce2 ∧ ce2.seqEnd ≤ s) := by
  intro av
  induction av with
  | nil => intro i0 i h; exact absurd h (by simp [findAVIndexGo])
  | cons e rest ih =>
    intro i0 i h
    rw [findAVIndexGo] at h
    by_cases h1 : s < e.seq
    · rw [if_pos h1] at h; exact absurd h (by simp)
    · rw [if_neg h1] at h
      by_cases h2 : s < e.seqEnd
      · rw [if_pos h2] at h
        cases h
        refine ⟨Nat.le_refl _, ⟨e, ?_, Nat.le_of_not_lt h1, h2⟩, ?_⟩
        · simp
        · intro j hj; omega
      · rw [if_neg h2] at h
        obtain ⟨hle, ⟨ce, hce, hc1, hc2⟩, hbelow⟩ := ih (i0 + 1) i h
        refine ⟨Nat.le_trans (Nat.le_succ i0) hle, ⟨ce, ?_, hc1, hc2⟩, ?_⟩
        · have : i - i0 = (i - (i0 + 1)) + 1 := by omega
          rw [this]
          simpa using hce
        · intro j hj
          cases j with
          | zero => exact ⟨e, by simp, Nat.le_of_not_lt h2⟩
          | succ j2 =>
            obtain ⟨ce2, hg, hle2⟩ := hbelow j2 (by omega)
            exact ⟨ce2, by simpa using hg, hle2⟩

theorem findAVIndexGo_notFound (s : Nat) :
    ∀ (av : List ClientEntry) (i0 i : Nat), findAVIndexGo s av i0 = .notFound i →
    i0 ≤ i ∧ i - i0 ≤ av.length ∧
    (∀ j < i - i0, ∃ ce, av.get? j = some ce ∧ ce.seqEnd ≤ s) ∧
    (∀ ce, av.get? (i - i0) = some ce → s < ce.seq) := by
  intro av
  induction av with
  | nil =>
    intro i0 i h
    rw [findAVIndexGo] at h
    cases h
    refine ⟨Nat.le_refl _, by simp, ?_, ?_⟩
    · intro j hj; omega
    · intro ce hce; simp at hce
  | cons e rest ih =>
    intro i0 i h
    rw [findAVIndexGo] at h
    by_cases h1 : s < e.seq
    · rw [if_pos h1] at h
      cases h
      refine ⟨Nat.le_refl _, by simp, ?_, ?_⟩
      · intro j hj; omega
      · intro ce hce
        simp only [Nat.sub_self, List.get?_cons_zero, Option.some.injEq] at hce
        rw [← hce]; exact h1
    · rw [if_neg h1] at h
      by_cases h2 : s < e.seqEnd
      · rw [if_pos h2] at h; exact absurd h (by simp)
      · rw [if_neg h2] at h
        obtain ⟨hle, hlen, hbelow, hstop⟩ := ih (i0 + 1) i h
        refine ⟨Nat.le_trans (Nat.le_succ i0) hle, by simp; omega, ?_, ?_⟩
        · intro j hj
          cases j with
          | zero => exact ⟨e, by simp, Nat.le_of_not_lt h2⟩
          | succ j2 =>
            obtain ⟨ce2, hg, hle2⟩ := hbelow j2 (by omega)
            exact ⟨ce2, by simpa using hg, hle2⟩
        · intro ce hce
          apply hstop
          have : i - i0 = (i - (i0 + 1)) + 1 := by omega
          rw [this] at hce
          simpa using hce

theorem findAVIndex_cases (av : List ClientEntry) (s : Nat) :
    (∃ i, findAVIndex av s = .found i) ∨ (∃ i, findAVIndex av s = .notFound i) := by
  cases h : findAVIndex av s with
  | found i => exact Or.inl ⟨i, rfl⟩
  | notFound i => exact Or.inr ⟨i, rfl⟩

theorem avWF_tail (e : ClientEntry) (rest : List ClientEntry) (h : avWF (e :: rest)) :
    avWF rest :=
  ⟨fun ce hm => h.1 ce (List.mem_cons_of_mem e hm), (List.chain'_cons'.mp h.2).2⟩

theorem avWF_pairwise : ∀ (av : List ClientEntry), avWF av →
    List.Pairwise (fun a b => a.seqEnd ≤ b.seq) av
  | [], _ => List.Pairwise.nil
  | e :: rest, h => by
    have hrest := avWF_pairwise rest (avWF_tail e rest h)
    refine List.Pairwise.cons ?_ hrest
    intro b hb
    cases rest with
    | nil => cases hb
    | cons r0 rs =>
      have hhead : e.seqEnd ≤ r0.seq := by
        have := (List.chain'_cons'.mp h.2).1
        simpa using this r0 rfl
      cases hb with
      | head => exact hhead
      | tail _ hb2 =>
        have hr0 : r0.seq < r0.seqEnd := h.1 r0 (List.mem_cons_of_mem e (List.mem_cons_self r0 rs))
        have hp := (List.pairwise_cons.mp hrest).1 b hb2
        omega

/-- The end LV of an entry list that starts at `n`. -/
theorem nextLV_eq (cg : CausalGraph) :
    nextLV cg = match cg.entries.getLast? with | none => 0 | some e => e.vEnd := rfl

theorem entriesFrom_bounds : ∀ (es : List CGEntry) (n : Nat), entriesFrom n es = true →
    ∀ e ∈ es, n ≤ e.version ∧ e.version < e.vEnd ∧
      e.vEnd ≤ (match es.getLast? with | none => n | some l => l.vEnd) := by
  intro es
  induction es with
  | nil => intro n _ e he; cases he
  | cons e0 rest ih =>
    intro n h e he
    rw [entriesFrom] at h
    simp only [Bool.and_eq_true, decide_eq_true_eq] at h
    obtain ⟨⟨hv, hlt⟩, hrest⟩ := h
    cases he with
    | head =>
      refine ⟨by omega, by omega, ?_⟩
      cases rest with
      | nil => simp
      | cons r rs =>
        have hb := ih e0.vEnd hrest
        have hr := hb r (List.mem_cons_self r rs)
        have heq : (match (r :: rs).getLast? with | none => e0.vEnd | some l => l.vEnd) =
            (match ((e0 :: r :: rs) : List CGEntry).getLast? with
             | none => n | some l => l.vEnd) := by
          simp [List.getLast?]
        rw [← heq]
        omega
    | tail _ he2 =>
      have hb := ih e0.vEnd hrest e he2
      refine ⟨by omega, hb.2.1, ?_⟩
      cases rest with
      | nil => cases he2
      | cons r rs =>
        have : (match ((e0 :: r :: rs) : List CGEntry).getLast? with
             | none => n | some l => l.vEnd) =
            (match (r :: rs).getLast? with | none => e0.vEnd | some l => l.vEnd) := by
          simp [List.getLast?]
        rw [this]
        exact hb.2.2

/-- Every entry of a well-formed graph sits inside `[0, nextLV)`. -/
theorem entry_bounds (cg : CausalGraph) (h : gapless cg) :
    ∀ e ∈ cg.entries, e.version < e.vEnd ∧ e.vEnd ≤ nextLV cg := by
  intro e he
  have hb := entriesFrom_bounds cg.entries 0 h e he
  exact ⟨hb.2.1, by rw [nextLV_eq]; exact hb.2.2⟩

theorem entriesFrom_coverage : ∀ (es : List CGEntry) (n : Nat), entriesFrom n es = true →
    ∀ v, n ≤ v → v < (match es.getLast? with | none => n | some l => l.vEnd) →
    ∃ e ∈ es, e.version ≤ v ∧ v < e.vEnd := by
  intro es
  induction es with
  | nil => intro n _ v h1 h2; simp at h2; omega
  | cons e0 rest ih =>
    intro n h v h1 h2
    rw [entriesFrom] at h
    simp only [Bool.and_eq_true, decide_eq_true_eq] at h
    obtain ⟨⟨hv, hlt⟩, hrest⟩ := h
    by_cases hcase : v < e0.vEnd
    · exact ⟨e0, List.mem_cons_self e0 rest, by omega, hcase⟩
    · cases rest with
      | nil =>
        exfalso
        simp [List.getLast?] at h2
        omega
      | cons r rs =>
        have h2' : v < (match (r :: rs).getLast? with | none => e0.vEnd | some l => l.vEnd) := by
          have : (match ((e0 :: r :: rs) : List CGEntry).getLast? with
               | none => n | some l => l.vEnd) =
              (match (r :: rs).getLast? with | none => e0.vEnd | some l => l.vEnd) := by
            simp [List.getLast?]
          rw [this] at h2
          exact h2
        obtain ⟨e, he, hc⟩ := ih e0.vEnd hrest v (Nat.le_of_not_lt hcase) h2'
        exact ⟨e, List.mem_cons_of_mem e0 he, hc⟩

/-- Coverage: every LV below `nextLV` has a containing entry. -/
theorem gapless_coverage (cg : CausalGraph) (h : gapless cg) (v : Nat)
    (hv : v < nextLV cg) : ∃ e ∈ cg.entries, e.version ≤ v ∧ v < e.vEnd := by
  have := entriesFrom_coverage cg.entries 0 h v (Nat.zero_le v)
  rw [nextLV_eq] at hv
  exact this hv

theorem findEntryContainingRaw_some (cg : CausalGraph) (v : Nat) (e : CGEntry)
    (h : findEntryContainingRaw cg v = some e) :
    e ∈ cg.entries ∧ e.version ≤ v ∧ v < e.vEnd := by
  unfold findEntryContainingRaw at h
  refine ⟨List.mem_of_find?_eq_some h, ?_⟩
  have := List.find?_some h
  simp only [decide_eq_true_eq] at this
  exact this

theorem findEntryContainingRaw_isSome (cg : CausalGraph) (h : gapless cg) (v : Nat)
    (hv : v < nextLV cg) : ∃ e, findEntryContainingRaw cg v = some e := by
  obtain ⟨e, he, hc⟩ := gapless_coverage cg h v hv
  unfold findEntryContainingRaw
  have : (cg.entries.find? (fun e => decide (e.version ≤ v ∧ v < e.vEnd))).isSome := by
    apply List.find?_isSome.mpr
    exact ⟨e, he, by simp [hc.1, hc.2]⟩
  exact Option.isSome_iff_exists.mp this

/-- The containing entry is unique in a gapless graph. -/
theorem gapless_unique_entry (cg : CausalGraph) (h : gapless cg) (v : Nat)
    (e1 e2 : CGEntry) (h1 : e1 ∈ cg.entries) (h2 : e2 ∈ cg.entries)
    (hc1 : e1.version ≤ v ∧ v < e1.vEnd) (hc2 : e2.version ≤ v ∧ v < e2.vEnd) :
    e1 = e2 := by
  -- entries are pairwise "a.vEnd ≤ b.version", so two containing entries coincide
  have pw : List.Pairwise (fun a b : CGEntry => a.vEnd ≤ b.version) cg.entries := by
    clear h1 h2 hc1 hc2
    have main : ∀ (es : List CGEntry) (n : Nat), entriesFrom n es = true →
        List.Pairwise (fun a b : CGEntry => a.vEnd ≤ b.version) es := by
      intro es
      induction es with
      | nil => intro n _; exact List.Pairwise.nil
      | cons e0 rest ihp =>
        intro n hh
        rw [entriesFrom] at hh
        simp only [Bool.and_eq_true, decide_eq_true_eq] at hh
        obtain ⟨⟨hv, hlt⟩, hrest⟩ := hh
        refine List.Pairwise.cons ?_ (ihp e0.vEnd hrest)
        intro b hb
        exact (entriesFrom_bounds rest e0.vEnd hrest b hb).1
    exact main cg.entries 0 h
  obtain ⟨i, hi⟩ := List.get?_of_mem h1
  obtain ⟨j, hj⟩ := List.get?_of_mem h2
  have hil : i < cg.entries.length := (List.get?_eq_some.mp hi).1
  have hjl : j < cg.entries.length := (List.get?_eq_some.mp hj).1
  have hgeti : cg.entries.get ⟨i, hil⟩ = e1 := by
    have hq := List.get?_eq_get hil; rw [hq] at hi; exact Option.some.inj hi
  have hgetj : cg.entries.get ⟨j, hjl⟩ = e2 := by
    have hq := List.get?_eq_get hjl; rw [hq] at hj; exact Option.some.inj hj
  rcases Nat.lt_trichotomy i j with hij | hij | hij
  · exfalso
    have := (List.pairwise_iff_get.mp pw) ⟨i, hil⟩ ⟨j, hjl⟩ hij
    rw [hgeti, hgetj] at this
    omega
  · subst hij; rw [← hgeti, ← hgetj]
  · exfalso
    have := (List.pairwise_iff_get.mp pw) ⟨j, hjl⟩ ⟨i, hil⟩ hij
    rw [hgeti, hgetj] at this
    omega

theorem nextFrom_eq_match (n : Nat) (es : List CGEntry) :
    nextFrom n es = match es.getLast? with | none => n | some e => e.vEnd := rfl

theorem nextLV_eq_nextFrom (cg : CausalGraph) : nextLV cg = nextFrom 0 cg.entries := rfl

theorem nextFrom_append_singleton (n : Nat) (es : List CGEntry) (x : CGEntry) :
    nextFrom n (es ++ [x]) = x.vEnd := by
  rw [nextFrom_eq_match, List.getLast?_concat]

theorem entriesFrom_append_singleton :
    ∀ (ds : List CGEntry) (n : Nat) (x : CGEntry),
    entriesFrom n (ds ++ [x]) = true ↔
      (entriesFrom n ds = true ∧ x.version = nextFrom n ds ∧ x.version < x.vEnd) := by
  intro ds
  induction ds with
  | nil =>
    intro n x
    simp [entriesFrom, nextFrom, List.getLast?]
    omega
  | cons e0 rest ih =>
    intro n x
    rw [List.cons_append, entriesFrom, entriesFrom]
    simp only [Bool.and_eq_true, decide_eq_true_eq]
    rw [ih e0.vEnd x]
    constructor
    · rintro ⟨he, h1, h2, h3⟩
      refine ⟨⟨he, h1⟩, ?_, h3⟩
      rw [h2, nextFrom_eq_match, nextFrom_eq_match]
      cases rest with
      | nil => simp [List.getLast?]
      | cons r rs => simp [List.getLast?]
    · rintro ⟨⟨he, h1⟩, h2, h3⟩
      refine ⟨he, h1, ?_, h3⟩
      rw [h2, nextFrom_eq_match, nextFrom_eq_match]
      cases rest with
      | nil => simp [List.getLast?]
      | cons r rs => simp [List.getLast?]

theorem find?_entry_none_of_ge (es : List CGEntry) (n : Nat)
    (h : entriesFrom n es = true) (v : Nat) (hv : nextFrom n es ≤ v) :
    es.find? (fun e => decide (e.version ≤ v ∧ v < e.vEnd)) = none := by
  apply List.find?_eq_none.mpr
  intro e he
  have hb := entriesFrom_bounds es n h e he
  rw [nextFrom_eq_match] at hv
  simp only [decide_eq_true_eq]
  omega

theorem tryAppendEntries_some (a b m : CGEntry) (h : tryAppendEntries a b = some m) :
    b.version = a.vEnd ∧ a.agent = b.agent ∧ a.seq + (a.vEnd - a.version) = b.seq ∧
    b.parents = [a.vEnd - 1] ∧ m = { a with vEnd := b.vEnd } := by
  unfold tryAppendEntries at h
  by_cases hc : b.version = a.vEnd ∧ a.agent = b.agent ∧
      a.seq + (a.vEnd - a.version) = b.seq ∧ b.parents = [a.vEnd - 1]
  · rw [if_pos hc] at h
    exact ⟨hc.1, hc.2.1, hc.2.2.1, hc.2.2.2, (Option.some.inj h).symm⟩
  · rw [if_neg hc] at h
    cases h

theorem tryAppendEntries_none (a b : CGEntry) (h : tryAppendEntries a b = none) :
    ¬ (b.version = a.vEnd ∧ a.agent = b.agent ∧ a.seq + (a.vEnd - a.version) = b.seq ∧
      b.parents = [a.vEnd - 1]) := by
  intro hc
  unfold tryAppendEntries at h
  rw [if_pos hc] at h
  cases h

theorem pushRLEList_cases {α : Type} (tryAppend : α → α → Option α) (list : List α)
    (item : α) :
    ((list = [] ∨ ∃ last, list.getLast? = some last ∧ tryAppend last item = none) ∧
      pushRLEList tryAppend list item = list ++ [item]) ∨
    (∃ last merged, list.getLast? = some last ∧ tryAppend last item = some merged ∧
      pushRLEList tryAppend list item = list.dropLast ++ [merged]) := by
  unfold pushRLEList
  cases hl : list.getLast? with
  | none =>
    left
    have hnil := List.getLast?_eq_none_iff.mp hl
    subst hnil
    exact ⟨Or.inl rfl, rfl⟩
  | some last =>
    cases hm : tryAppend last item with
    | none =>
      left
      dsimp only
      rw [hm]
      exact ⟨Or.inr ⟨last, rfl, hm⟩, rfl⟩
    | some merged =>
      right
      dsimp only
      rw [hm]
      exact ⟨last, merged, rfl, hm, rfl⟩

theorem eq_dropLast_append_of_getLast {α : Type} (l : List α) (a : α)
    (h : l.getLast? = some a) : l = l.dropLast ++ [a] := by
  have hne : l ≠ [] := by intro he; rw [he] at h; cases h
  have hg := List.getLast?_eq_getLast l hne
  rw [hg] at h
  have ha := Option.some.inj h
  rw [← ha]
  exact (List.dropLast_append_getLast hne).symm

theorem lvToId_eq_find (cg : CausalGraph) (v : Nat) :
    lvToId cg v = (cg.entries.find? (fun e => decide (e.version ≤ v ∧ v < e.vEnd))).map
      (fun e => ((e.agent, e.seq + (v - e.version)) : Id)) := by
  unfold lvToId findEntryContaining findEntryContainingRaw
  cases h : cg.entries.find? (fun e => decide (e.version ≤ v ∧ v < e.vEnd)) <;> rfl

/-- The one extended entry produced by an RLE merge agrees with the merged
pair on every lookup-relevant field. -/
theorem internalAdd_main (cg : CausalGraph) (agent : String) (seqStart seqEnd : Nat)
    (parents : List Nat) (hg : gapless cg)
    (hplt : ∀ e ∈ cg.entries, ∀ p ∈ e.parents, p < e.version)
    (hrle : rleMaximal cg)
    (hlen : seqStart < seqEnd) (hpar : ∀ p ∈ parents, p < nextLV cg) :
    gapless (internalAddToEntries cg (nextLV cg) agent seqStart seqEnd parents).1 ∧
    (∀ e ∈ (internalAddToEntries cg (nextLV cg) agent seqStart seqEnd parents).1.entries,
      ∀ p ∈ e.parents, p < e.version) ∧
    rleMaximal (internalAddToEntries cg (nextLV cg) agent seqStart seqEnd parents).1 ∧
    (internalAddToEntries cg (nextLV cg) agent seqStart seqEnd parents).2 = seqEnd - seqStart ∧
    nextLV (internalAddToEntries cg (nextLV cg) agent seqStart seqEnd parents).1 =
      nextLV cg + (seqEnd - seqStart) ∧
    (internalAddToEntries cg (nextLV cg) agent seqStart seqEnd parents).1.agentToVersion =
      cg.agentToVersion ∧
    (∀ v, v < nextLV cg →
      lvToId (internalAddToEntries cg (nextLV cg) agent seqStart seqEnd parents).1 v =
        lvToId cg v) ∧
    (∀ k, k < seqEnd - seqStart →
      lvToId (internalAddToEntries cg (nextLV cg) agent seqStart seqEnd parents).1
        (nextLV cg + k) = some (agent, seqStart + k)) := by
  set N := nextLV cg with hN
  set len := seqEnd - seqStart with hlendef
  set E : CGEntry :=
    { version := N, vEnd := N + len, agent := agent, seq := seqStart, parents := parents }
      with hE
  have hres : internalAddToEntries cg N agent seqStart seqEnd parents =
      ({ cg with
         entries := pushRLEList tryAppendEntries cg.entries E
         heads := if parents = cg.heads then [N + len - 1]
                  else advanceFrontier cg.heads (N + len - 1) parents },
       len) := by
    unfold internalAddToEntries
    rfl
  rw [hres]
  rcases pushRLEList_cases tryAppendEntries cg.entries E with ⟨hside, happ⟩ | ⟨last, merged, hlast, hmerge, happ⟩
  · -- plain append
    rw [happ]
    have hgap2 : entriesFrom 0 (cg.entries ++ [E]) = true := by
      rw [entriesFrom_append_singleton]
      refine ⟨hg, ?_, ?_⟩
      · exact nextLV_eq_nextFrom cg
      · show N < N + len
        omega
    refine ⟨hgap2, ?_, ?_, rfl, ?_, rfl, ?_, ?_⟩
    · intro e he p hp
      rcases List.mem_append.mp he with h1 | h2
      · exact hplt e h1 p hp
      · rw [List.mem_singleton] at h2
        subst h2
        exact hpar p hp
    · unfold rleMaximal
      rw [List.chain'_append]
      refine ⟨hrle, List.chain'_singleton E, ?_⟩
      intro x hx y hy
      simp only [List.head?_cons, Option.mem_def, Option.some.injEq] at hy
      subst hy
      rcases hside with hnil | ⟨last, hlast, hnone⟩
      · rw [hnil] at hx; cases hx
      · rw [Option.mem_def] at hx
        rw [hlast] at hx
        cases hx
        rw [hnone]
        rfl
    · show nextFrom 0 (cg.entries ++ [E]) = N + len
      rw [nextFrom_append_singleton]
    · intro v hv
      obtain ⟨e0, he0⟩ := findEntryContainingRaw_isSome cg hg v hv
      unfold findEntryContainingRaw at he0
      rw [lvToId_eq_find, lvToId_eq_find]
      dsimp only
      rw [List.find?_append, he0]
      rfl
    · intro k hk
      rw [lvToId_eq_find]
      dsimp only
      rw [List.find?_append]
      rw [find?_entry_none_of_ge cg.entries 0 hg (N + k)
        (by rw [← nextLV_eq_nextFrom]; omega)]
      have hfind : ([E].find? (fun e => decide (e.version ≤ N + k ∧ N + k < e.vEnd))) =
          some E := by
        rw [List.find?_cons]
        have hdec : (decide (E.version ≤ N + k ∧ N + k < E.vEnd)) = true := by
          show (decide (N ≤ N + k ∧ N + k < N + len)) = true
          simp only [decide_eq_true_eq]
          omega
        rw [hdec]
      rw [Option.none_or, hfind]
      have harith : N + k - N = k := by omega
      show some ((agent, seqStart + (N + k - N)) : Id) = some (agent, seqStart + k)
      rw [harith]
  · -- RLE merge into the final entry
    rw [happ]
    obtain ⟨hm1, hm2, hm3, hm4, hm5⟩ := tryAppendEntries_some last E merged hmerge
    have hEv : E.version = N := rfl
    have hEvEnd : E.vEnd = N + len := rfl
    have hlastvEnd : last.vEnd = N := by rw [hE] at hm1; exact hm1.symm
    have hsplit : cg.entries = cg.entries.dropLast ++ [last] :=
      eq_dropLast_append_of_getLast cg.entries last hlast
    have hgap0 : entriesFrom 0 (cg.entries.dropLast ++ [last]) = true := by
      rw [← hsplit]; exact hg
    rw [entriesFrom_append_singleton] at hgap0
    obtain ⟨hds, hlastver, hlastlt⟩ := hgap0
    have hmver : merged.version = last.version := by rw [hm5]
    have hmagent : merged.agent = last.agent := by rw [hm5]
    have hmseq : merged.seq = last.seq := by rw [hm5]
    have hmpar : merged.parents = last.parents := by rw [hm5]
    have hmvEnd : merged.vEnd = N + len := by rw [hm5]
    have hlastmem : last ∈ cg.entries := by
      rw [hsplit]; exact List.mem_append_right _ (List.mem_singleton_self last)
    have hgap2 : entriesFrom 0 (cg.entries.dropLast ++ [merged]) = true := by
      rw [entriesFrom_append_singleton]
      refine ⟨hds, by rw [hmver]; exact hlastver, ?_⟩
      rw [hmver, hmvEnd]
      omega
    refine ⟨hgap2, ?_, ?_, rfl, ?_, rfl, ?_, ?_⟩
    · intro e he p hp
      rcases List.mem_append.mp he with h1 | h2
      · exact hplt e (by rw [hsplit]; exact List.mem_append_left _ h1) p hp
      · rw [List.mem_singleton] at h2
        subst h2
        rw [hmpar] at hp
        rw [hmver]
        exact hplt last hlastmem p hp
    · unfold rleMaximal
      have hold : List.Chain' (fun a b => (tryAppendEntries a b).isNone)
          (cg.entries.dropLast ++ [last]) := by
        rw [← hsplit]; exact hrle
      rw [List.chain'_append] at hold ⊢
      refine ⟨hold.1, List.chain'_singleton merged, ?_⟩
      intro x hx y hy
      simp only [List.head?_cons, Option.mem_def, Option.some.injEq] at hy
      subst hy
      have hrel := hold.2.2 x hx last (by simp)
      -- the merge condition only looks at the fields merged shares with last
      unfold tryAppendEntries at hrel ⊢
      by_cases hc : merged.version = x.vEnd ∧ x.agent = merged.agent ∧
          x.seq + (x.vEnd - x.version) = merged.seq ∧ merged.parents = [x.vEnd - 1]
      · exfalso
        rw [hmver, hmagent, hmseq, hmpar] at hc
        rw [if_pos hc] at hrel
        simp at hrel
      · rw [if_neg hc]
        rfl
    · show nextFrom 0 (cg.entries.dropLast ++ [merged]) = N + len
      rw [nextFrom_append_singleton, hmvEnd]
    · intro v hv
      rw [lvToId_eq_find, lvToId_eq_find]
      dsimp only
      conv_rhs => rw [hsplit]
      rw [List.find?_append, List.find?_append]
      cases hd : cg.entries.dropLast.find? (fun e => decide (e.version ≤ v ∧ v < e.vEnd)) with
      | some e0 => rfl
      | none =>
        simp only [Option.none_or]
        by_cases hvc : last.version ≤ v
        · have h1 : ([merged].find? (fun e => decide (e.version ≤ v ∧ v < e.vEnd))) =
              some merged := by
            rw [List.find?_cons]
            have : (decide (merged.version ≤ v ∧ v < merged.vEnd)) = true := by
              rw [hmver, hmvEnd]
              simp only [decide_eq_true_eq]
              omega
            rw [this]
          have h2 : ([last].find? (fun e => decide (e.version ≤ v ∧ v < e.vEnd))) =
              some last := by
            rw [List.find?_cons]
            have : (decide (last.version ≤ v ∧ v < last.vEnd)) = true := by
              simp only [decide_eq_true_eq]
              omega
            rw [this]
          rw [h1, h2]
          show some ((merged.agent, merged.seq + (v - merged.version)) : Id) =
            some ((last.agent, last.seq + (v - last.version)) : Id)
          rw [hmagent, hmseq, hmver]
        · have h1 : ([merged].find? (fun e => decide (e.version ≤ v ∧ v < e.vEnd))) =
              none := by
            rw [List.find?_cons]
            have : (decide (merged.version ≤ v ∧ v < merged.vEnd)) = false := by
              rw [hmver]
              simp only [decide_eq_false_iff_not]
              omega
            rw [this]
            rfl
          have h2 : ([last].find? (fun e => decide (e.version ≤ v ∧ v < e.vEnd))) =
              none := by
            rw [List.find?_cons]
            have : (decide (last.version ≤ v ∧ v < last.vEnd)) = false := by
              simp only [decide_eq_false_iff_not]
              omega
            rw [this]
            rfl
          rw [h1, h2]
    · intro k hk
      rw [lvToId_eq_find]
      dsimp only
      rw [List.find?_append]
      have hnone : cg.entries.dropLast.find?
          (fun e => decide (e.version ≤ N + k ∧ N + k < e.vEnd)) = none := by
        apply find?_entry_none_of_ge cg.entries.dropLast 0 hds
        rw [← hlastver]
        omega
      rw [hnone, Option.none_or]
      have hfind : ([merged].find? (fun e => decide (e.version ≤ N + k ∧ N + k < e.vEnd))) =
          some merged := by
        rw [List.find?_cons]
        have : (decide (merged.version ≤ N + k ∧ N + k < merged.vEnd)) = true := by
          rw [hmver, hmvEnd]
          simp only [decide_eq_true_eq]
          omega
        rw [this]
      rw [hfind]
      have hagent2 : merged.agent = agent := by
        rw [hmagent]
        exact hm2
      have hseq2 : last.seq + (last.vEnd - last.version) = seqStart := hm3
      show some ((merged.agent, merged.seq + (N + k - merged.version)) : Id) =
        some (agent, seqStart + k)
      rw [hagent2, hmseq, hmver]
      have harith : last.seq + (N + k - last.version) = seqStart + k := by
        omega
      rw [harith]

theorem lastOfEntry_iff (cg : CausalGraph) (x : Nat) :
    lastOfEntry cg x = true ↔ ∃ e ∈ cg.entries, e.version ≤ x ∧ x + 1 = e.vEnd := by
  simp [lastOfEntry]

theorem appearsAsParent_iff (cg : CausalGraph) (x : Nat) :
    appearsAsParent cg x = true ↔ ∃ e ∈ cg.entries, x ∈ e.parents := by
  simp [appearsAsParent, List.contains]

theorem headSpec_mem (cg : CausalGraph) (x : Nat) :
    x ∈ headSpec cg ↔
      x < nextLV cg ∧ lastOfEntry cg x = true ∧ ¬ appearsAsParent cg x = true := by
  unfold headSpec
  rw [List.mem_filter, List.mem_range]
  simp

theorem headSpec_sorted (cg : CausalGraph) : (headSpec cg).Sorted (· ≤ ·) := by
  apply List.Sorted.le_of_lt
  exact List.Pairwise.filter _ (List.pairwise_lt_range _)

theorem headSpec_nodup (cg : CausalGraph) : (headSpec cg).Nodup :=
  (List.nodup_range _).filter _

theorem headSpec_lt (cg : CausalGraph) (x : Nat) (h : x ∈ headSpec cg) :
    x < nextLV cg := ((headSpec_mem cg x).mp h).1

theorem advanceFrontier_self (f : List Nat) (x : Nat) : advanceFrontier f x f = [x] := by
  unfold advanceFrontier
  have hfil : f.filter (fun v => ¬ f.contains v) = [] := by
    apply List.filter_eq_nil_iff.mpr
    intro a ha
    simp [List.contains, List.elem_iff, ha]
  rw [hfil]
  rfl

theorem lastOfEntry_lt (cg : CausalGraph) (hg : gapless cg) (x : Nat)
    (h : lastOfEntry cg x = true) : x < nextLV cg := by
  obtain ⟨e, he, h1, h2⟩ := (lastOfEntry_iff cg x).mp h
  have hb := entry_bounds cg hg e he
  omega

theorem appearsAsParent_lt (cg : CausalGraph) (hg : gapless cg)
    (hplt : ∀ e ∈ cg.entries, ∀ p ∈ e.parents, p < e.version) (x : Nat)
    (h : appearsAsParent cg x = true) : x < nextLV cg := by
  obtain ⟨e, he, hp⟩ := (appearsAsParent_iff cg x).mp h
  have hb := entry_bounds cg hg e he
  have := hplt e he x hp
  omega

theorem internalAdd_heads (cg : CausalGraph) (agent : String) (seqStart seqEnd : Nat)
    (parents : List Nat) (hg : gapless cg)
    (hplt : ∀ e ∈ cg.entries, ∀ p ∈ e.parents, p < e.version)
    (hheads : cg.heads = headSpec cg)
    (hlen : seqStart < seqEnd) (hpar : ∀ p ∈ parents, p < nextLV cg) :
    (internalAddToEntries cg (nextLV cg) agent seqStart seqEnd parents).1.heads =
      headSpec (internalAddToEntries cg (nextLV cg) agent seqStart seqEnd parents).1 := by
  set N := nextLV cg with hN
  set len := seqEnd - seqStart with hlendef
  have hlenpos : 0 < len := by omega
  set E : CGEntry :=
    { version := N, vEnd := N + len, agent := agent, seq := seqStart, parents := parents }
      with hE
  have hres : internalAddToEntries cg N agent seqStart seqEnd parents =
      ({ cg with
         entries := pushRLEList tryAppendEntries cg.entries E
         heads := if parents = cg.heads then [N + len - 1]
                  else advanceFrontier cg.heads (N + len - 1) parents },
       len) := by
    unfold internalAddToEntries
    rfl
  rw [hres]
  set vLast := N + len - 1 with hvLast
  -- both branches of the heads update compute advanceFrontier (headSpec cg) vLast parents
  have hlhs : (if parents = cg.heads then [N + len - 1]
      else advanceFrontier cg.heads (N + len - 1) parents) =
      advanceFrontier (headSpec cg) vLast parents := by
    by_cases hcase : parents = cg.heads
    · rw [if_pos hcase, hcase, hheads, advanceFrontier_self]
    · rw [if_neg hcase, hheads]
  show (if parents = cg.heads then [N + len - 1]
      else advanceFrontier cg.heads (N + len - 1) parents) = _
  rw [hlhs]
  -- now compare as sorted nodup lists by membership
  apply sorted_nodup_eq_of_mem
  · exact advanceFrontier_nodup _ _ _ (headSpec_nodup cg)
      (fun hmem => by have := headSpec_lt cg vLast hmem; omega)
  · exact headSpec_nodup _
  · exact advanceFrontier_sorted _ _ _
  · exact headSpec_sorted _
  · intro x
    rw [advanceFrontier_mem]
    rcases pushRLEList_cases tryAppendEntries cg.entries E with ⟨hside, happ⟩ |
      ⟨last, merged, hlast, hmerge, happ⟩
    · -- append case
      have hsetEq : ∀ y : Nat,
          (y ∈ headSpec { cg with
            entries := cg.entries ++ [E]
            heads := advanceFrontier (headSpec cg) vLast parents } ↔
          (y < N + len ∧
            (lastOfEntry cg y = true ∨ (N ≤ y ∧ y + 1 = N + len)) ∧
            ¬ (appearsAsParent cg y = true ∨ y ∈ parents))) := by
        intro y
        rw [headSpec_mem]
        constructor
        · rintro ⟨h1, h2, h3⟩
          refine ⟨?_, ?_, ?_⟩
          · have : nextLV { cg with
                entries := cg.entries ++ [E]
                heads := advanceFrontier (headSpec cg) vLast parents } = N + len := by
              show nextFrom 0 (cg.entries ++ [E]) = N + len
              rw [nextFrom_append_singleton]
            rw [this] at h1
            exact h1
          · obtain ⟨e, he, hc⟩ := (lastOfEntry_iff _ y).mp h2
            rcases List.mem_append.mp he with hin | hin
            · exact Or.inl ((lastOfEntry_iff cg y).mpr ⟨e, hin, hc⟩)
            · rw [List.mem_singleton] at hin
              subst hin
              exact Or.inr hc
          · intro hcon
            apply h3
            rcases hcon with hin | hin
            · obtain ⟨e, he, hp⟩ := (appearsAsParent_iff cg y).mp hin
              exact (appearsAsParent_iff _ y).mpr ⟨e, List.mem_append_left _ he, hp⟩
            · exact (appearsAsParent_iff _ y).mpr ⟨E, List.mem_append_right _ (List.mem_singleton_self E), hin⟩
        · rintro ⟨h1, h2, h3⟩
          refine ⟨?_, ?_, ?_⟩
          · show y < nextFrom 0 (cg.entries ++ [E])
            rw [nextFrom_append_singleton]
            exact h1
          · apply (lastOfEntry_iff _ y).mpr
            rcases h2 with hin | hin
            · obtain ⟨e, he, hc⟩ := (lastOfEntry_iff cg y).mp hin
              exact ⟨e, List.mem_append_left _ he, hc⟩
            · exact ⟨E, List.mem_append_right _ (List.mem_singleton_self E), hin⟩
          · intro hcon
            apply h3
            obtain ⟨e, he, hp⟩ := (appearsAsParent_iff _ y).mp hcon
            rcases List.mem_append.mp he with hin | hin
            · exact Or.inl ((appearsAsParent_iff cg y).mpr ⟨e, hin, hp⟩)
            · rw [List.mem_singleton] at hin
              subst hin
              exact Or.inr hp
      rw [happ, hsetEq x]
      constructor
      · rintro (⟨hmem, hnp⟩ | heq)
        · obtain ⟨hx1, hx2, hx3⟩ := (headSpec_mem cg x).mp hmem
          exact ⟨by omega, Or.inl hx2, by tauto⟩
        · subst heq
          refine ⟨by omega, Or.inr (by omega), ?_⟩
          rintro (hc | hc)
          · have := appearsAsParent_lt cg hg hplt vLast hc
            omega
          · have := hpar vLast hc
            omega
      · rintro ⟨h1, h2, h3⟩
        rcases h2 with hin | hin
        · left
          have hxlt := lastOfEntry_lt cg hg x hin
          refine ⟨(headSpec_mem cg x).mpr ⟨hxlt, hin, fun hc => h3 (Or.inl hc)⟩,
            fun hc => h3 (Or.inr hc)⟩
        · right
          omega
    · -- extend case
      obtain ⟨hm1, hm2, hm3, hm4, hm5⟩ := tryAppendEntries_some last E merged hmerge
      have hlastvEnd : last.vEnd = N := by
        have : E.version = N := rfl
        omega
      have hsplit : cg.entries = cg.entries.dropLast ++ [last] :=
        eq_dropLast_append_of_getLast cg.entries last hlast
      have hgap0 : entriesFrom 0 (cg.entries.dropLast ++ [last]) = true := by
        rw [← hsplit]; exact hg
      rw [entriesFrom_append_singleton] at hgap0
      obtain ⟨hds, hlastver, hlastlt⟩ := hgap0
      have hmver : merged.version = last.version := by rw [hm5]
      have hmpar : merged.parents = last.parents := by rw [hm5]
      have hmvEnd : merged.vEnd = N + len := by rw [hm5]
      have hparE : parents = [N - 1] := by
        have : E.parents = parents := rfl
        rw [← this, hm4, hlastvEnd]
      -- bound for entries in the dropLast prefix
      have hdsBound : ∀ e ∈ cg.entries.dropLast, e.version < e.vEnd ∧ e.vEnd ≤ last.version := by
        intro e he
        have hb := entriesFrom_bounds cg.entries.dropLast 0 hds e he
        rw [← nextFrom_eq_match] at hb
        exact ⟨hb.2.1, by omega⟩
      rw [happ]
      have hsetEq : ∀ y : Nat,
          (y ∈ headSpec { cg with
            entries := cg.entries.dropLast ++ [merged]
            heads := advanceFrontier (headSpec cg) vLast parents } ↔
          (y < N + len ∧
            ((∃ e ∈ cg.entries.dropLast, e.version ≤ y ∧ y + 1 = e.vEnd) ∨
              (last.version ≤ y ∧ y + 1 = N + len)) ∧
            ¬ (∃ e ∈ cg.entries.dropLast ++ [last], y ∈ e.parents))) := by
        intro y
        rw [headSpec_mem]
        have hnext : nextLV { cg with
            entries := cg.entries.dropLast ++ [merged]
            heads := advanceFrontier (headSpec cg) vLast parents } = N + len := by
          show nextFrom 0 (cg.entries.dropLast ++ [merged]) = N + len
          rw [nextFrom_append_singleton, hmvEnd]
        rw [hnext]
        constructor
        · rintro ⟨h1, h2, h3⟩
          refine ⟨h1, ?_, ?_⟩
          · obtain ⟨e, he, hc⟩ := (lastOfEntry_iff _ y).mp h2
            rcases List.mem_append.mp he with hin | hin
            · exact Or.inl ⟨e, hin, hc⟩
            · rw [List.mem_singleton] at hin
              subst hin
              rw [hmver, hmvEnd] at hc
              exact Or.inr hc
          · intro ⟨e, he, hp⟩
            apply h3
            apply (appearsAsParent_iff _ y).mpr
            rcases List.mem_append.mp he with hin | hin
            · exact ⟨e, List.mem_append_left _ hin, hp⟩
            · rw [List.mem_singleton] at hin
              subst hin
              refine ⟨merged, List.mem_append_right _ (List.mem_singleton_self merged), ?_⟩
              rw [hmpar]
              exact hp
        · rintro ⟨h1, h2, h3⟩
          refine ⟨h1, ?_, ?_⟩
          · apply (lastOfEntry_iff _ y).mpr
            rcases h2 with ⟨e, he, hc⟩ | hin
            · exact ⟨e, List.mem_append_left _ he, hc⟩
            · refine ⟨merged, List.mem_append_right _ (List.mem_singleton_self merged), ?_⟩
              rw [hmver, hmvEnd]
              exact hin
          · intro hcon
            apply h3
            obtain ⟨e, he, hp⟩ := (appearsAsParent_iff _ y).mp hcon
            rcases List.mem_append.mp he with hin | hin
            · exact ⟨e, List.mem_append_left _ hin, hp⟩
            · rw [List.mem_singleton] at hin
              subst hin
              rw [hmpar] at hp
              exact ⟨last, List.mem_append_right _ (List.mem_singleton_self last), hp⟩
      rw [hsetEq x]
      have hlastverN : last.version < N := by omega
      constructor
      · rintro (⟨hmem, hnp⟩ | heq)
        · obtain ⟨hx1, hx2, hx3⟩ := (headSpec_mem cg x).mp hmem
          obtain ⟨e, he, hc⟩ := (lastOfEntry_iff cg x).mp hx2
          rw [hsplit] at he
          rcases List.mem_append.mp he with hin | hin
          · refine ⟨by omega, Or.inl ⟨e, hin, hc⟩, ?_⟩
            intro ⟨e2, he2, hp2⟩
            apply hx3
            apply (appearsAsParent_iff cg x).mpr
            rw [hsplit]
            exact ⟨e2, he2, hp2⟩
          · rw [List.mem_singleton] at hin
            subst hin
            -- x is the final LV of the old last entry: x = N - 1, but x ∉ parents = [N-1]
            exfalso
            apply hnp
            rw [hparE, List.mem_singleton]
            omega
        · subst heq
          refine ⟨by omega, Or.inr (by omega), ?_⟩
          intro ⟨e, he, hp⟩
          have : appearsAsParent cg vLast = true := by
            apply (appearsAsParent_iff cg vLast).mpr
            rw [hsplit]
            exact ⟨e, he, hp⟩
          have := appearsAsParent_lt cg hg hplt vLast this
          omega
      · rintro ⟨h1, h2, h3⟩
        rcases h2 with ⟨e, he, hc⟩ | hin
        · left
          have hbound := hdsBound e he
          refine ⟨(headSpec_mem cg x).mpr ⟨by omega, ?_, ?_⟩, ?_⟩
          · apply (lastOfEntry_iff cg x).mpr
            rw [hsplit]
            exact ⟨e, List.mem_append_left _ he, hc⟩
          · intro hcon
            apply h3
            obtain ⟨e2, he2, hp2⟩ := (appearsAsParent_iff cg x).mp hcon
            rw [hsplit] at he2
            exact ⟨e2, he2, hp2⟩
          · rw [hparE, List.mem_singleton]
            omega
        · right
          omega

theorem find_assoc_map_same (l : List (String × List ClientEntry)) (agent : String)
    (av : List ClientEntry) :
    ((l.map (fun p => if p.1 = agent then (p.1, av) else p)).find?
      (fun p => p.1 = agent)) =
      (l.find? (fun p => p.1 = agent)).map (fun p => (p.1, av)) := by
  induction l with
  | nil => rfl
  | cons p rest ih =>
    by_cases hp : p.1 = agent
    · simp [List.find?_cons, hp]
    · simp [List.find?_cons, hp, ih]

theorem find_assoc_map_other (l : List (String × List ClientEntry)) (agent a : String)
    (av : List ClientEntry) (hne : a ≠ agent) :
    ((l.map (fun p => if p.1 = agent then (p.1, av) else p)).find?
      (fun p => p.1 = a)) = l.find? (fun p => p.1 = a) := by
  induction l with
  | nil => rfl
  | cons p rest ih =>
    by_cases hp : p.1 = agent
    · rw [List.map_cons, if_pos hp, List.find?_cons, List.find?_cons]
      have : (decide (p.1 = a)) = false := by
        simp only [decide_eq_false_iff_not]
        rw [hp]
        exact fun h => hne h.symm
      rw [this]
      exact ih
    · rw [List.map_cons, if_neg hp, List.find?_cons, List.find?_cons]
      cases hd : (decide (p.1 = a)) with
      | true => rfl
      | false => exact ih

theorem avFor_setAv_same (cg : CausalGraph) (agent : String) (av : List ClientEntry)
    (h : (avFor cg agent).isSome) : avFor (setAv cg agent av) agent = some av := by
  unfold avFor at h
  unfold avFor setAv
  dsimp only
  rw [find_assoc_map_same]
  cases hq : cg.agentToVersion.find? (fun p => p.1 = agent) with
  | none => rw [hq] at h; simp at h
  | some q => rfl

theorem avFor_setAv_other (cg : CausalGraph) (agent a : String) (av : List ClientEntry)
    (hne : a ≠ agent) : avFor (setAv cg agent av) a = avFor cg a := by
  unfold avFor setAv
  dsimp only
  rw [find_assoc_map_other _ _ _ _ hne]

theorem avFor_addAgent_same (cg : CausalGraph) (agent : String) (av : List ClientEntry)
    (h : avFor cg agent = none) : avFor (addAgent cg agent av) agent = some av := by
  unfold avFor addAgent at *
  dsimp only
  rw [List.find?_append]
  cases hq : cg.agentToVersion.find? (fun p => p.1 = agent) with
  | none =>
    rw [Option.none_or, List.find?_cons]
    simp
  | some q => rw [hq] at h; cases h

theorem avFor_addAgent_other (cg : CausalGraph) (agent a : String) (av : List ClientEntry)
    (hne : a ≠ agent) : avFor (addAgent cg agent av) a = avFor cg a := by
  unfold avFor addAgent
  dsimp only
  rw [List.find?_append]
  cases hq : cg.agentToVersion.find? (fun p => p.1 = a) with
  | none =>
    rw [Option.none_or, List.find?_cons]
    have hd : (decide (agent = a)) = false := by
      simp only [decide_eq_false_iff_not]
      exact fun h => hne h.symm
    rw [hd]
    rfl
  | some q => rfl

/-- Under sortedness, a covered seq is always found by the scan. -/
theorem findAVIndex_found_of_covered (av : List ClientEntry) (s : Nat)
    (hWF : avWF av) (ce : ClientEntry) (hmem : ce ∈ av) (h1 : ce.seq ≤ s)
    (h2 : s < ce.seqEnd) : ∃ i, findAVIndex av s = .found i := by
  rcases findAVIndex_cases av s with h | ⟨i, hi⟩
  · exact h
  · exfalso
    obtain ⟨_, hlen, hbelow, hstop⟩ := findAVIndexGo_notFound s av 0 i hi
    simp only [Nat.sub_zero] at hlen hbelow hstop
    obtain ⟨j, hj⟩ := List.get?_of_mem hmem
    have hjlen : j < av.length := (List.get?_eq_some.mp hj).1
    by_cases hcmp : j < i
    · obtain ⟨ce2, hg, hle2⟩ := hbelow j hcmp
      rw [hj] at hg
      cases hg
      omega
    · have hij : i ≤ j := Nat.le_of_not_lt hcmp
      have hi_lt : i < av.length := Nat.lt_of_le_of_lt hij hjlen
      have hgI : av.get? i = some (av.get ⟨i, hi_lt⟩) := List.get?_eq_get hi_lt
      have hstopI := hstop _ hgI
      by_cases hji : i = j
      · subst hji
        rw [hj] at hgI
        have hceq : ce = av.get ⟨i, hi_lt⟩ := by
          injection hgI
        rw [← hceq] at hstopI
        omega
      · have hij2 : i < j := by omega
        have hpair := (List.pairwise_iff_get.mp (avWF_pairwise av hWF))
          ⟨i, hi_lt⟩ ⟨j, hjlen⟩ hij2
        have hgJ : av.get ⟨j, hjlen⟩ = ce := by
          have hq := List.get?_eq_get hjlen
          rw [hq] at hj
          exact Option.some.inj hj
        rw [hgJ] at hpair
        have hne := hWF.1 _ (List.get_mem av i hi_lt)
        omega

theorem avFor_some_mem (cg : CausalGraph) (a : String) (av : List ClientEntry)
    (h : avFor cg a = some av) : (a, av) ∈ cg.agentToVersion := by
  unfold avFor at h
  cases hq : cg.agentToVersion.find? (fun p => p.1 = a) with
  | none => rw [hq] at h; cases h
  | some q =>
    rw [hq] at h
    have hmem := List.mem_of_find?_eq_some hq
    have hpred := List.find?_some hq
    simp only [decide_eq_true_eq] at hpred
    have hq2 : q.2 = av := Option.some.inj h
    have : q = (a, av) := by
      cases q
      simp only at hpred hq2
      rw [hpred, hq2]
    rw [← this]
    exact hmem

theorem idToLV_congr_avFor (cg1 cg2 : CausalGraph) (a : String)
    (h : avFor cg1 a = avFor cg2 a) (s : Nat) : idToLV cg1 a s = idToLV cg2 a s := by
  unfold idToLV findClientEntryTrimmed findClientEntry findClientEntryRaw
  rw [h]

theorem avWF_unique_cover (av : List ClientEntry) (hWF : avWF av)
    (ce1 ce2 : ClientEntry) (h1 : ce1 ∈ av) (h2 : ce2 ∈ av) (s : Nat)
    (hc1 : ce1.seq ≤ s ∧ s < ce1.seqEnd) (hc2 : ce2.seq ≤ s ∧ s < ce2.seqEnd) :
    ce1 = ce2 := by
  have pw := avWF_pairwise av hWF
  obtain ⟨i, hi⟩ := List.get?_of_mem h1
  obtain ⟨j, hj⟩ := List.get?_of_mem h2
  have hil : i < av.length := (List.get?_eq_some.mp hi).1
  have hjl : j < av.length := (List.get?_eq_some.mp hj).1
  have hgeti : av.get ⟨i, hil⟩ = ce1 := by
    have hq := List.get?_eq_get hil; rw [hq] at hi; exact Option.some.inj hi
  have hgetj : av.get ⟨j, hjl⟩ = ce2 := by
    have hq := List.get?_eq_get hjl; rw [hq] at hj; exact Option.some.inj hj
  rcases Nat.lt_trichotomy i j with hij | hij | hij
  · exfalso
    have := (List.pairwise_iff_get.mp pw) ⟨i, hil⟩ ⟨j, hjl⟩ hij
    rw [hgeti, hgetj] at this
    omega
  · subst hij; rw [← hgeti, ← hgetj]
  · exfalso
    have := (List.pairwise_iff_get.mp pw) ⟨j, hjl⟩ ⟨i, hil⟩ hij
    rw [hgeti, hgetj] at this
    omega

theorem findClientEntryRaw_eq_found (cg : CausalGraph) (a : String)
    (av : List ClientEntry) (hav : avFor cg a = some av) (s : Nat) :
    findClientEntryRaw cg a s =
      (match findAVIndex av s with
       | .found i => av.get? i
       | .notFound _ => none) := by
  unfold findClientEntryRaw
  rw [hav]

theorem idToLV_covered (cg : CausalGraph) (a : String) (av : List ClientEntry)
    (hav : avFor cg a = some av) (hWF : avWF av) (ce : ClientEntry) (hce : ce ∈ av)
    (s : Nat) (h1 : ce.seq ≤ s) (h2 : s < ce.seqEnd) :
    idToLV cg a s = some (ce.version + (s - ce.seq)) := by
  obtain ⟨i, hfound⟩ := findAVIndex_found_of_covered av s hWF ce hce h1 h2
  obtain ⟨_, ⟨ce2, hg, hcov1, hcov2⟩, _⟩ := findAVIndexGo_found s av 0 i hfound
  simp only [Nat.sub_zero] at hg
  have hmem2 : ce2 ∈ av := List.get?_mem hg
  have hceq : ce = ce2 := avWF_unique_cover av hWF ce ce2 hce hmem2 s ⟨h1, h2⟩ ⟨hcov1, hcov2⟩
  subst hceq
  have hraw : findClientEntryRaw cg a s = some ce := by
    rw [findClientEntryRaw_eq_found cg a av hav s, hfound]
    exact hg
  unfold idToLV findClientEntryTrimmed findClientEntry
  rw [hraw]
  simp only [Option.map_some']
  by_cases hoff : s - ce.seq = 0
  · rw [if_pos hoff, hoff]
    simp
  · rw [if_neg hoff]
    rfl

theorem idToLV_none_of_uncovered (cg : CausalGraph) (a : String) (s : Nat)
    (h : avFor cg a = none ∨
      ∃ av, avFor cg a = some av ∧ ∀ ce ∈ av, ¬ (ce.seq ≤ s ∧ s < ce.seqEnd)) :
    idToLV cg a s = none := by
  have hraw : findClientEntryRaw cg a s = none := by
    rcases h with hn | ⟨av, hav, hunc⟩
    · unfold findClientEntryRaw
      rw [hn]
    · rw [findClientEntryRaw_eq_found cg a av hav s]
      cases hfa : findAVIndex av s with
      | notFound i => rfl
      | found i =>
        exfalso
        obtain ⟨_, ⟨ce2, hg, hcov1, hcov2⟩, _⟩ := findAVIndexGo_found s av 0 i hfa
        simp only [Nat.sub_zero] at hg
        exact hunc ce2 (List.get?_mem hg) ⟨hcov1, hcov2⟩
  unfold idToLV findClientEntryTrimmed findClientEntry
  rw [hraw]
  rfl

theorem hasVersion_iff (cg : CausalGraph) (a : String) (s : Nat)
    (hWFav : ∀ p ∈ cg.agentToVersion, avWF p.2) :
    hasVersion cg a s = true ↔
      ∃ av, avFor cg a = some av ∧ ∃ ce ∈ av, ce.seq ≤ s ∧ s < ce.seqEnd := by
  unfold hasVersion
  constructor
  · intro h
    obtain ⟨ce, hce⟩ := Option.isSome_iff_exists.mp h
    cases hav : avFor cg a with
    | none => unfold findClientEntryRaw at hce; rw [hav] at hce; cases hce
    | some av =>
      rw [findClientEntryRaw_eq_found cg a av hav s] at hce
      cases hfa : findAVIndex av s with
      | notFound i => rw [hfa] at hce; cases hce
      | found i =>
        obtain ⟨_, ⟨ce2, hg, hcov1, hcov2⟩, _⟩ := findAVIndexGo_found s av 0 i hfa
        simp only [Nat.sub_zero] at hg
        exact ⟨av, rfl, ce2, List.get?_mem hg, hcov1, hcov2⟩
  · rintro ⟨av, hav, ce, hce, h1, h2⟩
    have hWF : avWF av := hWFav (a, av) (avFor_some_mem cg a av hav)
    obtain ⟨i, hfound⟩ := findAVIndex_found_of_covered av s hWF ce hce h1 h2
    obtain ⟨_, ⟨ce2, hg, _, _⟩, _⟩ := findAVIndexGo_found s av 0 i hfound
    simp only [Nat.sub_zero] at hg
    rw [findClientEntryRaw_eq_found cg a av hav s, hfound]
    dsimp only
    rw [hg]
    rfl

/-- lvToId at a covered position. -/
theorem lvToId_of_entry (cg : CausalGraph) (h : gapless cg) (e : CGEntry)
    (he : e ∈ cg.entries) (v : Nat) (hc : e.version ≤ v ∧ v < e.vEnd) :
    lvToId cg v = some (e.agent, e.seq + (v - e.version)) := by
  obtain ⟨e2, he2⟩ := by
    apply findEntryContainingRaw_isSome cg h v
    have := entry_bounds cg h e he
    omega
  have hprops := findEntryContainingRaw_some cg v e2 he2
  have heq : e2 = e := gapless_unique_entry cg h v e2 e hprops.1 he hprops.2 hc
  subst heq
  unfold lvToId findEntryContaining
  rw [he2]
  rfl

theorem insertIdx_eq_append {α : Type} (x : α) :
    ∀ (n : Nat) (l : List α), n ≤ l.length →
    List.insertIdx n x l = l.take n ++ x :: l.drop n := by
  intro n
  induction n with
  | zero => intro l _; rw [List.insertIdx_zero]; rfl
  | succ m ih =>
    intro l hl
    cases l with
    | nil => simp at hl
    | cons a rest =>
      rw [List.insertIdx_succ_cons, ih rest (by simpa using hl)]
      rfl

theorem lvToId_congr_entries (cg1 cg2 : CausalGraph)
    (h : cg1.entries = cg2.entries) (v : Nat) : lvToId cg1 v = lvToId cg2 v := by
  unfold lvToId findEntryContaining findEntryContainingRaw
  rw [h]

theorem nextLV_congr_entries (cg1 cg2 : CausalGraph)
    (h : cg1.entries = cg2.entries) : nextLV cg1 = nextLV cg2 := by
  unfold nextLV
  rw [h]

theorem headSpec_congr_entries (cg1 cg2 : CausalGraph)
    (h : cg1.entries = cg2.entries) : headSpec cg1 = headSpec cg2 := by
  unfold headSpec lastOfEntry appearsAsParent
  rw [h, nextLV_congr_entries cg1 cg2 h]

theorem idToLV_congr_atv (cg1 cg2 : CausalGraph)
    (h : cg1.agentToVersion = cg2.agentToVersion) (a : String) (s : Nat) :
    idToLV cg1 a s = idToLV cg2 a s := by
  apply idToLV_congr_avFor
  unfold avFor
  rw [h]

/-- A successful lvToId lookup means the version is in range. -/
theorem lvToId_some_lt (cg : CausalGraph) (hg : gapless cg) (v : Nat) (x : Id)
    (h : lvToId cg v = some x) : v < nextLV cg := by
  rw [lvToId_eq_find] at h
  cases hf : cg.entries.find? (fun e => decide (e.version ≤ v ∧ v < e.vEnd)) with
  | none => rw [hf] at h; cases h
  | some e =>
    have hmem := List.mem_of_find?_eq_some hf
    have hpred := List.find?_some hf
    simp only [decide_eq_true_eq] at hpred
    have := entry_bounds cg hg e hmem
    omega

/-- Inversion of a successful idToLV lookup: the agent has a client entry
covering the seq, and the result is its version plus the offset. -/
theorem idToLV_some_inv (cg : CausalGraph) (a : String) (s : Nat) (v : Nat)
    (h : idToLV cg a s = some v) :
    ∃ av, avFor cg a = some av ∧
      ∃ ce ∈ av, ce.seq ≤ s ∧ s < ce.seqEnd ∧ v = ce.version + (s - ce.seq) := by
  cases hav : avFor cg a with
  | none =>
    exfalso
    unfold idToLV findClientEntryTrimmed findClientEntry findClientEntryRaw at h
    rw [hav] at h
    cases h
  | some av =>
    refine ⟨av, rfl, ?_⟩
    unfold idToLV findClientEntryTrimmed findClientEntry at h
    rw [findClientEntryRaw_eq_found cg a av hav s] at h
    cases hfa : findAVIndex av s with
    | notFound i => rw [hfa] at h; cases h
    | found i =>
      rw [hfa] at h
      dsimp only at h
      obtain ⟨_, ⟨ce, hg, hc1, hc2⟩, _⟩ := findAVIndexGo_found s av 0 i hfa
      simp only [Nat.sub_zero] at hg
      rw [hg] at h
      simp only [Option.map_some'] at h
      refine ⟨ce, List.get?_mem hg, hc1, hc2, ?_⟩
      by_cases hoff : s - ce.seq = 0
      · rw [if_pos hoff] at h
        have hv : v = ce.version := by
          have := Option.some.inj h
          rw [← this]
        omega
      · rw [if_neg hoff] at h
        have hv : v = ce.version + (s - ce.seq) := by
          have := Option.some.inj h
          rw [← this]
        exact hv

/-- Splicing a span between two well-separated halves of a well-formed
client-entry list keeps it well-formed. -/
theorem avWF_take_cons_drop (av : List ClientEntry) (hWF : avWF av)
    (new : ClientEntry) (idx k : Nat)
    (hnew : new.seq < new.seqEnd)
    (hbelow : ∀ j ce, av.get? j = some ce → j < idx → ce.seqEnd ≤ new.seq)
    (habove : ∀ j ce, av.get? j = some ce → k ≤ j → new.seqEnd ≤ ce.seq) :
    avWF (av.take idx ++ new :: av.drop k) := by
  have pw := avWF_pairwise av hWF
  constructor
  · intro ce hce
    rcases List.mem_append.mp hce with h1 | h2
    · exact hWF.1 ce (List.mem_of_mem_take h1)
    · rcases List.mem_cons.mp h2 with h3 | h4
      · rw [h3]; exact hnew
      · exact hWF.1 ce (List.mem_of_mem_drop h4)
  · apply List.Pairwise.chain'
    rw [List.pairwise_append]
    have htake : ∀ a ∈ av.take idx, ∃ j, j < idx ∧ av.get? j = some a := by
      intro a ha
      obtain ⟨j, hj⟩ := List.get?_of_mem ha
      have hjl : j < (av.take idx).length := (List.get?_eq_some.mp hj).1
      have hjidx : j < idx := by
        have := List.length_take idx av
        omega
      refine ⟨j, hjidx, ?_⟩
      rw [List.get?_eq_getElem?] at hj ⊢
      rw [List.getElem?_take, if_pos hjidx] at hj
      exact hj
    have hdrop : ∀ a ∈ av.drop k, ∃ j, k ≤ j ∧ av.get? j = some a := by
      intro a ha
      obtain ⟨j, hj⟩ := List.get?_of_mem ha
      refine ⟨k + j, Nat.le_add_right k j, ?_⟩
      rw [List.get?_eq_getElem?] at hj ⊢
      rw [List.getElem?_drop] at hj
      exact hj
    refine ⟨List.Pairwise.sublist (List.take_sublist idx av) pw, ?_, ?_⟩
    · rw [List.pairwise_cons]
      refine ⟨?_, List.Pairwise.sublist (List.drop_sublist k av) pw⟩
      intro b hb
      obtain ⟨j, hkj, hj⟩ := hdrop b hb
      exact habove j b hj hkj
    · intro a ha b hb
      obtain ⟨j, hjidx, hj⟩ := htake a ha
      have ha2 : a.seqEnd ≤ new.seq := hbelow j a hj hjidx
      rcases List.mem_cons.mp hb with h3 | h4
      · rw [h3]; exact ha2
      · obtain ⟨j2, hkj2, hj2⟩ := hdrop b h4
        have hb2 : new.seqEnd ≤ b.seq := habove j2 b hj2 hkj2
        omega

/-- A neighbour bound below `idx` propagates to all earlier spans. -/
theorem av_bound_below (av : List ClientEntry) (hWF : avWF av) (idx B : Nat)
    (hlen : idx ≤ av.length)
    (h : ∀ ce, av.get? (idx - 1) = some ce → ce.seqEnd ≤ B) :
    ∀ j ce, av.get? j = some ce → j < idx → ce.seqEnd ≤ B := by
  intro j ce hj hjidx
  have hi1 : idx - 1 < av.length := by omega
  have hp : av.get? (idx - 1) = some (av.get ⟨idx - 1, hi1⟩) := List.get?_eq_get hi1
  have hpB := h _ hp
  by_cases hje : j = idx - 1
  · subst hje
    rw [hj] at hp
    rw [Option.some.inj hp]
    exact hpB
  · have hjlt : j < idx - 1 := by omega
    have hjl : j < av.length := (List.get?_eq_some.mp hj).1
    have hget : av.get ⟨j, hjl⟩ = ce := by
      have hq := List.get?_eq_get hjl; rw [hq] at hj; exact Option.some.inj hj
    have hpair := (List.pairwise_iff_get.mp (avWF_pairwise av hWF))
      ⟨j, hjl⟩ ⟨idx - 1, hi1⟩ hjlt
    rw [hget] at hpair
    have hne := hWF.1 _ (List.get_mem av (idx - 1) hi1)
    omega

/-- A neighbour bound at `idx` propagates to all later spans. -/
theorem av_bound_above (av : List ClientEntry) (hWF : avWF av) (idx B : Nat)
    (h : ∀ ce, av.get? idx = some ce → B ≤ ce.seq) :
    ∀ j ce, av.get? j = some ce → idx ≤ j → B ≤ ce.seq := by
  intro j ce hj hjidx
  have hjl : j < av.length := (List.get?_eq_some.mp hj).1
  have hil : idx < av.length := by omega
  have hp : av.get? idx = some (av.get ⟨idx, hil⟩) := List.get?_eq_get hil
  have hpB := h _ hp
  by_cases hje : j = idx
  · subst hje
    rw [hj] at hp
    rw [Option.some.inj hp]
    exact hpB
  · have hjlt : idx < j := by omega
    have hget : av.get ⟨j, hjl⟩ = ce := by
      have hq := List.get?_eq_get hjl; rw [hq] at hj; exact Option.some.inj hj
    have hpair := (List.pairwise_iff_get.mp (avWF_pairwise av hWF))
      ⟨idx, hil⟩ ⟨j, hjl⟩ hjlt
    rw [hget] at hpair
    have hne := hWF.1 _ (List.get_mem av idx hil)
    omega

/-- setAv keeps the key list. -/
theorem setAv_keys (cg : CausalGraph) (agent : String) (av : List ClientEntry) :
    (setAv cg agent av).agentToVersion.map Prod.fst =
      cg.agentToVersion.map Prod.fst := by
  unfold setAv
  dsimp only
  rw [List.map_map]
  apply List.map_congr_left
  intro p _
  by_cases h : p.1 = agent
  · simp [h]
  · simp [h]

/-- addAgent appends the key. -/
theorem addAgent_keys (cg : CausalGraph) (agent : String) (av : List ClientEntry) :
    (addAgent cg agent av).agentToVersion.map Prod.fst =
      cg.agentToVersion.map Prod.fst ++ [agent] := by
  unfold addAgent
  simp

/-- An absent agent is not among the keys. -/
theorem avFor_none_not_mem (cg : CausalGraph) (agent : String)
    (h : avFor cg agent = none) : agent ∉ cg.agentToVersion.map Prod.fst := by
  intro hmem
  obtain ⟨p, hp, hfst⟩ := List.mem_map.mp hmem
  unfold avFor at h
  cases hq : cg.agentToVersion.find? (fun p => p.1 = agent) with
  | some q => rw [hq] at h; cases h
  | none =>
    have := List.find?_eq_none.mp hq p hp
    simp only [decide_eq_true_eq] at this
    exact this hfst

/-- The common shape of every mutating path of `add`: first the per-agent
index is edited to `A'`, then `internalAddToEntries` appends the trimmed
span.  Well-formedness is preserved provided the edited index is itself
well formed and agrees with the lookups of the resulting graph. -/
theorem add_step_WF (cg : CausalGraph) (A' : List (String × List ClientEntry))
    (agent : String) (seqStart' seqEnd' : Nat) (parents' : List Nat)
    (h : WF cg)
    (H2 : (A'.map Prod.fst).Nodup)
    (H3 : ∀ p ∈ A', avWF p.2)
    (H4 : ∀ a s v, idToLV cg a s = some v →
      idToLV { heads := cg.heads, entries := cg.entries, agentToVersion := A' } a s =
        some v)
    (H5 : ∀ k, k < seqEnd' - seqStart' →
      idToLV { heads := cg.heads, entries := cg.entries, agentToVersion := A' } agent
        (seqStart' + k) = some (nextLV cg + k))
    (H6 : ∀ p ∈ A', ∀ ce ∈ p.2, ∀ k, k < ce.seqEnd - ce.seq →
      lvToId cg (ce.version + k) = some (p.1, ce.seq + k) ∨
      (∃ k', ce.version + k = nextLV cg + k' ∧ k' < seqEnd' - seqStart' ∧
        p.1 = agent ∧ ce.seq + k = seqStart' + k'))
    (H7 : seqStart' < seqEnd')
    (H8 : ∀ p ∈ parents', p < nextLV cg) :
    WF (internalAddToEntries
        { heads := cg.heads, entries := cg.entries, agentToVersion := A' }
        (nextLV cg) agent seqStart' seqEnd' parents').1 ∧
    (∀ v, v < nextLV cg →
      lvToId (internalAddToEntries
        { heads := cg.heads, entries := cg.entries, agentToVersion := A' }
        (nextLV cg) agent seqStart' seqEnd' parents').1 v = lvToId cg v) ∧
    (∃ v', idToLV (internalAddToEntries
        { heads := cg.heads, entries := cg.entries, agentToVersion := A' }
        (nextLV cg) agent seqStart' seqEnd' parents').1 agent (seqEnd' - 1) =
      some v') := by
  set cg1 : CausalGraph :=
    { heads := cg.heads, entries := cg.entries, agentToVersion := A' } with hcg1
  have hent : cg1.entries = cg.entries := rfl
  have hhd : cg1.heads = cg.heads := rfl
  have hatv1 : cg1.agentToVersion = A' := rfl
  have hN : nextLV cg1 = nextLV cg := rfl
  have hg1 : gapless cg1 := by unfold gapless; rw [hent]; exact h.gap
  have hplt1 : ∀ e ∈ cg1.entries, ∀ p ∈ e.parents, p < e.version := by
    rw [hent]; exact h.parentsLT
  have hrle1 : rleMaximal cg1 := by unfold rleMaximal; rw [hent]; exact h.rle
  have hpar1 : ∀ p ∈ parents', p < nextLV cg1 := by rw [hN]; exact H8
  have main := internalAdd_main cg1 agent seqStart' seqEnd' parents' hg1 hplt1 hrle1 H7 hpar1
  rw [hN] at main
  obtain ⟨hgap, hplt2, hrle2, _, _, hatv2, hold, hnew⟩ := main
  have hheads1 : cg1.heads = headSpec cg1 := by
    rw [hhd, h.headsOk]
    exact headSpec_congr_entries cg cg1 hent.symm
  have hheads2 := internalAdd_heads cg1 agent seqStart' seqEnd' parents' hg1 hplt1 hheads1
    H7 hpar1
  rw [hN] at hheads2
  refine ⟨⟨hgap, hplt2, hrle2, hheads2, ?_, ?_, ?_, ?_⟩, ?_, ?_⟩
  · rw [hatv2, hatv1]
    exact H2
  · rw [hatv2, hatv1]
    exact H3
  · intro p hp ce hce k hk
    rw [hatv2, hatv1] at hp
    rcases H6 p hp ce hce k hk with hOld | ⟨k', he, hk', hagent, hseq⟩
    · have hlt : ce.version + k < nextLV cg := lvToId_some_lt cg h.gap _ _ hOld
      rw [hold (ce.version + k) hlt, lvToId_congr_entries cg1 cg hent]
      exact hOld
    · rw [he, hagent, hseq]
      exact hnew k' hk'
  · intro e he k hk
    have hid : ∀ a s,
        idToLV (internalAddToEntries cg1 (nextLV cg) agent seqStart' seqEnd' parents').1
          a s = idToLV cg1 a s :=
      fun a s => idToLV_congr_atv _ cg1 hatv2 a s
    rw [hid]
    have hentries :
        (internalAddToEntries cg1 (nextLV cg) agent seqStart' seqEnd' parents').1.entries =
        pushRLEList tryAppendEntries cg.entries
          { version := nextLV cg, vEnd := nextLV cg + (seqEnd' - seqStart'), agent := agent
            seq := seqStart', parents := parents' } := by
      unfold internalAddToEntries
      rfl
    rw [hentries] at he
    rcases pushRLEList_cases tryAppendEntries cg.entries
        { version := nextLV cg, vEnd := nextLV cg + (seqEnd' - seqStart'), agent := agent
          seq := seqStart', parents := parents' } with
      ⟨_, happ⟩ | ⟨last, merged, hlast, hmerge, happ⟩
    · rw [happ] at he
      rcases List.mem_append.mp he with h1 | h2
      · exact H4 _ _ _ (h.eToC e h1 k hk)
      · rw [List.mem_singleton] at h2
        subst h2
        dsimp only at hk ⊢
        have hk2 : k < seqEnd' - seqStart' := by omega
        exact H5 k hk2
    · rw [happ] at he
      have hsplit : cg.entries = cg.entries.dropLast ++ [last] :=
        eq_dropLast_append_of_getLast cg.entries last hlast
      rcases List.mem_append.mp he with h1 | h2
      · have hmem : e ∈ cg.entries := by
          rw [hsplit]; exact List.mem_append_left _ h1
        exact H4 _ _ _ (h.eToC e hmem k hk)
      · rw [List.mem_singleton] at h2
        subst h2
        obtain ⟨hm1, hm2, hm3, _, hm5⟩ := tryAppendEntries_some last _ e hmerge
        dsimp only at hm1 hm2 hm3
        have hlastmem : last ∈ cg.entries := by
          rw [hsplit]; exact List.mem_append_right _ (List.mem_singleton_self last)
        have hlastb := entry_bounds cg h.gap last hlastmem
        have hmv : e.version = last.version := by rw [hm5]
        have hms : e.seq = last.seq := by rw [hm5]
        have hma : e.agent = last.agent := by rw [hm5]
        have hmvE : e.vEnd = nextLV cg + (seqEnd' - seqStart') := by rw [hm5]
        by_cases hcase : k < last.vEnd - last.version
        · have hy := H4 _ _ _ (h.eToC last hlastmem k hcase)
          rw [hma, hms, hmv]
          exact hy
        · have hk'lt : k - (last.vEnd - last.version) < seqEnd' - seqStart' := by
            rw [hmvE, hmv] at hk
            omega
          have h5 := H5 (k - (last.vEnd - last.version)) hk'lt
          rw [hma, hm2, hms, hmv]
          have harg : last.seq + k = seqStart' + (k - (last.vEnd - last.version)) := by
            rw [← hm3]
            omega
          have hval : last.version + k = nextLV cg + (k - (last.vEnd - last.version)) := by
            rw [← hm1]
            omega
          rw [harg, hval]
          exact h5
  · intro v hv
    rw [hold v hv]
    exact lvToId_congr_entries cg1 cg hent v
  · refine ⟨nextLV cg + (seqEnd' - 1 - seqStart'), ?_⟩
    rw [idToLV_congr_atv _ cg1 hatv2]
    have h5 := H5 (seqEnd' - 1 - seqStart') (by omega)
    have harith : seqStart' + (seqEnd' - 1 - seqStart') = seqEnd' - 1 := by omega
    rw [harith] at h5
    exact h5

/-- With nodup keys, the pair stored for a key is unique. -/
theorem atv_unique_key (l : List (String × List ClientEntry))
    (hnd : (l.map Prod.fst).Nodup) (p q : String × List ClientEntry)
    (hp : p ∈ l) (hq : q ∈ l) (hk : p.1 = q.1) : p = q :=
  List.inj_on_of_nodup_map hnd hp hq hk

/-- WF preservation along the fresh-agent path of `add`. -/
theorem add_WF_addAgent (cg : CausalGraph) (agent : String) (seqStart seqEnd : Nat)
    (parents : List Nat) (h : WF cg)
    (hav : avFor cg agent = none)
    (hlen : seqStart < seqEnd)
    (hpar : ∀ p ∈ parents, p < nextLV cg) :
    WF (internalAddToEntries
        (addAgent cg agent [{ seq := seqStart, seqEnd := seqEnd, version := nextLV cg }])
        (nextLV cg) agent seqStart seqEnd parents).1 ∧
    (∀ v, v < nextLV cg →
      lvToId (internalAddToEntries
        (addAgent cg agent [{ seq := seqStart, seqEnd := seqEnd, version := nextLV cg }])
        (nextLV cg) agent seqStart seqEnd parents).1 v = lvToId cg v) ∧
    (∃ v', idToLV (internalAddToEntries
        (addAgent cg agent [{ seq := seqStart, seqEnd := seqEnd, version := nextLV cg }])
        (nextLV cg) agent seqStart seqEnd parents).1 agent (seqEnd - 1) =
      some v') := by
  have hWF0 : avWF [({ seq := seqStart, seqEnd := seqEnd, version := nextLV cg } :
      ClientEntry)] := by
    constructor
    · intro ce hce
      rw [List.mem_singleton] at hce
      subst hce
      exact hlen
    · exact List.chain'_singleton _
  have havnew := avFor_addAgent_same cg agent
    [{ seq := seqStart, seqEnd := seqEnd, version := nextLV cg }] hav
  refine add_step_WF cg
    (cg.agentToVersion ++ [(agent, [{ seq := seqStart, seqEnd := seqEnd
                                      version := nextLV cg }])])
    agent seqStart seqEnd parents h ?_ ?_ ?_ ?_ ?_ hlen hpar
  · rw [List.map_append, List.nodup_append]
    refine ⟨h.keysNodup, List.nodup_singleton _, ?_⟩
    show (cg.agentToVersion.map Prod.fst).Disjoint [agent]
    rw [List.disjoint_singleton]
    exact avFor_none_not_mem cg agent hav
  · intro p hp
    rcases List.mem_append.mp hp with h1 | h2
    · exact h.avOk p h1
    · rw [List.mem_singleton] at h2
      subst h2
      exact hWF0
  · intro a s v hv
    by_cases ha : a = agent
    · exfalso
      subst ha
      unfold idToLV findClientEntryTrimmed findClientEntry findClientEntryRaw at hv
      rw [hav] at hv
      cases hv
    · show idToLV (addAgent cg agent
        [{ seq := seqStart, seqEnd := seqEnd, version := nextLV cg }]) a s = some v
      rw [idToLV_congr_avFor _ cg a (avFor_addAgent_other cg agent a _ ha)]
      exact hv
  · intro k hk
    show idToLV (addAgent cg agent
      [{ seq := seqStart, seqEnd := seqEnd, version := nextLV cg }]) agent
      (seqStart + k) = some (nextLV cg + k)
    have hcov := idToLV_covered _ agent _ havnew hWF0
      { seq := seqStart, seqEnd := seqEnd, version := nextLV cg }
      (List.mem_singleton_self _) (seqStart + k)
      (by dsimp only; omega) (by dsimp only; omega)
    rw [hcov]
    have harith : seqStart + k - seqStart = k := by omega
    show some (nextLV cg + (seqStart + k - seqStart)) = some (nextLV cg + k)
    rw [harith]
  · intro p hp ce hce k hk
    rcases List.mem_append.mp hp with h1 | h2
    · exact Or.inl (h.cToE p h1 ce hce k hk)
    · rw [List.mem_singleton] at h2
      subst h2
      rw [List.mem_singleton] at hce
      subst hce
      dsimp only at hk ⊢
      exact Or.inr ⟨k, rfl, hk, rfl, rfl⟩

/-- WF preservation along the paths of `add` that extend an existing client
entry in place (the version-match path, and the splice path when the RLE
merge with the predecessor fires). -/
theorem add_WF_setExtend (cg : CausalGraph) (agent : String) (av : List ClientEntry)
    (idx1 : Nat) (prev : ClientEntry) (seqEnd : Nat) (parents' : List Nat)
    (h : WF cg)
    (hav : avFor cg agent = some av)
    (hprev : av.get? idx1 = some prev)
    (hlt : prev.seqEnd < seqEnd)
    (hstop : ∀ j ce, av.get? j = some ce → idx1 < j → seqEnd ≤ ce.seq)
    (hend : prev.version + (prev.seqEnd - prev.seq) = nextLV cg)
    (hpar : ∀ p ∈ parents', p < nextLV cg) :
    WF (internalAddToEntries
        (setAv cg agent (av.set idx1 { prev with seqEnd := seqEnd }))
        (nextLV cg) agent prev.seqEnd seqEnd parents').1 ∧
    (∀ v, v < nextLV cg →
      lvToId (internalAddToEntries
        (setAv cg agent (av.set idx1 { prev with seqEnd := seqEnd }))
        (nextLV cg) agent prev.seqEnd seqEnd parents').1 v = lvToId cg v) ∧
    (∃ v', idToLV (internalAddToEntries
        (setAv cg agent (av.set idx1 { prev with seqEnd := seqEnd }))
        (nextLV cg) agent prev.seqEnd seqEnd parents').1 agent (seqEnd - 1) =
      some v') := by
  set ext : ClientEntry := { prev with seqEnd := seqEnd } with hextdef
  have hext_seq : ext.seq = prev.seq := by rw [hextdef]
  have hext_seqEnd : ext.seqEnd = seqEnd := by rw [hextdef]
  have hext_version : ext.version = prev.version := by rw [hextdef]
  set av' : List ClientEntry := av.set idx1 ext with havPdef
  have hpair : (agent, av) ∈ cg.agentToVersion := avFor_some_mem cg agent av hav
  have havWF : avWF av := h.avOk _ hpair
  have hidx1 : idx1 < av.length := (List.get?_eq_some.mp hprev).1
  have hprevmem : prev ∈ av := List.get?_mem hprev
  have hprevne : prev.seq < prev.seqEnd := havWF.1 prev hprevmem
  have hprevget : av.get ⟨idx1, hidx1⟩ = prev := by
    have hq := List.get?_eq_get hidx1
    rw [hq] at hprev
    exact Option.some.inj hprev
  have hbelow' : ∀ j ce, av.get? j = some ce → j < idx1 → ce.seqEnd ≤ prev.seq := by
    intro j ce hj hjlt
    have hjl : j < av.length := (List.get?_eq_some.mp hj).1
    have hget : av.get ⟨j, hjl⟩ = ce := by
      have hq := List.get?_eq_get hjl; rw [hq] at hj; exact Option.some.inj hj
    have hpw := (List.pairwise_iff_get.mp (avWF_pairwise av havWF))
      ⟨j, hjl⟩ ⟨idx1, hidx1⟩ hjlt
    rw [hget, hprevget] at hpw
    exact hpw
  have havWF' : avWF av' := by
    rw [havPdef, List.set_eq_take_cons_drop ext hidx1]
    apply avWF_take_cons_drop av havWF ext idx1 (idx1 + 1)
    · rw [hext_seq, hext_seqEnd]
      omega
    · intro j ce hj hjlt
      rw [hext_seq]
      exact hbelow' j ce hj hjlt
    · intro j ce hj hjge
      rw [hext_seqEnd]
      exact hstop j ce hj (by omega)
  have hext_mem : ext ∈ av' := by
    rw [havPdef]
    exact List.mem_set av idx1 hidx1 ext
  have hsome : (avFor cg agent).isSome := by rw [hav]; rfl
  have havsame : avFor (setAv cg agent av') agent = some av' :=
    avFor_setAv_same cg agent av' hsome
  refine add_step_WF cg
    (cg.agentToVersion.map (fun p => if p.1 = agent then (p.1, av') else p))
    agent prev.seqEnd seqEnd parents' h ?_ ?_ ?_ ?_ ?_ (by omega) hpar
  · show ((setAv cg agent av').agentToVersion.map Prod.fst).Nodup
    rw [setAv_keys]
    exact h.keysNodup
  · intro p hp
    obtain ⟨q, hq, hpq⟩ := List.mem_map.mp hp
    by_cases hq1 : q.1 = agent
    · rw [if_pos hq1] at hpq
      rw [← hpq]
      exact havWF'
    · rw [if_neg hq1] at hpq
      rw [← hpq]
      exact h.avOk q hq
  · intro a s v hv
    by_cases ha : a = agent
    · rw [ha] at hv ⊢
      show idToLV (setAv cg agent av') agent s = some v
      obtain ⟨av0, hav0, ce, hcem, hc1, hc2, hval⟩ := idToLV_some_inv cg agent s v hv
      have hav0eq : av0 = av := by
        rw [hav] at hav0
        exact (Option.some.inj hav0).symm
      rw [hav0eq] at hcem
      by_cases hpcov : prev.seq ≤ s ∧ s < prev.seqEnd
      · have hce_eq : ce = prev :=
          avWF_unique_cover av havWF ce prev hcem hprevmem s ⟨hc1, hc2⟩ hpcov
        rw [hce_eq] at hval
        have hcov := idToLV_covered (setAv cg agent av') agent av' havsame havWF'
          ext hext_mem s (by rw [hext_seq]; omega) (by rw [hext_seqEnd]; omega)
        rw [hcov, hval, hext_version, hext_seq]
      · obtain ⟨j, hj⟩ := List.get?_of_mem hcem
        have hjne : idx1 ≠ j := by
          intro hje
          rw [← hje, hprev] at hj
          apply hpcov
          rw [Option.some.inj hj]
          exact ⟨hc1, hc2⟩
        have hj' : av'.get? j = some ce := by
          rw [havPdef]
          rw [List.get?_eq_getElem?] at hj ⊢
          rw [List.getElem?_set_ne hjne]
          exact hj
        have hcem' : ce ∈ av' := List.get?_mem hj'
        have hcov := idToLV_covered (setAv cg agent av') agent av' havsame havWF'
          ce hcem' s hc1 hc2
        rw [hcov, hval]
    · show idToLV (setAv cg agent av') a s = some v
      rw [idToLV_congr_avFor _ cg a (avFor_setAv_other cg agent a av' ha)]
      exact hv
  · intro k hk
    show idToLV (setAv cg agent av') agent (prev.seqEnd + k) = some (nextLV cg + k)
    have hcov := idToLV_covered (setAv cg agent av') agent av' havsame havWF'
      ext hext_mem (prev.seqEnd + k) (by rw [hext_seq]; omega)
      (by rw [hext_seqEnd]; omega)
    rw [hcov, hext_version, hext_seq]
    have harith : prev.version + (prev.seqEnd + k - prev.seq) = nextLV cg + k := by
      rw [← hend]
      omega
    rw [harith]
  · intro p hp ce hce k hk
    obtain ⟨q, hq, hpq⟩ := List.mem_map.mp hp
    by_cases hq1 : q.1 = agent
    · rw [if_pos hq1] at hpq
      have hp1 : p.1 = agent := by rw [← hpq]; exact hq1
      have hce' : ce ∈ av' := by rw [← hpq] at hce; exact hce
      rw [havPdef] at hce'
      rcases List.mem_or_eq_of_mem_set hce' with hmemav | hext2
      · rw [hp1]
        exact Or.inl (h.cToE (agent, av) hpair ce hmemav k hk)
      · subst hext2
        have hk2 : k < seqEnd - prev.seq := by
          rw [hext_seqEnd, hext_seq] at hk
          exact hk
        rw [hp1, hext_version, hext_seq]
        by_cases hcase : k < prev.seqEnd - prev.seq
        · exact Or.inl (h.cToE (agent, av) hpair prev hprevmem k hcase)
        · refine Or.inr ⟨k - (prev.seqEnd - prev.seq), ?_, ?_, rfl, ?_⟩
          · rw [← hend]
            omega
          · omega
          · omega
    · rw [if_neg hq1] at hpq
      rw [← hpq] at hce ⊢
      exact Or.inl (h.cToE q hq ce hce k hk)

/-- WF preservation along the paths of `add` that insert a fresh client
entry into an existing agent's list. -/
theorem add_WF_setInsert (cg : CausalGraph) (agent : String) (av : List ClientEntry)
    (idx : Nat) (seqStart seqEnd : Nat) (parents' : List Nat)
    (h : WF cg)
    (hav : avFor cg agent = some av)
    (hidx : idx ≤ av.length)
    (hlen : seqStart < seqEnd)
    (hbelow : ∀ j ce, av.get? j = some ce → j < idx → ce.seqEnd ≤ seqStart)
    (habove : ∀ j ce, av.get? j = some ce → idx ≤ j → seqEnd ≤ ce.seq)
    (hpar : ∀ p ∈ parents', p < nextLV cg) :
    WF (internalAddToEntries
        (setAv cg agent (av.insertIdx idx
          { seq := seqStart, seqEnd := seqEnd, version := nextLV cg }))
        (nextLV cg) agent seqStart seqEnd parents').1 ∧
    (∀ v, v < nextLV cg →
      lvToId (internalAddToEntries
        (setAv cg agent (av.insertIdx idx
          { seq := seqStart, seqEnd := seqEnd, version := nextLV cg }))
        (nextLV cg) agent seqStart seqEnd parents').1 v = lvToId cg v) ∧
    (∃ v', idToLV (internalAddToEntries
        (setAv cg agent (av.insertIdx idx
          { seq := seqStart, seqEnd := seqEnd, version := nextLV cg }))
        (nextLV cg) agent seqStart seqEnd parents').1 agent (seqEnd - 1) =
      some v') := by
  set nw : ClientEntry := { seq := seqStart, seqEnd := seqEnd, version := nextLV cg }
    with hnwdef
  have hnw_seq : nw.seq = seqStart := by rw [hnwdef]
  have hnw_seqEnd : nw.seqEnd = seqEnd := by rw [hnwdef]
  have hnw_version : nw.version = nextLV cg := by rw [hnwdef]
  set av' : List ClientEntry := av.insertIdx idx nw with havPdef
  have hpair : (agent, av) ∈ cg.agentToVersion := avFor_some_mem cg agent av hav
  have havWF : avWF av := h.avOk _ hpair
  have havWF' : avWF av' := by
    rw [havPdef, insertIdx_eq_append nw idx av hidx]
    apply avWF_take_cons_drop av havWF nw idx idx
    · rw [hnw_seq, hnw_seqEnd]; exact hlen
    · intro j ce hj hjlt
      rw [hnw_seq]
      exact hbelow j ce hj hjlt
    · intro j ce hj hjge
      rw [hnw_seqEnd]
      exact habove j ce hj hjge
  have hnw_mem : nw ∈ av' := by
    rw [havPdef]
    exact (List.mem_insertIdx hidx).mpr (Or.inl rfl)
  have hmem_of : ∀ ce ∈ av, ce ∈ av' := by
    intro ce hce
    rw [havPdef]
    exact (List.mem_insertIdx hidx).mpr (Or.inr hce)
  have hsome : (avFor cg agent).isSome := by rw [hav]; rfl
  have havsame : avFor (setAv cg agent av') agent = some av' :=
    avFor_setAv_same cg agent av' hsome
  refine add_step_WF cg
    (cg.agentToVersion.map (fun p => if p.1 = agent then (p.1, av') else p))
    agent seqStart seqEnd parents' h ?_ ?_ ?_ ?_ ?_ hlen hpar
  · show ((setAv cg agent av').agentToVersion.map Prod.fst).Nodup
    rw [setAv_keys]
    exact h.keysNodup
  · intro p hp
    obtain ⟨q, hq, hpq⟩ := List.mem_map.mp hp
    by_cases hq1 : q.1 = agent
    · rw [if_pos hq1] at hpq
      rw [← hpq]
      exact havWF'
    · rw [if_neg hq1] at hpq
      rw [← hpq]
      exact h.avOk q hq
  · intro a s v hv
    by_cases ha : a = agent
    · rw [ha] at hv ⊢
      show idToLV (setAv cg agent av') agent s = some v
      obtain ⟨av0, hav0, ce, hcem, hc1, hc2, hval⟩ := idToLV_some_inv cg agent s v hv
      have hav0eq : av0 = av := by
        rw [hav] at hav0
        exact (Option.some.inj hav0).symm
      rw [hav0eq] at hcem
      have hcov := idToLV_covered (setAv cg agent av') agent av' havsame havWF'
        ce (hmem_of ce hcem) s hc1 hc2
      rw [hcov, hval]
    · show idToLV (setAv cg agent av') a s = some v
      rw [idToLV_congr_avFor _ cg a (avFor_setAv_other cg agent a av' ha)]
      exact hv
  · intro k hk
    show idToLV (setAv cg agent av') agent (seqStart + k) = some (nextLV cg + k)
    have hcov := idToLV_covered (setAv cg agent av') agent av' havsame havWF'
      nw hnw_mem (seqStart + k) (by rw [hnw_seq]; omega) (by rw [hnw_seqEnd]; omega)
    rw [hcov, hnw_version, hnw_seq]
    have harith : seqStart + k - seqStart = k := by omega
    rw [harith]
  · intro p hp ce hce k hk
    obtain ⟨q, hq, hpq⟩ := List.mem_map.mp hp
    by_cases hq1 : q.1 = agent
    · rw [if_pos hq1] at hpq
      have hp1 : p.1 = agent := by rw [← hpq]; exact hq1
      have hce' : ce ∈ av' := by rw [← hpq] at hce; exact hce
      rw [havPdef] at hce'
      rcases (List.mem_insertIdx hidx).mp hce' with hnwe | hmemav
      · rw [hp1, hnwe, hnw_version, hnw_seq]
        rw [hnwe, hnw_seqEnd, hnw_seq] at hk
        exact Or.inr ⟨k, rfl, hk, rfl, rfl⟩
      · rw [hp1]
        exact Or.inl (h.cToE (agent, av) hpair ce hmemav k hk)
    · rw [if_neg hq1] at hpq
      rw [← hpq] at hce ⊢
      exact Or.inl (h.cToE q hq ce hce k hk)

/-- The behaviour of `add` needed by its callers: WF is preserved, lookups of
existing versions are stable, and the end of a non-empty span is known
afterwards.  Requires parents that exist in the graph and a non-reversed
span (every caller in the repository satisfies both). -/
theorem add_full (cg : CausalGraph) (agent : String) (seqStart seqEnd : Nat)
    (parents : List Nat) (h : WF cg)
    (hse : seqStart ≤ seqEnd)
    (hpar : ∀ p ∈ parents, p < nextLV cg) :
    WF (add cg agent seqStart seqEnd parents).1 ∧
    (∀ v, v < nextLV cg →
      lvToId (add cg agent seqStart seqEnd parents).1 v = lvToId cg v) ∧
    (seqStart < seqEnd →
      ∃ v', idToLV (add cg agent seqStart seqEnd parents).1 agent (seqEnd - 1) =
        some v') := by
  unfold add
  by_cases h0 : seqStart = seqEnd
  · rw [if_pos h0]
    exact ⟨h, fun v hv => rfl, fun hlt => absurd hlt (by omega)⟩
  · rw [if_neg h0]
    have hlen : seqStart < seqEnd := by omega
    cases hav : avFor cg agent with
    | none =>
      obtain ⟨w1, w2, w3⟩ :=
        add_WF_addAgent cg agent seqStart seqEnd parents h hav hlen hpar
      exact ⟨w1, w2, fun _ => w3⟩
    | some av =>
      dsimp only
      have hpair : (agent, av) ∈ cg.agentToVersion := avFor_some_mem cg agent av hav
      have havWF : avWF av := h.avOk _ hpair
      cases hfi : findAVIndex av (seqEnd - 1) with
      | found i =>
        refine ⟨h, fun v hv => rfl, fun _ => ?_⟩
        obtain ⟨_, ⟨ce, hg, hc1, hc2⟩, _⟩ := findAVIndexGo_found (seqEnd - 1) av 0 i hfi
        simp only [Nat.sub_zero] at hg
        exact ⟨_, idToLV_covered cg agent av hav havWF ce (List.get?_mem hg)
          (seqEnd - 1) hc1 hc2⟩
      | notFound idx =>
        obtain ⟨_, hlenidx, hbelowN, hstopN⟩ :=
          findAVIndexGo_notFound (seqEnd - 1) av 0 idx hfi
        simp only [Nat.sub_zero] at hlenidx hbelowN hstopN
        have habove' : ∀ j ce, av.get? j = some ce → idx ≤ j → seqEnd ≤ ce.seq :=
          av_bound_above av havWF idx seqEnd
            (fun ce hce => by have := hstopN ce hce; omega)
        dsimp only
        by_cases hi : 1 ≤ idx
        · rw [if_pos hi]
          have hi1 : idx - 1 < av.length := by omega
          cases hget : av.get? (idx - 1) with
          | none =>
            exfalso
            rw [List.get?_eq_get hi1] at hget
            cases hget
          | some prev =>
            have hprevmem : prev ∈ av := List.get?_mem hget
            have hspan : prev.seq < prev.seqEnd := havWF.1 prev hprevmem
            have hprevEnd : prev.seqEnd < seqEnd := by
              obtain ⟨ce, hce, hle⟩ := hbelowN (idx - 1) (by omega)
              rw [hget] at hce
              rw [← Option.some.inj hce] at hle
              omega
            have hplt' : prev.version + (prev.seqEnd - prev.seq) - 1 < nextLV cg := by
              have hy := h.cToE (agent, av) hpair prev hprevmem
                (prev.seqEnd - prev.seq - 1) (by omega)
              have := lvToId_some_lt cg h.gap _ _ hy
              omega
            have hstop' : ∀ j ce, av.get? j = some ce → idx - 1 < j → seqEnd ≤ ce.seq := by
              intro j ce hj hjgt
              exact habove' j ce hj (by omega)
            dsimp only
            by_cases hov : seqStart < prev.seqEnd
            · rw [if_pos hov]
              dsimp only
              by_cases hpe : prev.version + (prev.seqEnd - prev.seq) = nextLV cg
              · rw [if_pos hpe]
                obtain ⟨w1, w2, w3⟩ := add_WF_setExtend cg agent av (idx - 1) prev seqEnd
                  [prev.version + (prev.seqEnd - prev.seq) - 1] h hav hget hprevEnd
                  hstop' hpe
                  (fun p hp => by rw [List.mem_singleton] at hp; omega)
                exact ⟨w1, w2, fun _ => w3⟩
              · rw [if_neg hpe]
                have hsplice : spliceClientEntry av idx
                    { seq := prev.seqEnd, seqEnd := seqEnd, version := nextLV cg } =
                    av.insertIdx idx
                      { seq := prev.seqEnd, seqEnd := seqEnd, version := nextLV cg } := by
                  unfold spliceClientEntry
                  rw [if_neg (by omega : ¬ idx = 0), hget]
                  dsimp only
                  have hcond : tryAppendClientEntry prev
                      { seq := prev.seqEnd, seqEnd := seqEnd, version := nextLV cg } =
                      none := by
                    unfold tryAppendClientEntry
                    rw [if_neg]
                    intro hc
                    exact hpe (hc.2.symm)
                  rw [hcond]
                rw [hsplice]
                obtain ⟨w1, w2, w3⟩ := add_WF_setInsert cg agent av idx prev.seqEnd seqEnd
                  [prev.version + (prev.seqEnd - prev.seq) - 1] h hav hlenidx hprevEnd
                  (av_bound_below av havWF idx prev.seqEnd hlenidx
                    (fun ce hce => by rw [hget] at hce; rw [Option.some.inj hce]))
                  habove'
                  (fun p hp => by rw [List.mem_singleton] at hp; omega)
                exact ⟨w1, w2, fun _ => w3⟩
            · rw [if_neg hov]
              dsimp only
              have hbelow2 : ∀ j ce, av.get? j = some ce → j < idx → ce.seqEnd ≤ seqStart :=
                av_bound_below av havWF idx seqStart hlenidx
                  (fun ce hce => by
                    rw [hget] at hce
                    rw [← Option.some.inj hce]
                    omega)
              by_cases hmc : seqStart = prev.seqEnd ∧
                  nextLV cg = prev.version + (prev.seqEnd - prev.seq)
              · have hsplice : spliceClientEntry av idx
                    { seq := seqStart, seqEnd := seqEnd, version := nextLV cg } =
                    av.set (idx - 1) { prev with seqEnd := seqEnd } := by
                  unfold spliceClientEntry
                  rw [if_neg (by omega : ¬ idx = 0), hget]
                  dsimp only
                  have hcond : tryAppendClientEntry prev
                      { seq := seqStart, seqEnd := seqEnd, version := nextLV cg } =
                      some { prev with seqEnd := seqEnd } := by
                    unfold tryAppendClientEntry
                    rw [if_pos ⟨hmc.1, hmc.2⟩]
                  rw [hcond]
                rw [hsplice, hmc.1]
                obtain ⟨w1, w2, w3⟩ := add_WF_setExtend cg agent av (idx - 1) prev seqEnd
                  parents h hav hget hprevEnd hstop' hmc.2.symm hpar
                exact ⟨w1, w2, fun _ => w3⟩
              · have hsplice : spliceClientEntry av idx
                    { seq := seqStart, seqEnd := seqEnd, version := nextLV cg } =
                    av.insertIdx idx
                      { seq := seqStart, seqEnd := seqEnd, version := nextLV cg } := by
                  unfold spliceClientEntry
                  rw [if_neg (by omega : ¬ idx = 0), hget]
                  dsimp only
                  have hcond : tryAppendClientEntry prev
                      { seq := seqStart, seqEnd := seqEnd, version := nextLV cg } =
                      none := by
                    unfold tryAppendClientEntry
                    rw [if_neg]
                    intro hc
                    exact hmc ⟨hc.1, hc.2⟩
                  rw [hcond]
                rw [hsplice]
                obtain ⟨w1, w2, w3⟩ := add_WF_setInsert cg agent av idx seqStart seqEnd
                  parents h hav hlenidx hlen hbelow2 habove' hpar
                exact ⟨w1, w2, fun _ => w3⟩
        · rw [if_neg hi]
          dsimp only
          have hidx0 : idx = 0 := by omega
          subst hidx0
          have hsplice : spliceClientEntry av 0
              { seq := seqStart, seqEnd := seqEnd, version := nextLV cg } =
              av.insertIdx 0
                { seq := seqStart, seqEnd := seqEnd, version := nextLV cg } := by
            unfold spliceClientEntry
            rw [if_pos rfl]
          rw [hsplice]
          obtain ⟨w1, w2, w3⟩ := add_WF_setInsert cg agent av 0 seqStart seqEnd parents
            h hav (Nat.zero_le _) hlen (fun j ce _ hj => by omega) habove' hpar
          exact ⟨w1, w2, fun _ => w3⟩

/-- WF is preserved by `add` (projection of `add_full`). -/
theorem add_WF (cg : CausalGraph) (agent : String) (seqStart seqEnd : Nat)
    (parents : List Nat) (h : WF cg)
    (hse : seqStart ≤ seqEnd)
    (hpar : ∀ p ∈ parents, p < nextLV cg) :
    WF (add cg agent seqStart seqEnd parents).1 :=
  (add_full cg agent seqStart seqEnd parents h hse hpar).1

/-- Under WF, every successful idToLV lookup lands below nextLV. -/
theorem idToLV_some_lt_of_WF (cg : CausalGraph) (h : WF cg) (a : String) (s v : Nat)
    (hv : idToLV cg a s = some v) : v < nextLV cg := by
  obtain ⟨av, hav, ce, hcem, hc1, hc2, hval⟩ := idToLV_some_inv cg a s v hv
  have hpair : (a, av) ∈ cg.agentToVersion := avFor_some_mem cg a av hav
  have hy := h.cToE (a, av) hpair ce hcem (s - ce.seq) (by omega)
  have := lvToId_some_lt cg h.gap _ _ hy
  omega

/-- Resolved parent lists stay below nextLV. -/
theorem idToLVList_some_lt (cg : CausalGraph) (h : WF cg) :
    ∀ (ids : List Id) (parents : List Nat), idToLVList cg ids = some parents →
    ∀ p ∈ parents, p < nextLV cg := by
  intro ids
  induction ids with
  | nil =>
    intro parents hp p hmem
    unfold idToLVList at hp
    have hnil : parents = [] := by
      have h2 := Option.some.inj hp.symm
      rw [h2]
      rfl
    subst hnil
    cases hmem
  | cons i rest ih =>
    intro parents hp p hmem
    unfold idToLVList at hp
    rw [List.mapM_cons] at hp
    cases hv : idToLV cg i.1 i.2 with
    | none => rw [hv] at hp; cases hp
    | some v =>
      rw [hv] at hp
      cases hrest : rest.mapM (fun p => idToLV cg p.1 p.2) with
      | none => rw [hrest] at hp; cases hp
      | some vs =>
        rw [hrest] at hp
        have hps : parents = v :: vs := (Option.some.inj hp).symm
        subst hps
        rcases List.mem_cons.mp hmem with hp1 | hp2
        · subst hp1
          exact idToLV_some_lt_of_WF cg h i.1 i.2 p hv
        · exact ih vs hrest p hp2

/-- WF is preserved by addRemote whenever it does not throw. -/
theorem addRemote_WF (cg : CausalGraph) (id : Id) (len : Nat) (rawParents : List Id)
    (res : CausalGraph × Nat) (h : WF cg)
    (hres : addRemote cg id len rawParents = some res) : WF res.1 := by
  unfold addRemote at hres
  cases hp : idToLVList cg rawParents with
  | none => rw [hp] at hres; cases hres
  | some parents =>
    rw [hp] at hres
    have hr : res = add cg id.1 id.2 (id.2 + len) parents :=
      (Option.some.inj hres).symm
    rw [hr]
    exact add_WF cg id.1 id.2 (id.2 + len) parents h (by omega)
      (idToLVList_some_lt cg h rawParents parents hp)

/-- The empty graph is well formed. -/
theorem createCG_WF : WF createCG := by
  refine ⟨rfl, ?_, ?_, rfl, ?_, ?_, ?_, ?_⟩
  · intro e he; cases he
  · exact List.chain'_nil
  · exact List.nodup_nil
  · intro p hp; cases hp
  · intro p hp; cases hp
  · intro e he; cases he

/-- WF is preserved by the mergePartialVersions loop, including the partially
merged graph left behind by a failure. -/
theorem mergePartialGo_WF : ∀ (data : List PSEntry) (cg : CausalGraph) (start : Nat),
    WF cg → WF (mergePartialGo cg data start).1 := by
  intro data
  induction data with
  | nil => intro cg start h; exact h
  | cons e rest ih =>
    intro cg start h
    unfold mergePartialGo
    cases hres : addRemote cg (e.agent, e.seq) e.len e.parents with
    | none => exact h
    | some res =>
      obtain ⟨cg1, n⟩ := res
      exact ih cg1 start (addRemote_WF cg (e.agent, e.seq) e.len e.parents (cg1, n) h hres)

/-- WF is preserved by mergePartialVersions. -/
theorem mergePartialVersionsRun_WF (cg : CausalGraph) (data : List PSEntry)
    (h : WF cg) : WF (mergePartialVersionsRun cg data).1 :=
  mergePartialGo_WF data cg (nextLV cg) h

/-- Every reachable causal graph is well formed. -/
theorem reachable_WF (cg : CausalGraph) (h : Reachable cg) : WF cg := by
  induction h with
  | base => exact createCG_WF
  | add hr hse hpar ih => exact add_WF _ _ _ _ _ ih hse hpar
  | addRemote hr hres ih => exact addRemote_WF _ _ _ _ _ ih hres
  | mergePartial hr ih => exact mergePartialVersionsRun_WF _ _ ih

/-- Inversion of a successful lvToId lookup. -/
theorem lvToId_some_inv2 (cg : CausalGraph) (v : Nat) (id : Id)
    (h : lvToId cg v = some id) :
    ∃ e ∈ cg.entries, e.version ≤ v ∧ v < e.vEnd ∧
      id = (e.agent, e.seq + (v - e.version)) := by
  rw [lvToId_eq_find] at h
  cases hf : cg.entries.find? (fun e => decide (e.version ≤ v ∧ v < e.vEnd)) with
  | none => rw [hf] at h; cases h
  | some e =>
    rw [hf] at h
    have hmem := List.mem_of_find?_eq_some hf
    have hpred := List.find?_some hf
    simp only [decide_eq_true_eq] at hpred
    exact ⟨e, hmem, hpred.1, hpred.2, (Option.some.inj h).symm⟩

/-- Under WF, idToLV and lvToId agree: a successful seq lookup pins down the
reverse lookup. -/
theorem lvToId_val_of_idToLV (cg : CausalGraph) (h : WF cg) (a : String) (s v : Nat)
    (hv : idToLV cg a s = some v) : lvToId cg v = some (a, s) := by
  obtain ⟨av, hav, ce, hcem, hc1, hc2, hval⟩ := idToLV_some_inv cg a s v hv
  have hpair : (a, av) ∈ cg.agentToVersion := avFor_some_mem cg a av hav
  have hy := h.cToE (a, av) hpair ce hcem (s - ce.seq) (by omega)
  have h1 : ce.version + (s - ce.seq) = v := by omega
  have h2 : ce.seq + (s - ce.seq) = s := by omega
  rw [h1, h2] at hy
  exact hy

/-- Forward lookups are monotone between well-formed graphs whose reverse
lookups are stable on the old range. -/
theorem idToLV_mono_of_stable (cg cg2 : CausalGraph) (h : WF cg) (h2 : WF cg2)
    (hst : ∀ v, v < nextLV cg → lvToId cg2 v = lvToId cg v)
    (a : String) (s v : Nat) (hv : idToLV cg a s = some v) :
    idToLV cg2 a s = some v := by
  have hlt : v < nextLV cg := idToLV_some_lt_of_WF cg h a s v hv
  have hid : lvToId cg2 v = some (a, s) := by
    rw [hst v hlt]
    exact lvToId_val_of_idToLV cg h a s v hv
  obtain ⟨e, hmem, hb1, hb2, heq⟩ := lvToId_some_inv2 cg2 v (a, s) hid
  have hy := h2.eToC e hmem (v - e.version) (by omega)
  have hagent : e.agent = a := by
    have := congrArg Prod.fst heq
    exact this.symm
  have hseq : e.seq + (v - e.version) = s := by
    have := congrArg Prod.snd heq
    exact this.symm
  have hval : e.version + (v - e.version) = v := by omega
  rw [hagent, hseq, hval] at hy
  exact hy

/-- A successful idToLV means hasVersion. -/
theorem hasVersion_of_idToLV_some (cg : CausalGraph) (a : String) (s v : Nat)
    (hv : idToLV cg a s = some v) : hasVersion cg a s = true := by
  unfold idToLV findClientEntryTrimmed findClientEntry at hv
  unfold hasVersion
  cases hr : findClientEntryRaw cg a s with
  | none => rw [hr] at hv; cases hv
  | some ce => rfl

/-- Every assigned version has an external id. -/
theorem lvToId_isSome_of_lt (cg : CausalGraph) (hg : gapless cg) (v : Nat)
    (hv : v < nextLV cg) : ∃ id, lvToId cg v = some id := by
  obtain ⟨e, hmem, hb⟩ := gapless_coverage cg hg v hv
  exact ⟨(e.agent, e.seq + (v - e.version)), lvToId_of_entry cg hg e hmem v hb⟩

/-- The id ↔ LV round trip on a well-formed graph. -/
theorem roundtrip_of_WF (cg : CausalGraph) (h : WF cg) (v : Nat)
    (hv : v < nextLV cg) :
    ∃ id, lvToId cg v = some id ∧ idToLV cg id.1 id.2 = some v := by
  obtain ⟨e, hmem, hb⟩ := gapless_coverage cg h.gap v hv
  refine ⟨(e.agent, e.seq + (v - e.version)),
    lvToId_of_entry cg h.gap e hmem v hb, ?_⟩
  have hy := h.eToC e hmem (v - e.version) (by omega)
  have hval : e.version + (v - e.version) = v := by omega
  rw [hval] at hy
  exact hy

/-- mapM over Option succeeds when every element does. -/
theorem mapM_isSome {α β : Type} (f : α → Option β) :
    ∀ (l : List α), (∀ x ∈ l, ∃ y, f x = some y) → ∃ ys, l.mapM f = some ys := by
  intro l
  induction l with
  | nil => intro _; exact ⟨[], rfl⟩
  | cons a rest ih =>
    intro hall
    obtain ⟨y, hy⟩ := hall a (List.mem_cons_self a rest)
    obtain ⟨ys, hys⟩ := ih (fun x hx => hall x (List.mem_cons_of_mem a hx))
    refine ⟨y :: ys, ?_⟩
    rw [List.mapM_cons, hy, hys]
    rfl

/-- mapM results transfer along a pointwise some-preserving map. -/
theorem mapM_mono {α β : Type} (f g : α → Option β)
    (hfg : ∀ x y, f x = some y → g x = some y) :
    ∀ (l : List α) (ys : List β), l.mapM f = some ys → l.mapM g = some ys := by
  intro l
  induction l with
  | nil => intro ys h; exact h
  | cons a rest ih =>
    intro ys h
    rw [List.mapM_cons] at h ⊢
    cases hy : f a with
    | none => rw [hy] at h; cases h
    | some y =>
      rw [hy] at h
      cases hrest : rest.mapM f with
      | none => rw [hrest] at h; cases h
      | some ys2 =>
        rw [hrest] at h
        rw [hfg a y hy, ih ys2 hrest]
        exact h

/-- Inversion: a successful mapM means every element succeeded. -/
theorem mapM_some_forall {α β : Type} (f : α → Option β) :
    ∀ (l : List α) (ys : List β), l.mapM f = some ys →
    ∀ x ∈ l, ∃ y, f x = some y := by
  intro l
  induction l with
  | nil => intro ys _ x hx; cases hx
  | cons a rest ih =>
    intro ys h x hx
    rw [List.mapM_cons] at h
    cases hy : f a with
    | none => rw [hy] at h; cases h
    | some y =>
      rw [hy] at h
      cases hrest : rest.mapM f with
      | none => rw [hrest] at h; cases h
      | some ys2 =>
        rcases List.mem_cons.mp hx with h1 | h2
        · subst h1; exact ⟨y, hy⟩
        · exact ih ys2 hrest x h2

/-- Inversion: every output element of a successful mapM comes from an input. -/
theorem mapM_mem_inv {α β : Type} (f : α → Option β) :
    ∀ (l : List α) (ys : List β), l.mapM f = some ys →
    ∀ y ∈ ys, ∃ x ∈ l, f x = some y := by
  intro l
  induction l with
  | nil =>
    intro ys h y hy
    have : ys = [] := by
      have h2 := Option.some.inj h.symm
      rw [h2]
      rfl
    subst this
    cases hy
  | cons a rest ih =>
    intro ys h y hy
    rw [List.mapM_cons] at h
    cases ha : f a with
    | none => rw [ha] at h; cases h
    | some b =>
      rw [ha] at h
      cases hrest : rest.mapM f with
      | none => rw [hrest] at h; cases h
      | some bs =>
        rw [hrest] at h
        have hys : ys = b :: bs := (Option.some.inj h).symm
        subst hys
        rcases List.mem_cons.mp hy with h1 | h2
        · subst h1; exact ⟨a, List.mem_cons_self a rest, ha⟩
        · obtain ⟨x, hx, hfx⟩ := ih bs hrest y h2
          exact ⟨x, List.mem_cons_of_mem a hx, hfx⟩

/-- The other direction of the round trip under WF. -/
theorem idToLV_of_lvToId (cg : CausalGraph) (h : WF cg) (v : Nat) (id : Id)
    (hv : lvToId cg v = some id) : idToLV cg id.1 id.2 = some v := by
  obtain ⟨e, hmem, hb1, hb2, heq⟩ := lvToId_some_inv2 cg v id hv
  have hy := h.eToC e hmem (v - e.version) (by omega)
  have hval : e.version + (v - e.version) = v := by omega
  rw [hval] at hy
  rw [heq]
  exact hy

/-- addRemote resolves its parents on success. -/
theorem addRemote_some_inv (cg : CausalGraph) (id : Id) (len : Nat)
    (rawParents : List Id) (res : CausalGraph × Nat)
    (hres : addRemote cg id len rawParents = some res) :
    ∃ parents, idToLVList cg rawParents = some parents ∧
      res = add cg id.1 id.2 (id.2 + len) parents := by
  unfold addRemote at hres
  cases hp : idToLVList cg rawParents with
  | none => rw [hp] at hres; cases hres
  | some parents =>
    rw [hp] at hres
    exact ⟨parents, rfl, (Option.some.inj hres).symm⟩

/-- Everything its callers need from a successful addRemote: WF, lookup
stability in both directions, and knownness of the span end. -/
theorem addRemote_full (cg : CausalGraph) (id : Id) (len : Nat)
    (rawParents : List Id) (res : CausalGraph × Nat) (h : WF cg)
    (hres : addRemote cg id len rawParents = some res) :
    WF res.1 ∧
    (∀ a s v, idToLV cg a s = some v → idToLV res.1 a s = some v) ∧
    (0 < len → ∃ v', idToLV res.1 id.1 (id.2 + len - 1) = some v') := by
  obtain ⟨parents, hp, hr⟩ := addRemote_some_inv cg id len rawParents res hres
  have hlt := idToLVList_some_lt cg h rawParents parents hp
  obtain ⟨w1, w2, w3⟩ := add_full cg id.1 id.2 (id.2 + len) parents h (by omega) hlt
  rw [hr]
  refine ⟨w1, ?_, ?_⟩
  · intro a s v hv
    exact idToLV_mono_of_stable cg _ h w1 w2 a s v hv
  · intro hpos
    exact w3 (by omega)

/-- addRemote of a span whose end is already known is a no-op returning 0. -/
theorem addRemote_noop_of_known (cg : CausalGraph) (id : Id) (len : Nat)
    (rawParents : List Id) (parents : List Nat) (h : WF cg)
    (hr : idToLVList cg rawParents = some parents)
    (hknown : 0 < len → ∃ v, idToLV cg id.1 (id.2 + len - 1) = some v) :
    addRemote cg id len rawParents = some (cg, 0) := by
  unfold addRemote
  rw [hr]
  show some (add cg id.1 id.2 (id.2 + len) parents) = some (cg, 0)
  unfold add
  by_cases hl : len = 0
  · rw [if_pos (by omega)]
  · rw [if_neg (by omega)]
    obtain ⟨v, hv⟩ := hknown (by omega)
    obtain ⟨av, hav, ce, hcem, hc1, hc2, _⟩ :=
      idToLV_some_inv cg id.1 (id.2 + len - 1) v hv
    rw [hav]
    dsimp only
    have havWF : avWF av := h.avOk _ (avFor_some_mem cg id.1 av hav)
    obtain ⟨i, hfi⟩ := findAVIndex_found_of_covered av (id.2 + len - 1) havWF
      ce hcem hc1 hc2
    rw [hfi]

/-- The merge loop is a no-op on a graph that already knows every entry of
the diff. -/
theorem mergePartialGo_noop (cg : CausalGraph) (h : WF cg) :
    ∀ (data : List PSEntry) (start : Nat),
    (∀ e ∈ data, (∃ ps, idToLVList cg e.parents = some ps) ∧
      (0 < e.len → ∃ v, idToLV cg e.agent (e.seq + e.len - 1) = some v)) →
    mergePartialGo cg data start = (cg, some (start, nextLV cg)) := by
  intro data
  induction data with
  | nil => intro start _; rfl
  | cons e rest ih =>
    intro start hall
    obtain ⟨⟨ps, hps⟩, hknown⟩ := hall e (List.mem_cons_self e rest)
    unfold mergePartialGo
    rw [addRemote_noop_of_known cg (e.agent, e.seq) e.len e.parents ps h hps hknown]
    exact ih start (fun x hx => hall x (List.mem_cons_of_mem e hx))

/-- After a successful merge the result is WF, lookups are preserved, and
every entry of the diff is fully resolvable and known in the result. -/
theorem mergePartialGo_success :
    ∀ (data : List PSEntry) (cg : CausalGraph), WF cg →
    ∀ (start : Nat) (cg2 : CausalGraph) (r : LVRange),
    mergePartialGo cg data start = (cg2, some r) →
    WF cg2 ∧ (∀ a s v, idToLV cg a s = some v → idToLV cg2 a s = some v) ∧
    (∀ e ∈ data, (∃ ps, idToLVList cg2 e.parents = some ps) ∧
      (0 < e.len → ∃ v, idToLV cg2 e.agent (e.seq + e.len - 1) = some v)) := by
  intro data
  induction data with
  | nil =>
    intro cg h start cg2 r hrun
    have hcg : cg2 = cg := congrArg Prod.fst hrun.symm
    subst hcg
    exact ⟨h, fun a s v hv => hv, fun e he => absurd he (List.not_mem_nil e)⟩
  | cons e rest ih =>
    intro cg h start cg2 r hrun
    unfold mergePartialGo at hrun
    cases hres : addRemote cg (e.agent, e.seq) e.len e.parents with
    | none =>
      rw [hres] at hrun
      have : (none : Option LVRange) = some r := congrArg Prod.snd hrun
      cases this
    | some res =>
      rw [hres] at hrun
      obtain ⟨w1, w2, w3⟩ := addRemote_full cg (e.agent, e.seq) e.len e.parents res h hres
      obtain ⟨parents, hpr, _⟩ := addRemote_some_inv cg (e.agent, e.seq) e.len
        e.parents res hres
      obtain ⟨W2, mono2, restprops⟩ := ih res.1 w1 start cg2 r hrun
      refine ⟨W2, fun a s v hv => mono2 a s v (w2 a s v hv), ?_⟩
      intro x hx
      rcases List.mem_cons.mp hx with h1 | h2
      · subst h1
        constructor
        · refine ⟨parents, ?_⟩
          unfold idToLVList at hpr ⊢
          exact mapM_mono _ _ (fun p y hy => mono2 p.1 p.2 y (w2 p.1 p.2 y hy))
            x.parents parents hpr
        · intro hpos
          obtain ⟨v', hv'⟩ := w3 hpos
          exact ⟨v', mono2 x.agent (x.seq + x.len - 1) v' hv'⟩
      · exact restprops x h2

/-- Inversion of findEntryContaining. -/
theorem findEntryContaining_some_inv (cg : CausalGraph) (v : Nat) (e : CGEntry)
    (offset : Nat) (h : findEntryContaining cg v = some (e, offset)) :
    e ∈ cg.entries ∧ e.version ≤ v ∧ v < e.vEnd ∧ offset = v - e.version := by
  unfold findEntryContaining at h
  cases hraw : findEntryContainingRaw cg v with
  | none => rw [hraw] at h; cases h
  | some e0 =>
    rw [hraw] at h
    simp only [Option.map_some', Option.some.injEq, Prod.mk.injEq] at h
    obtain ⟨he, hoff⟩ := h
    subst he
    obtain ⟨hmem, hb1, hb2⟩ := findEntryContainingRaw_some cg v e0 hraw
    exact ⟨hmem, hb1, hb2, hoff.symm⟩

/-- Every entry produced by the serializeDiff range loop is resolvable and
fully known in the producing graph. -/
theorem serializeRange_props (cg : CausalGraph) (h : WF cg) :
    ∀ (fuel : Nat) (start stop : Nat) (out : List PSEntry),
    serializeRange cg fuel start stop = some out →
    ∀ ps ∈ out, (∃ lvps, idToLVList cg ps.parents = some lvps) ∧
      (0 < ps.len → ∃ v, idToLV cg ps.agent (ps.seq + ps.len - 1) = some v) := by
  intro fuel
  induction fuel with
  | zero =>
    intro start stop out hsr ps hps
    rw [serializeRange] at hsr
    by_cases hss : start = stop
    · rw [if_pos hss] at hsr
      have hnil : out = [] := (Option.some.inj hsr).symm
      subst hnil
      cases hps
    · rw [if_neg hss] at hsr
      cases hsr
  | succ fuel ih =>
    intro start stop out hsr ps hps
    rw [serializeRange] at hsr
    by_cases hss : start = stop
    · rw [if_pos hss] at hsr
      have hnil : out = [] := (Option.some.inj hsr).symm
      subst hnil
      cases hps
    · rw [if_neg hss] at hsr
      cases hfe : findEntryContaining cg start with
      | none => rw [hfe] at hsr; cases hsr
      | some p =>
        obtain ⟨e, offset⟩ := p
        rw [hfe] at hsr
        simp only [Option.pure_def, Option.bind_eq_bind, Option.some_bind] at hsr
        obtain ⟨hmem, hb1, hb2, hoffv⟩ := findEntryContaining_some_inv cg start e offset hfe
        have hknow : 0 < min stop e.vEnd - start →
            ∃ v, idToLV cg e.agent (e.seq + offset + (min stop e.vEnd - start) - 1) =
              some v := by
          intro hpos
          have hk : offset + (min stop e.vEnd - start) - 1 < e.vEnd - e.version := by
            omega
          have hres := h.eToC e hmem (offset + (min stop e.vEnd - start) - 1) hk
          have harith : e.seq + (offset + (min stop e.vEnd - start) - 1) =
              e.seq + offset + (min stop e.vEnd - start) - 1 := by omega
          rw [harith] at hres
          exact ⟨_, hres⟩
        by_cases hoff : offset = 0
        · rw [if_pos hoff] at hsr
          cases hpar : lvToIdList cg e.parents with
          | none => rw [hpar] at hsr; cases hsr
          | some parents =>
            rw [hpar] at hsr
            simp only [Option.some_bind] at hsr
            cases hrest : serializeRange cg fuel (start + (min stop e.vEnd - start)) stop with
            | none => rw [hrest] at hsr; cases hsr
            | some rest =>
              rw [hrest] at hsr
              simp only [Option.some_bind, Option.some.injEq] at hsr
              have hout : out = { agent := e.agent, seq := e.seq + offset
                                  len := min stop e.vEnd - start
                                  parents := parents } :: rest := hsr.symm
              subst hout
              rcases List.mem_cons.mp hps with h1 | h2
              · subst h1
                constructor
                · dsimp only
                  apply mapM_isSome
                  intro id hid
                  unfold lvToIdList at hpar
                  obtain ⟨lv, hlv, hres⟩ := mapM_mem_inv _ e.parents parents hpar id hid
                  exact ⟨lv, idToLV_of_lvToId cg h lv id hres⟩
                · intro hpos
                  dsimp only at hpos ⊢
                  exact hknow hpos
              · exact ih (start + (min stop e.vEnd - start)) stop rest hrest ps h2
        · rw [if_neg hoff] at hsr
          cases hrest : serializeRange cg fuel (start + (min stop e.vEnd - start)) stop with
          | none => rw [hrest] at hsr; cases hsr
          | some rest =>
            rw [hrest] at hsr
            simp only [Option.some_bind, Option.some.injEq] at hsr
            have hout : out = { agent := e.agent, seq := e.seq + offset
                                len := min stop e.vEnd - start
                                parents := [(e.agent, e.seq + offset - 1)] } :: rest :=
              hsr.symm
            subst hout
            rcases List.mem_cons.mp hps with h1 | h2
            · subst h1
              constructor
              · dsimp only
                have hk : offset - 1 < e.vEnd - e.version := by omega
                have hres := h.eToC e hmem (offset - 1) hk
                have harith : e.seq + (offset - 1) = e.seq + offset - 1 := by omega
                rw [harith] at hres
                refine ⟨[e.version + (offset - 1)], ?_⟩
                unfold idToLVList
                rw [List.mapM_cons]
                rw [hres]
                rfl
              · intro hpos
                dsimp only at hpos ⊢
                exact hknow hpos
            · exact ih (start + (min stop e.vEnd - start)) stop rest hrest ps h2

/-- Every entry of a successful serializeDiff is resolvable and fully known
in the producing graph. -/
theorem serializeDiff_props (cg : CausalGraph) (h : WF cg)
    (ranges : List LVRange) (data : List PSEntry)
    (hsd : serializeDiff cg ranges = some data) :
    ∀ ps ∈ data, (∃ lvps, idToLVList cg ps.parents = some lvps) ∧
      (0 < ps.len → ∃ v, idToLV cg ps.agent (ps.seq + ps.len - 1) = some v) := by
  intro ps hps
  unfold serializeDiff at hsd
  cases houts : ranges.mapM (fun r => serializeRange cg (r.2 - r.1) r.1 r.2) with
  | none => rw [houts] at hsd; cases hsd
  | some outs =>
    rw [houts] at hsd
    have hdata : data = outs.flatten := (Option.some.inj hsd).symm
    subst hdata
    obtain ⟨out, hout, hpsout⟩ := List.mem_flatten.mp hps
    obtain ⟨r, _, hsr⟩ := mapM_mem_inv _ ranges outs houts out hout
    exact serializeRange_props cg h (r.2 - r.1) r.1 r.2 out hsr ps hpsout

/-- hasVersion is false for an agent with no index entry. -/
theorem hasVersion_false_of_avFor_none (cg : CausalGraph) (a : String) (s : Nat)
    (h : avFor cg a = none) : hasVersion cg a s = false := by
  unfold hasVersion findClientEntryRaw
  rw [h]
  rfl

/-- hasVersion is false at an uncovered seq. -/
theorem hasVersion_false_of_uncovered (cg : CausalGraph) (a : String) (s : Nat)
    (hWFav : ∀ p ∈ cg.agentToVersion, avWF p.2)
    (h : ∀ av, avFor cg a = some av → ∀ ce ∈ av, ¬ (ce.seq ≤ s ∧ s < ce.seqEnd)) :
    hasVersion cg a s = false := by
  cases hb : hasVersion cg a s with
  | false => rfl
  | true =>
    exfalso
    obtain ⟨av, hav, ce, hcem, hc1, hc2⟩ := (hasVersion_iff cg a s hWFav).mp hb
    exact h av hav ce hcem ⟨hc1, hc2⟩

/-- The length of the unknown suffix when the seqs from `m` on are unknown
and either `m` is the start of the span or `m - 1` is known. -/
theorem unknownSuffixLen_eq (cg : CausalGraph) (agent : String)
    (seqStart seqEnd m : Nat) (h1 : seqStart ≤ m) (h2 : m ≤ seqEnd)
    (hup : ∀ s, m ≤ s → s < seqEnd → hasVersion cg agent s = false)
    (hstop : m = seqStart ∨ (hasVersion cg agent (m - 1) = true ∧ seqStart < m)) :
    unknownSuffixLen cg agent seqStart seqEnd = seqEnd - m := by
  unfold unknownSuffixLen
  have hsplit : List.range' seqStart (seqEnd - seqStart) =
      List.range' seqStart (m - seqStart) ++ List.range' m (seqEnd - m) := by
    have hr := List.range'_append seqStart (m - seqStart) (seqEnd - m) 1
    have e1 : seqStart + 1 * (m - seqStart) = m := by omega
    have e2 : seqEnd - m + (m - seqStart) = seqEnd - seqStart := by omega
    rw [e1, e2] at hr
    exact hr.symm
  rw [hsplit, List.reverse_append, List.takeWhile_append]
  have hfirst : ((List.range' m (seqEnd - m)).reverse.takeWhile
      (fun s => ¬ hasVersion cg agent s)).length =
      (List.range' m (seqEnd - m)).reverse.length := by
    rw [List.takeWhile_eq_self_iff.mpr]
    intro x hx
    rw [List.mem_reverse] at hx
    have hb := List.mem_range'_1.mp hx
    rw [hup x hb.1 (by omega)]
    decide
  rw [if_pos (by rw [hfirst])]
  rw [List.length_append, List.length_reverse, List.length_range']
  have hsecond : ((List.range' seqStart (m - seqStart)).reverse.takeWhile
      (fun s => ¬ hasVersion cg agent s)).length = 0 := by
    rcases hstop with hm | ⟨hkn, hlt⟩
    · rw [hm]
      simp
    · have hconcat : List.range' seqStart (m - seqStart) =
          List.range' seqStart (m - seqStart - 1) ++ [m - 1] := by
        have hc := @List.range'_concat 1 seqStart (m - seqStart - 1)
        have e1 : m - seqStart - 1 + 1 = m - seqStart := by omega
        have e2 : seqStart + 1 * (m - seqStart - 1) = m - 1 := by omega
        rw [e1, e2] at hc
        exact hc
      rw [hconcat, List.reverse_append]
      show (List.takeWhile (fun s => ¬ hasVersion cg agent s)
        ((m - 1) :: (List.range' seqStart (m - seqStart - 1)).reverse)).length = 0
      rw [List.takeWhile_cons]
      rw [hkn]
      simp
  rw [hsecond]
  omega

/-- The value returned by `add` is the length of the unknown suffix of the
span. -/
theorem add_ret (cg : CausalGraph) (agent : String) (seqStart seqEnd : Nat)
    (parents : List Nat) (h : WF cg) (hse : seqStart ≤ seqEnd) :
    (add cg agent seqStart seqEnd parents).2 =
      unknownSuffixLen cg agent seqStart seqEnd := by
  unfold add
  by_cases h0 : seqStart = seqEnd
  · rw [if_pos h0]
    rw [unknownSuffixLen_eq cg agent seqStart seqEnd seqEnd (by omega) (Nat.le_refl _)
      (fun s hs1 hs2 => by omega) (Or.inl h0.symm)]
    omega
  · rw [if_neg h0]
    have hlen : seqStart < seqEnd := by omega
    cases hav : avFor cg agent with
    | none =>
      show seqEnd - seqStart = _
      rw [unknownSuffixLen_eq cg agent seqStart seqEnd seqStart (Nat.le_refl _)
        (by omega) (fun s _ _ => hasVersion_false_of_avFor_none cg agent s hav)
        (Or.inl rfl)]
    | some av =>
      dsimp only
      have hpair : (agent, av) ∈ cg.agentToVersion := avFor_some_mem cg agent av hav
      have havWF : avWF av := h.avOk _ hpair
      cases hfi : findAVIndex av (seqEnd - 1) with
      | found i =>
        obtain ⟨_, ⟨ce, hg, hc1, hc2⟩, _⟩ := findAVIndexGo_found (seqEnd - 1) av 0 i hfi
        simp only [Nat.sub_zero] at hg
        have hkn : hasVersion cg agent (seqEnd - 1) = true :=
          (hasVersion_iff cg agent (seqEnd - 1) h.avOk).mpr
            ⟨av, hav, ce, List.get?_mem hg, hc1, hc2⟩
        rw [unknownSuffixLen_eq cg agent seqStart seqEnd seqEnd (by omega)
          (Nat.le_refl _) (fun s hs1 hs2 => by omega)
          (Or.inr ⟨hkn, by omega⟩)]
        show (0 : Nat) = seqEnd - seqEnd
        omega
      | notFound idx =>
        obtain ⟨_, hlenidx, hbelowN, hstopN⟩ :=
          findAVIndexGo_notFound (seqEnd - 1) av 0 idx hfi
        simp only [Nat.sub_zero] at hlenidx hbelowN hstopN
        have habove' : ∀ j ce, av.get? j = some ce → idx ≤ j → seqEnd ≤ ce.seq :=
          av_bound_above av havWF idx seqEnd
            (fun ce hce => by have := hstopN ce hce; omega)
        have huncov : ∀ (B : Nat), (∀ j ce, av.get? j = some ce → j < idx →
            ce.seqEnd ≤ B) → ∀ s, B ≤ s → s < seqEnd →
            hasVersion cg agent s = false := by
          intro B hB s hs1 hs2
          apply hasVersion_false_of_uncovered cg agent s h.avOk
          intro av0 hav0 ce hcem hcov
          have hv0 : av0 = av := by
            rw [hav] at hav0
            exact Option.some.inj hav0.symm
          subst hv0
          obtain ⟨j, hj⟩ := List.get?_of_mem hcem
          by_cases hji : j < idx
          · have := hB j ce hj hji
            omega
          · have := habove' j ce hj (by omega)
            omega
        dsimp only
        by_cases hi : 1 ≤ idx
        · rw [if_pos hi]
          have hi1 : idx - 1 < av.length := by omega
          cases hget : av.get? (idx - 1) with
          | none =>
            exfalso
            rw [List.get?_eq_get hi1] at hget
            cases hget
          | some prev =>
            have hprevmem : prev ∈ av := List.get?_mem hget
            have hspan : prev.seq < prev.seqEnd := havWF.1 prev hprevmem
            have hprevEnd : prev.seqEnd < seqEnd := by
              obtain ⟨ce, hce, hle⟩ := hbelowN (idx - 1) (by omega)
              rw [hget] at hce
              rw [← Option.some.inj hce] at hle
              omega
            dsimp only
            by_cases hov : seqStart < prev.seqEnd
            · rw [if_pos hov]
              dsimp only
              have hkn : hasVersion cg agent (prev.seqEnd - 1) = true :=
                (hasVersion_iff cg agent (prev.seqEnd - 1) h.avOk).mpr
                  ⟨av, hav, prev, hprevmem, by omega, by omega⟩
              have hB : ∀ j ce, av.get? j = some ce → j < idx → ce.seqEnd ≤ prev.seqEnd :=
                av_bound_below av havWF idx prev.seqEnd hlenidx
                  (fun ce hce => by rw [hget] at hce; rw [Option.some.inj hce])
              have hU := unknownSuffixLen_eq cg agent seqStart seqEnd prev.seqEnd
                (by omega) (by omega)
                (fun s hs1 hs2 => huncov prev.seqEnd hB s hs1 hs2)
                (Or.inr ⟨hkn, by omega⟩)
              by_cases hpe : prev.version + (prev.seqEnd - prev.seq) = nextLV cg
              · rw [if_pos hpe]
                rw [hU]
                rfl
              · rw [if_neg hpe]
                rw [hU]
                rfl
            · rw [if_neg hov]
              dsimp only
              have hB : ∀ j ce, av.get? j = some ce → j < idx → ce.seqEnd ≤ seqStart :=
                av_bound_below av havWF idx seqStart hlenidx
                  (fun ce hce => by
                    rw [hget] at hce
                    rw [← Option.some.inj hce]
                    omega)
              rw [unknownSuffixLen_eq cg agent seqStart seqEnd seqStart (Nat.le_refl _)
                (by omega) (fun s hs1 hs2 => huncov seqStart hB s hs1 hs2) (Or.inl rfl)]
              rfl
        · rw [if_neg hi]
          dsimp only
          rw [unknownSuffixLen_eq cg agent seqStart seqEnd seqStart (Nat.le_refl _)
            (by omega) (fun s hs1 hs2 => huncov seqStart
              (fun j ce _ hj => by omega) s hs1 hs2) (Or.inl rfl)]
          rfl

/-- The unknown suffix never exceeds the span. -/
theorem unknownSuffixLen_le (cg : CausalGraph) (a : String) (s e : Nat) :
    unknownSuffixLen cg a s e ≤ e - s := by
  unfold unknownSuffixLen
  have h1 := List.Sublist.length_le
    (@List.takeWhile_sublist _ ((List.range' s (e - s)).reverse)
      (fun x => ¬ hasVersion cg a x))
  rw [List.length_reverse, List.length_range'] at h1
  exact h1

/-- When `add` reports nothing new, the graph is untouched. -/
theorem add_unchanged_of_ret_zero (cg : CausalGraph) (agent : String)
    (seqStart seqEnd : Nat) (parents : List Nat) (hse : seqStart ≤ seqEnd) :
    (add cg agent seqStart seqEnd parents).2 = 0 →
    (add cg agent seqStart seqEnd parents).1 = cg := by
  unfold add
  by_cases h0 : seqStart = seqEnd
  · rw [if_pos h0]
    intro _
    rfl
  · rw [if_neg h0]
    have hlen : seqStart < seqEnd := by omega
    cases hav : avFor cg agent with
    | none =>
      dsimp only
      intro hret
      exfalso
      have h2 : seqEnd - seqStart = 0 := hret
      omega
    | some av =>
      dsimp only
      cases hfi : findAVIndex av (seqEnd - 1) with
      | found i =>
        intro _
        rfl
      | notFound idx =>
        obtain ⟨_, hlenidx, hbelowN, hstopN⟩ :=
          findAVIndexGo_notFound (seqEnd - 1) av 0 idx hfi
        simp only [Nat.sub_zero] at hlenidx hbelowN hstopN
        dsimp only
        by_cases hi : 1 ≤ idx
        · rw [if_pos hi]
          have hi1 : idx - 1 < av.length := by omega
          cases hget : av.get? (idx - 1) with
          | none =>
            exfalso
            rw [List.get?_eq_get hi1] at hget
            cases hget
          | some prev =>
            have hprevEnd : prev.seqEnd < seqEnd := by
              obtain ⟨ce, hce, hle⟩ := hbelowN (idx - 1) (by omega)
              rw [hget] at hce
              rw [← Option.some.inj hce] at hle
              omega
            dsimp only
            by_cases hov : seqStart < prev.seqEnd
            · rw [if_pos hov]
              dsimp only
              by_cases hpe : prev.version + (prev.seqEnd - prev.seq) = nextLV cg
              · rw [if_pos hpe]
                intro hret
                exfalso
                have h2 : seqEnd - prev.seqEnd = 0 := hret
                omega
              · rw [if_neg hpe]
                intro hret
                exfalso
                have h2 : seqEnd - prev.seqEnd = 0 := hret
                omega
            · rw [if_neg hov]
              dsimp only
              intro hret
              exfalso
              have h2 : seqEnd - seqStart = 0 := hret
              omega
        · rw [if_neg hi]
          dsimp only
          intro hret
          exfalso
          have h2 : seqEnd - seqStart = 0 := hret
          omega

/-- Dropping nothing changes nothing. -/
theorem sliceTail_zero {T : Type} (op : Fancy.FOp T) : Fancy.sliceTail op 0 = op := by
  cases op with
  | ins pos content => rfl
  | del pos len => rfl

/-- Helper: the graph left behind by the simple-variant mergePartialVersions
loop is the graph obtained by fully applying some prefix of the diff, and it
is the full diff whenever no error was raised.  (The `.1` component does not
depend on the `start` argument.) -/
theorem mergePartialGoSimple_fst_prefix (cg : CausalGraph) (data : List PSEntry)
    (s1 s2 : Nat) :
    ∃ k ≤ data.length,
      (mergePartialGoSimple cg data s1).1 = (mergePartialGoSimple cg (data.take k) s2).1 ∧
      ((mergePartialGoSimple cg data s1).2.isSome → k = data.length) := by
  induction data generalizing cg with
  | nil => exact ⟨0, Nat.le_refl 0, rfl, fun _ => rfl⟩
  | cons e rest ih =>
    by_cases h : (addRaw cg (e.agent, e.seq) e.len e.parents).isSome
    · obtain ⟨⟨cg1, r⟩, hr⟩ := Option.isSome_iff_exists.mp h
      obtain ⟨k, hk, heq, hsome⟩ := ih cg1
      refine ⟨k + 1, Nat.succ_le_succ hk, ?_, ?_⟩
      · simp only [mergePartialGoSimple, List.take_succ_cons, hr]
        exact heq
      · intro hs
        simp only [mergePartialGoSimple, hr] at hs
        exact congrArg Nat.succ (hsome hs)
    · rw [Option.not_isSome_iff_eq_none] at h
      refine ⟨0, Nat.zero_le _, ?_, ?_⟩
      · simp only [mergePartialGoSimple, List.take_zero, h]
      · intro hs
        simp [mergePartialGoSimple, h] at hs

/-- C3 (amended): mergeOplogInto is not atomic.  On an error the
destination's op list is untouched, and its causal graph is the original
graph extended by exactly the prefix of the computed diff that was merged
before the failure (possibly all of it, when the error arises later, while
copying ops). -/
theorem c3_merge_error_keeps_prefix {T : Type} (dest src : Simple.ListOpLog T)
    (h : (Simple.mergeOplogIntoRun dest src).2 = false) :
    (Simple.mergeOplogIntoRun dest src).1.ops = dest.ops ∧
    ∃ data : List PSEntry, ∃ k ≤ data.length,
      (Simple.mergeOplogIntoRun dest src).1.cg =
        (mergePartialVersionsRunSimple dest.cg (data.take k)).1 := by
  have base : ∃ data : List PSEntry, ∃ k ≤ data.length,
      dest.cg = (mergePartialVersionsRunSimple dest.cg (data.take k)).1 := by
    exact ⟨[], 0, Nat.le_refl 0, rfl⟩
  unfold Simple.mergeOplogIntoRun at h ⊢
  cases hI : intersectWithSummary src.cg (summarizeVersion dest.cg) [] with
  | none => exact ⟨rfl, base⟩
  | some common =>
    rw [hI] at h
    dsimp only at h ⊢
    cases hD : diff src.cg common.1 src.cg.heads with
    | none => exact ⟨rfl, base⟩
    | some dres =>
      dsimp only at h ⊢
      cases hS : serializeDiff src.cg dres.2 with
      | none => exact ⟨rfl, base⟩
      | some cgDiff =>
        dsimp only at h ⊢
        cases hM : (mergePartialVersionsRunSimple dest.cg cgDiff).2 with
        | none =>
          refine ⟨rfl, cgDiff, ?_⟩
          obtain ⟨k, hk, heq, _⟩ :=
            mergePartialGoSimple_fst_prefix dest.cg cgDiff (nextLV dest.cg) (nextLV dest.cg)
          exact ⟨k, hk, heq⟩
        | some rng =>
          cases hC : dres.2.mapM
              (fun r => (List.range' r.1 (r.2 - r.1)).mapM (fun i => src.ops.get? i)) with
          | none =>
            refine ⟨rfl, cgDiff, cgDiff.length, Nat.le_refl _, ?_⟩
            rw [List.take_length]
          | some chunks =>
            rw [hD] at h
            dsimp only at h
            rw [hS] at h
            dsimp only at h
            rw [hM] at h
            rw [hC] at h
            dsimp only at h
            exact absurd h (by simp)


/-- C3 witness: the amended theorem applied to the concrete failing merge. -/
theorem c3_merge_error_keeps_prefix_witness :
    (Simple.mergeOplogIntoRun c3dest c3src).2 = false ∧
    ((Simple.mergeOplogIntoRun c3dest c3src).1.ops = c3dest.ops ∧
      ∃ data : List PSEntry, ∃ k ≤ data.length,
        (Simple.mergeOplogIntoRun c3dest c3src).1.cg =
          (mergePartialVersionsRunSimple c3dest.cg (data.take k)).1) :=
  ⟨by decide, c3_merge_error_keeps_prefix c3dest c3src (by decide)⟩

/-- C3 counterexample: merging `c3src` into `c3dest` (both reachable through
the public API) raises an error partway through `mergePartialVersions` — the
second diff entry's parent `(a, 2)` cannot be resolved in the destination —
and leaves the destination changed: its causal graph has already received
the first diff entry. -/
theorem c3_atomicity_counterexample :
    c3destBuild = some c3dest ∧ c3srcBuild = some c3src ∧
    (Simple.mergeOplogIntoRun c3dest c3src).2 = false ∧
    (Simple.mergeOplogIntoRun c3dest c3src).1 ≠ c3dest := by decide

/-- C9: with `(u1, 0)` inserting `A` at 0 and `(u2, 0)` concurrently
inserting `B` at 0 (both with no parents), checkout yields the snapshot
`AB`: the `(agent, seq)` tie-break puts the earlier agent's insert at the
smaller index. -/
theorem c9_concurrent_inserts_tiebreak :
    c9oplog.bind Simple.checkoutSimple = some ['A', 'B'] := by decide

/-- C4 counterexample: the graph built by the single call
`add createCG "a" 0 2 []` (two versions in one RLE entry) has `heads = [1]`,
but the set of LVs that appear in no entry's parents list is `{0, 1}`: the
claimed characterization of `heads` fails on every multi-version entry. -/
theorem c4_heads_counterexample :
    (add createCG "a" 0 2 []).1.heads ≠ headsNoParent (add createCG "a" 0 2 []).1 := by
  decide

/-- A small reachable graph used to instantiate the reachability-conditioned
theorems: one `add` of the span `(a, 0..2)` with no parents. -/
theorem reachable_ex : Reachable (add createCG "a" 0 2 []).1 :=
  Reachable.add Reachable.base (by omega) (fun p hp => absurd hp (List.not_mem_nil p))

/-- C4 (amended): on every reachable causal graph the entries are gapless and
RLE-maximal, and `heads` is exactly the set of LVs that are the final version
of their entry and appear in no entry's parents list (interior LVs of an RLE
entry have an implicit successor and are never heads). -/
theorem c4_invariants (cg : CausalGraph) (h : Reachable cg) :
    gapless cg ∧ rleMaximal cg ∧ cg.heads = headSpec cg :=
  ⟨(reachable_WF cg h).gap, (reachable_WF cg h).rle, (reachable_WF cg h).headsOk⟩

/-- C4 witness: the amended invariants evaluated on a concrete reachable
graph. -/
theorem c4_invariants_witness :
    Reachable (add createCG "a" 0 2 []).1 ∧
    (gapless (add createCG "a" 0 2 []).1 ∧ rleMaximal (add createCG "a" 0 2 []).1 ∧
      (add createCG "a" 0 2 []).1.heads = headSpec (add createCG "a" 0 2 []).1) :=
  ⟨reachable_ex, c4_invariants _ reachable_ex⟩

/-- C7: on every reachable causal graph, every assigned LV `v < nextLV` has
an external id, and converting it back with idToLV returns `v`. -/
theorem c7_roundtrip (cg : CausalGraph) (h : Reachable cg) (v : Nat)
    (hv : v < nextLV cg) :
    ∃ id, lvToId cg v = some id ∧ idToLV cg id.1 id.2 = some v :=
  roundtrip_of_WF cg (reachable_WF cg h) v hv

/-- C7 witness: the round trip at LV 1 of a concrete reachable graph. -/
theorem c7_roundtrip_witness :
    Reachable (add createCG "a" 0 2 []).1 ∧
    1 < nextLV (add createCG "a" 0 2 []).1 ∧
    (∃ id, lvToId (add createCG "a" 0 2 []).1 1 = some id ∧
      idToLV (add createCG "a" 0 2 []).1 id.1 id.2 = some 1) :=
  ⟨reachable_ex, by decide, c7_roundtrip _ reachable_ex 1 (by decide)⟩

/-- C5: on every reachable causal graph, merging the serialization of the
graph's own full range is a no-op returning the empty LV range; and after any
successful merge of a diff, merging the same diff again changes nothing. -/
theorem c5_idempotent (cg : CausalGraph) (h : Reachable cg) (data : List PSEntry) :
    (serializeDiff cg [(0, nextLV cg)] = some data →
      mergePartialVersionsRun cg data = (cg, some (nextLV cg, nextLV cg))) ∧
    (∀ cg2 r, mergePartialVersionsRun cg data = (cg2, some r) →
      mergePartialVersionsRun cg2 data = (cg2, some (nextLV cg2, nextLV cg2))) := by
  have hW := reachable_WF cg h
  constructor
  · intro hsd
    have hprops := serializeDiff_props cg hW [(0, nextLV cg)] data hsd
    unfold mergePartialVersionsRun
    exact mergePartialGo_noop cg hW data (nextLV cg) hprops
  · intro cg2 r hrun
    unfold mergePartialVersionsRun at hrun ⊢
    obtain ⟨W2, _, hprops⟩ := mergePartialGo_success data cg hW (nextLV cg) cg2 r hrun
    exact mergePartialGo_noop cg2 W2 data (nextLV cg2) hprops

/-- C6: on every oplog with a reachable causal graph, a successful
pushRemoteOp returns exactly the length of the unknown suffix of the
operation's `(agent, seq)` span; when that length is 0 the oplog is
unchanged, and otherwise exactly the suffix of the operation of that length
is appended (RLE-merged) to the op list. -/
theorem c6_pushRemoteOp {T : Type} (oplog : Fancy.FOpLog T)
    (h : Reachable oplog.cg) (id : Id) (parents : List Id) (op : Fancy.FOp T)
    (log2 : Fancy.FOpLog T) (n : Nat)
    (hres : Fancy.pushRemoteOp oplog id parents op = some (log2, n)) :
    n = unknownSuffixLen oplog.cg id.1 id.2 (id.2 + Fancy.opLen op) ∧
    (n = 0 → log2 = oplog) ∧
    (0 < n → log2.ops = pushRLEList Fancy.tryMergeOpWithV oplog.ops
      ⟨Fancy.sliceTail op (Fancy.opLen op - n), nextLV oplog.cg⟩) := by
  have hW := reachable_WF oplog.cg h
  unfold Fancy.pushRemoteOp at hres
  by_cases hl : Fancy.opLen op = 0
  · rw [if_pos hl] at hres
    cases hres
  · rw [if_neg hl] at hres
    cases haddr : addRemote oplog.cg id (Fancy.opLen op) parents with
    | none =>
      rw [haddr] at hres
      cases hres
    | some res =>
      obtain ⟨cg1, lenAdded⟩ := res
      rw [haddr] at hres
      dsimp only at hres
      obtain ⟨ps, hps, hr⟩ := addRemote_some_inv oplog.cg id (Fancy.opLen op)
        parents (cg1, lenAdded) haddr
      have hret2 : (add oplog.cg id.1 id.2 (id.2 + Fancy.opLen op) ps).2 = lenAdded :=
        (congrArg Prod.snd hr).symm
      have hret1 : (add oplog.cg id.1 id.2 (id.2 + Fancy.opLen op) ps).1 = cg1 :=
        (congrArg Prod.fst hr).symm
      have hU : lenAdded = unknownSuffixLen oplog.cg id.1 id.2 (id.2 + Fancy.opLen op) := by
        rw [← hret2]
        exact add_ret oplog.cg id.1 id.2 (id.2 + Fancy.opLen op) ps hW (by omega)
      by_cases hz : lenAdded = 0
      · rw [if_pos hz] at hres
        have hlog : log2 = { oplog with cg := cg1 } :=
          (congrArg Prod.fst (Option.some.inj hres)).symm
        have hn : n = 0 := (congrArg Prod.snd (Option.some.inj hres)).symm
        have hcg1 : cg1 = oplog.cg := by
          rw [← hret1]
          exact add_unchanged_of_ret_zero oplog.cg id.1 id.2 (id.2 + Fancy.opLen op)
            ps (by omega) (by rw [hret2]; exact hz)
        refine ⟨by rw [hn, ← hz]; exact hU, fun _ => ?_,
          fun hpos => absurd hpos (by omega)⟩
        rw [hlog, hcg1]
      · rw [if_neg hz] at hres
        have hlog : log2 =
            { ops := pushRLEList Fancy.tryMergeOpWithV oplog.ops
                ⟨if lenAdded < Fancy.opLen op then
                   Fancy.sliceTail op (Fancy.opLen op - lenAdded) else op,
                 nextLV oplog.cg⟩
              cg := cg1 } :=
          (congrArg Prod.fst (Option.some.inj hres)).symm
        have hn : n = lenAdded := (congrArg Prod.snd (Option.some.inj hres)).symm
        refine ⟨by rw [hn, hU], fun h0 => absurd h0 (by omega), fun _ => ?_⟩
        rw [hlog, hn]
        by_cases hlt : lenAdded < Fancy.opLen op
        · rw [if_pos hlt]
        · rw [if_neg hlt]
          have hle : lenAdded ≤ Fancy.opLen op := by
            rw [hU]
            have := unknownSuffixLen_le oplog.cg id.1 id.2 (id.2 + Fancy.opLen op)
            omega
          have heq : Fancy.opLen op - lenAdded = 0 := by omega
          rw [heq, sliceTail_zero]

/-- C6 witness: pushing the remote op `(a, 0)`·`ins 0 "AB"` onto the empty
oplog reports 2 accepted items, matching the unknown suffix length. -/
theorem c6_pushRemoteOp_witness :
    Reachable (Fancy.createFOpLog Char).cg ∧
    Fancy.pushRemoteOp (Fancy.createFOpLog Char) ("a", 0) []
      (Fancy.FOp.ins 0 ['A', 'B']) =
      some (⟨[⟨Fancy.FOp.ins 0 ['A', 'B'], 0⟩],
             ⟨[1], [⟨0, 2, "a", 0, []⟩], [("a", [⟨0, 2, 0⟩])]⟩⟩, 2) ∧
    (2 = unknownSuffixLen (Fancy.createFOpLog Char).cg "a" 0 (0 + Fancy.opLen
        (Fancy.FOp.ins 0 ['A', 'B'])) ∧
      (2 = 0 → (⟨[⟨Fancy.FOp.ins 0 ['A', 'B'], 0⟩],
          ⟨[1], [⟨0, 2, "a", 0, []⟩], [("a", [⟨0, 2, 0⟩])]⟩⟩ : Fancy.FOpLog Char) =
        Fancy.createFOpLog Char) ∧
      (0 < 2 → (⟨[⟨Fancy.FOp.ins 0 ['A', 'B'], 0⟩],
          ⟨[1], [⟨0, 2, "a", 0, []⟩], [("a", [⟨0, 2, 0⟩])]⟩⟩ : Fancy.FOpLog Char).ops =
        pushRLEList Fancy.tryMergeOpWithV (Fancy.createFOpLog Char).ops
          ⟨Fancy.sliceTail (Fancy.FOp.ins 0 ['A', 'B'])
            (Fancy.opLen (Fancy.FOp.ins 0 ['A', 'B']) - 2),
           nextLV (Fancy.createFOpLog Char).cg⟩)) :=
  ⟨Reachable.base, by decide,
   c6_pushRemoteOp (Fancy.createFOpLog Char) Reachable.base ("a", 0) []
     (Fancy.FOp.ins 0 ['A', 'B']) _ 2 (by decide)⟩

theorem anc_le (cg : CausalGraph) (h : WF cg) {a b : Nat} (hab : Anc cg a b) :
    a ≤ b := by
  induction hab with
  | refl => exact Nat.le_refl _
  | inEntry e he h1 h2 h3 => exact h2
  | parent p e he h1 h2 hp hanc ih =>
    have hplt := h.parentsLT e he p hp
    omega

theorem anc_trans (cg : CausalGraph) (h : WF cg) {a b c : Nat}
    (h1 : Anc cg a b) (h2 : Anc cg b c) : Anc cg a c := by
  induction h2 with
  | refl => exact h1
  | inEntry e he hv hbc hc =>
    cases h1 with
    | refl => exact Anc.inEntry e he hv hbc hc
    | inEntry e' he' hv' hab hb' =>
      have hee : e' = e := by
        apply gapless_unique_entry cg h.gap _ e' e he' he
        · exact ⟨by omega, hb'⟩
        · exact ⟨hv, by omega⟩
      subst hee
      exact Anc.inEntry e' he hv' (by omega) hc
    | parent p e' he' hv' hb' hp hanc =>
      have hee : e' = e := by
        apply gapless_unique_entry cg h.gap _ e' e he' he
        · exact ⟨hv', hb'⟩
        · exact ⟨hv, by omega⟩
      subst hee
      exact Anc.parent p e' he (by omega) hc hp hanc
  | parent p e he hv hc hp hanc ih =>
    exact Anc.parent p e he hv hc hp ih

theorem anc_inv (cg : CausalGraph) (h : WF cg) {a b : Nat} (hab : Anc cg a b)
    (e : CGEntry) (he : e ∈ cg.entries) (hb1 : e.version ≤ b) (hb2 : b < e.vEnd) :
    (e.version ≤ a ∧ a ≤ b) ∨ ∃ p ∈ e.parents, Anc cg a p := by
  cases hab with
  | refl => exact Or.inl ⟨hb1, Nat.le_refl _⟩
  | inEntry e' he' hv' hab' hb' =>
    have hee : e' = e := by
      apply gapless_unique_entry cg h.gap b e' e he' he
      · exact ⟨by omega, hb'⟩
      · exact ⟨hb1, hb2⟩
    subst hee
    exact Or.inl ⟨hv', hab'⟩
  | parent p e' he' hv' hb' hp hanc =>
    have hee : e' = e := by
      apply gapless_unique_entry cg h.gap b e' e he' he
      · exact ⟨hv', hb'⟩
      · exact ⟨hb1, hb2⟩
    subst hee
    exact Or.inr ⟨p, hp, hanc⟩

theorem insertDesc_perm (x : Nat) (l : List Nat) :
    (insertDesc x l).Perm (x :: l) := by
  induction l with
  | nil => simp [insertDesc]
  | cons y ys ih =>
    by_cases h : x ≥ y
    · simp [insertDesc, h]
    · simp only [insertDesc, if_neg h]
      exact ((ih.cons y).trans (List.Perm.swap x y ys))

theorem insertDesc_sorted (x : Nat) (l : List Nat) (h : l.Sorted (· ≥ ·)) :
    (insertDesc x l).Sorted (· ≥ ·) := by
  induction l with
  | nil => simp [insertDesc]
  | cons y ys ih =>
    by_cases hxy : x ≥ y
    · simp only [insertDesc, if_pos hxy]
      rw [List.sorted_cons]
      refine ⟨?_, h⟩
      intro b hb
      rcases List.mem_cons.mp hb with h1 | h2
      · omega
      · have := (List.sorted_cons.mp h).1 b h2
        omega
    · simp only [insertDesc, if_neg hxy]
      rw [List.sorted_cons] at h ⊢
      refine ⟨?_, ih h.2⟩
      intro b hb
      have := (insertDesc_perm x ys).mem_iff.mp hb
      rcases List.mem_cons.mp this with h1 | h2
      · omega
      · exact h.1 b h2

theorem insertDesc_mem (x : Nat) (l : List Nat) (y : Nat) :
    y ∈ insertDesc x l ↔ y = x ∨ y ∈ l := by
  rw [(insertDesc_perm x l).mem_iff]
  exact List.mem_cons

theorem foldl_insertDesc_perm (f : Nat → Nat) :
    ∀ (items : List Nat) (init : List Nat),
    (items.foldl (fun q v => insertDesc (f v) q) init).Perm (items.map f ++ init) := by
  intro items
  induction items with
  | nil => intro init; simp
  | cons a rest ih =>
    intro init
    rw [List.foldl_cons]
    have h1 := ih (insertDesc (f a) init)
    have h2 : (insertDesc (f a) init).Perm (f a :: init) := insertDesc_perm _ _
    have h3 : (rest.map f ++ insertDesc (f a) init).Perm (rest.map f ++ (f a :: init)) :=
      List.Perm.append_left _ h2
    have h4 : (rest.map f ++ (f a :: init)).Perm (f a :: (rest.map f ++ init)) :=
      List.perm_middle
    rw [List.map_cons]
    exact h1.trans (h3.trans h4)

theorem foldl_insertDesc_sorted (f : Nat → Nat) :
    ∀ (items : List Nat) (init : List Nat), init.Sorted (· ≥ ·) →
    (items.foldl (fun q v => insertDesc (f v) q) init).Sorted (· ≥ ·) := by
  intro items
  induction items with
  | nil => intro init h; exact h
  | cons a rest ih =>
    intro init h
    rw [List.foldl_cons]
    exact ih (insertDesc (f a) init) (insertDesc_sorted (f a) init h)

theorem dropGe_cases (eV : Nat) : ∀ (q : List Nat) (x : Nat), x ∈ q →
    x ∈ dropGe eV q ∨ eV ≤ x := by
  intro q
  induction q with
  | nil => intro x hx; cases hx
  | cons y ys ih =>
    intro x hx
    unfold dropGe
    by_cases hy : y ≥ eV
    · rw [if_pos hy]
      rcases List.mem_cons.mp hx with h1 | h2
      · subst h1; exact Or.inr hy
      · exact ih x h2
    · rw [if_neg hy]
      exact Or.inl hx

theorem dropGe_subset (eV : Nat) : ∀ (q : List Nat) (x : Nat),
    x ∈ dropGe eV q → x ∈ q := by
  intro q
  induction q with
  | nil => intro x hx; cases hx
  | cons y ys ih =>
    intro x hx
    unfold dropGe at hx
    by_cases hy : y ≥ eV
    · rw [if_pos hy] at hx
      exact List.mem_cons_of_mem y (ih x hx)
    · rw [if_neg hy] at hx
      exact hx

theorem dropGe_sorted (eV : Nat) : ∀ (q : List Nat), q.Sorted (· ≥ ·) →
    (dropGe eV q).Sorted (· ≥ ·) := by
  intro q
  induction q with
  | nil => intro _; exact List.sorted_nil
  | cons y ys ih =>
    intro h
    unfold dropGe
    by_cases hy : y ≥ eV
    · rw [if_pos hy]
      exact ih (List.sorted_cons.mp h).2
    · rw [if_neg hy]
      exact h

theorem dropGe_lt (eV : Nat) : ∀ (q : List Nat), q.Sorted (· ≥ ·) →
    ∀ x ∈ dropGe eV q, x < eV := by
  intro q
  induction q with
  | nil => intro _ x hx; cases hx
  | cons y ys ih =>
    intro h x hx
    unfold dropGe at hx
    by_cases hy : y ≥ eV
    · rw [if_pos hy] at hx
      exact ih (List.sorted_cons.mp h).2 x hx
    · rw [if_neg hy] at hx
      rcases List.mem_cons.mp hx with h1 | h2
      · omega
      · have := (List.sorted_cons.mp h).1 x h2
        omega

theorem foldl_cond_insertDesc_mem (c : Nat → Prop) [DecidablePred c] :
    ∀ (ps init : List Nat) (x : Nat),
    x ∈ ps.foldl (fun q p => if c p then insertDesc p q else q) init ↔
      x ∈ init ∨ (x ∈ ps ∧ c x) := by
  intro ps
  induction ps with
  | nil => intro init x; simp
  | cons a rest ih =>
    intro init x
    rw [List.foldl_cons, ih]
    by_cases hca : c a
    · rw [if_pos hca, insertDesc_mem]
      constructor
      · rintro ((h1 | h2) | h3)
        · subst h1; exact Or.inr ⟨List.mem_cons_self _ _, hca⟩
        · exact Or.inl h2
        · exact Or.inr ⟨List.mem_cons_of_mem a h3.1, h3.2⟩
      · rintro (h1 | ⟨h2, h3⟩)
        · exact Or.inl (Or.inr h1)
        · rcases List.mem_cons.mp h2 with h4 | h5
          · exact Or.inl (Or.inl h4)
          · exact Or.inr ⟨h5, h3⟩
    · rw [if_neg hca]
      constructor
      · rintro (h1 | h2)
        · exact Or.inl h1
        · exact Or.inr ⟨List.mem_cons_of_mem a h2.1, h2.2⟩
      · rintro (h1 | ⟨h2, h3⟩)
        · exact Or.inl h1
        · rcases List.mem_cons.mp h2 with h4 | h5
          · subst h4; exact absurd h3 hca
          · exact Or.inr ⟨h5, h3⟩

theorem foldl_cond_insertDesc_sorted (c : Nat → Prop) [DecidablePred c] :
    ∀ (ps init : List Nat), init.Sorted (· ≥ ·) →
    (ps.foldl (fun q p => if c p then insertDesc p q else q) init).Sorted (· ≥ ·) := by
  intro ps
  induction ps with
  | nil => intro init h; exact h
  | cons a rest ih =>
    intro init h
    rw [List.foldl_cons]
    by_cases hca : c a
    · rw [if_pos hca]
      exact ih _ (insertDesc_sorted a init h)
    · rw [if_neg hca]
      exact ih _ h

/-- Correctness of the versionContainsLV walk: assuming the queue holds only
ancestors of the frontier above the target and covers every pending path to
the target, the loop decides causal containment. -/
theorem vclLoop_spec (cg : CausalGraph) (h : WF cg) (target : Nat)
    (frontier : List Nat) :
    ∀ (fuel : Nat) (queue : List Nat) (b : Bool),
    queue.Sorted (· ≥ ·) →
    (∀ q ∈ queue, target ≤ q ∧ ∃ f ∈ frontier, Anc cg q f) →
    (∀ f ∈ frontier, Anc cg target f → ∃ q ∈ queue, Anc cg target q) →
    vclLoop cg target fuel queue = some b →
    (b = true ↔ ∃ f ∈ frontier, Anc cg target f) := by
  intro fuel
  induction fuel with
  | zero =>
    intro queue b hs hS hEC hrun
    rw [vclLoop] at hrun
    by_cases hq : queue = []
    · rw [if_pos hq] at hrun
      have hb : b = false := (Option.some.inj hrun).symm
      subst hb
      simp only [Bool.false_eq_true, false_iff]
      rintro ⟨f, hf, hanc⟩
      obtain ⟨q, hq2, _⟩ := hEC f hf hanc
      rw [hq] at hq2
      cases hq2
    · rw [if_neg hq] at hrun
      cases hrun
  | succ fuel ih =>
    intro queue b hs hS hEC hrun
    cases queue with
    | nil =>
      rw [vclLoop] at hrun
      have hb : b = false := (Option.some.inj hrun).symm
      subst hb
      simp only [Bool.false_eq_true, false_iff]
      rintro ⟨f, hf, hanc⟩
      obtain ⟨q, hq2, _⟩ := hEC f hf hanc
      cases hq2
    | cons v rest =>
      rw [vclLoop] at hrun
      by_cases hvt : v = target
      · rw [if_pos hvt] at hrun
        have hb : b = true := (Option.some.inj hrun).symm
        subst hb
        simp only [true_iff]
        obtain ⟨_, f, hf, hanc⟩ := hS v (List.mem_cons_self v rest)
        rw [hvt] at hanc
        exact ⟨f, hf, hanc⟩
      · rw [if_neg hvt] at hrun
        cases he : findEntryContainingRaw cg v with
        | none => rw [he] at hrun; cases hrun
        | some e =>
          rw [he] at hrun
          dsimp only at hrun
          obtain ⟨hmem, hev, hvE⟩ := findEntryContainingRaw_some cg v e he
          obtain ⟨htv, f0, hf0, hanc0⟩ := hS v (List.mem_cons_self v rest)
          by_cases het : e.version ≤ target
          · rw [if_pos het] at hrun
            have hb : b = true := (Option.some.inj hrun).symm
            subst hb
            simp only [true_iff]
            have h1 : Anc cg target v := Anc.inEntry e hmem het htv hvE
            exact ⟨f0, hf0, anc_trans cg h h1 hanc0⟩
          · rw [if_neg het] at hrun
            by_cases hpt : e.parents.contains target
            · rw [if_pos hpt] at hrun
              have hb : b = true := (Option.some.inj hrun).symm
              subst hb
              simp only [true_iff]
              have hptm : target ∈ e.parents := (contains_iff_mem _ _).mp hpt
              have h1 : Anc cg target v :=
                Anc.parent target e hmem hev hvE hptm (Anc.refl target)
              exact ⟨f0, hf0, anc_trans cg h h1 hanc0⟩
            · rw [if_neg hpt] at hrun
              have hrs : rest.Sorted (· ≥ ·) := (List.sorted_cons.mp hs).2
              have hhead : ∀ x ∈ rest, x ≤ v := (List.sorted_cons.mp hs).1
              have hmemQ := foldl_cond_insertDesc_mem (fun p => p > target)
                e.parents (dropGe e.version rest)
              refine ih _ b ?_ ?_ ?_ hrun
              · exact foldl_cond_insertDesc_sorted _ e.parents _
                  (dropGe_sorted e.version rest hrs)
              · intro q hq
                rcases (hmemQ q).mp hq with h1 | ⟨h2, h3⟩
                · exact hS q (List.mem_cons_of_mem v (dropGe_subset e.version rest q h1))
                · refine ⟨by omega, f0, hf0, ?_⟩
                  have hq1 : Anc cg q v :=
                    Anc.parent q e hmem hev hvE h2 (Anc.refl q)
                  exact anc_trans cg h hq1 hanc0
              · intro f hf hanc
                obtain ⟨q, hq2, hancq⟩ := hEC f hf hanc
                have hcase : Anc cg target q ∧ (q = v ∨ e.version ≤ q) →
                    ∃ q2, q2 ∈ e.parents.foldl
                      (fun q p => if p > target then insertDesc p q else q)
                      (dropGe e.version rest) ∧ Anc cg target q2 := by
                  rintro ⟨hancq2, hq3⟩
                  have hqbound : q ≤ v := by
                    rcases hq3 with h4 | h5
                    · omega
                    · rcases List.mem_cons.mp hq2 with h6 | h7
                      · omega
                      · exact hhead q h7
                  have hqe : e.version ≤ q ∧ q < e.vEnd := by
                    rcases hq3 with h4 | h5
                    · subst h4; exact ⟨hev, hvE⟩
                    · exact ⟨h5, by omega⟩
                  rcases anc_inv cg h hancq2 e hmem hqe.1 hqe.2 with h8 | ⟨p, hp, hancp⟩
                  · omega
                  · have hpt2 : target < p := by
                      have := anc_le cg h hancp
                      rcases Nat.lt_or_ge target p with h9 | h9
                      · exact h9
                      · exfalso
                        have hpeq : p = target := by omega
                        subst hpeq
                        exact hpt ((contains_iff_mem _ _).mpr hp)
                    exact ⟨p, (hmemQ p).mpr (Or.inr ⟨hp, hpt2⟩), hancp⟩
                rcases List.mem_cons.mp hq2 with h4 | h5
                · obtain ⟨q2, hq2m, hancq2⟩ := hcase ⟨hancq, Or.inl h4⟩
                  exact ⟨q2, hq2m, hancq2⟩
                · rcases dropGe_cases e.version rest q h5 with h6 | h6
                  · exact ⟨q, (hmemQ q).mpr (Or.inl h6), hancq⟩
                  · obtain ⟨q2, hq2m, hancq2⟩ := hcase ⟨hancq, Or.inr h6⟩
                    exact ⟨q2, hq2m, hancq2⟩

/-- versionContainsLV decides causal containment on a well-formed graph. -/
theorem versionContainsLV_spec (cg : CausalGraph) (h : WF cg)
    (frontier : List Nat) (target : Nat) (b : Bool)
    (hrun : versionContainsLV cg frontier target = some b) :
    b = true ↔ ∃ f ∈ frontier, Anc cg target f := by
  unfold versionContainsLV at hrun
  by_cases hc : frontier.contains target
  · rw [if_pos hc] at hrun
    have hb : b = true := (Option.some.inj hrun).symm
    subst hb
    simp only [true_iff]
    exact ⟨target, (contains_iff_mem _ _).mp hc, Anc.refl target⟩
  · rw [if_neg hc] at hrun
    have hmemQ := foldl_cond_insertDesc_mem (fun p => p > target) frontier []
    refine vclLoop_spec cg h target frontier _ _ b ?_ ?_ ?_ hrun
    · exact foldl_cond_insertDesc_sorted _ frontier [] List.sorted_nil
    · intro q hq
      rcases (hmemQ q).mp hq with h1 | ⟨h2, h3⟩
      · cases h1
      · exact ⟨by omega, q, h2, Anc.refl q⟩
    · intro f hf hanc
      have hle := anc_le cg h hanc
      have hne : target ≠ f := by
        intro heq
        subst heq
        exact hc ((contains_iff_mem _ _).mpr hf)
      exact ⟨f, (hmemQ f).mpr (Or.inr ⟨hf, by omega⟩), hanc⟩

theorem evens_perm {q q' : List Nat} (h : q.Perm q') : (evens q).Perm (evens q') :=
  (h.filter _).map _

theorem evens_append (a b : List Nat) : evens (a ++ b) = evens a ++ evens b := by
  unfold evens
  rw [List.filter_append, List.map_append]

theorem evens_cons_even (x : Nat) (q : List Nat) (h : x % 2 = 0) :
    evens (x :: q) = x / 2 :: evens q := by
  unfold evens
  rw [List.filter_cons_of_pos (by simpa using h), List.map_cons]

theorem evens_cons_odd (x : Nat) (q : List Nat) (h : x % 2 ≠ 0) :
    evens (x :: q) = evens q := by
  unfold evens
  rw [List.filter_cons_of_neg (by simpa using h)]

theorem evens_markers (ps : List Nat) : evens (ps.map (fun p => p * 2 + 1)) = [] := by
  unfold evens
  rw [List.filter_eq_nil_iff.mpr, List.map_nil]
  intro a ha
  obtain ⟨p, _, hp⟩ := List.mem_map.mp ha
  subst hp
  simp only [decide_eq_true_eq]
  omega

theorem trues_append_falses (acc : List (Nat × Bool)) (l : List Nat) :
    trues (acc ++ l.map (fun y => (y, false))) = trues acc := by
  unfold trues
  rw [List.filter_append]
  have hnil : (l.map (fun y => (y, false))).filter (fun pr => pr.2) = [] := by
    rw [List.filter_eq_nil_iff]
    intro a ha
    obtain ⟨y, _, hy⟩ := List.mem_map.mp ha
    rw [← hy]
    simp
  rw [hnil, List.append_nil]

theorem trues_append_true (acc : List (Nat × Bool)) (v : Nat) :
    trues (acc ++ [(v, true)]) = trues acc ++ [v] := by
  unfold trues
  rw [List.filter_append, List.map_append]
  rfl

theorem trues_mem (acc : List (Nat × Bool)) (t : Nat) :
    t ∈ trues acc ↔ (t, true) ∈ acc := by
  unfold trues
  constructor
  · intro h
    obtain ⟨pr, hpr, hfst⟩ := List.mem_map.mp h
    have h2 := List.mem_filter.mp hpr
    have : pr = (t, true) := by
      cases pr with
      | mk a b =>
        simp only at hfst
        have hb : b = true := by simpa using h2.2
        rw [hfst, hb]
    rw [← this]
    exact h2.1
  · intro h
    apply List.mem_map.mpr
    refine ⟨(t, true), List.mem_filter.mpr ⟨h, by simp⟩, rfl⟩

theorem sorted_gt_append_singleton (l : List Nat) (v : Nat)
    (h : l.Sorted (· > ·)) (h2 : ∀ t ∈ l, v < t) : (l ++ [v]).Sorted (· > ·) := by
  induction l with
  | nil => simp
  | cons a rest ih =>
    rw [List.cons_append, List.sorted_cons]
    refine ⟨?_, ih (List.sorted_cons.mp h).2 (fun t ht => h2 t (List.mem_cons_of_mem a ht))⟩
    intro b hb
    rcases List.mem_append.mp hb with h3 | h4
    · exact (List.sorted_cons.mp h).1 b h3
    · rw [List.mem_singleton] at h4
      subst h4
      exact h2 a (List.mem_cons_self a rest)

theorem foldl_insertDescF_sorted (f : Nat → Nat) :
    ∀ (items init : List Nat), init.Sorted (· ≥ ·) →
    (items.foldl (fun q v => insertDesc (f v) q) init).Sorted (· ≥ ·) := by
  intro items
  induction items with
  | nil => intro init h; exact h
  | cons a rest ih =>
    intro init h
    rw [List.foldl_cons]
    exact ih _ (insertDesc_sorted (f a) init h)

theorem fdClear_spec (eV : Nat) :
    ∀ (queue : List Nat) (ir : Nat) (acc : List (Nat × Bool)),
    ∃ pre, queue = pre ++ (fdClear eV queue ir acc).1 ∧
      (∀ y ∈ pre, eV * 2 ≤ y) ∧
      (fdClear eV queue ir acc).2.2 = acc ++ (evens pre).map (fun y => (y, false)) ∧
      (fdClear eV queue ir acc).2.1 =
        ir - (pre.filter (fun x => x % 2 = 0)).length := by
  intro queue
  induction queue with
  | nil =>
    intro ir acc
    refine ⟨[], rfl, fun y hy => absurd hy (List.not_mem_nil y), ?_, rfl⟩
    simp [evens, fdClear]
  | cons y rest ih =>
    intro ir acc
    unfold fdClear
    by_cases hy : y ≥ eV * 2
    · rw [if_pos hy]
      by_cases hpar : y % 2 = 0
      · rw [if_pos hpar]
        obtain ⟨pre, hsplit, hge, hacc, hir⟩ := ih (ir - 1) (acc ++ [(y / 2, false)])
        refine ⟨y :: pre, ?_, ?_, ?_, ?_⟩
        · rw [List.cons_append, ← hsplit]
        · intro z hz
          rcases List.mem_cons.mp hz with h1 | h2
          · omega
          · exact hge z h2
        · rw [hacc, evens_cons_even y pre hpar, List.map_cons, List.append_assoc]
          rfl
        · rw [hir, List.filter_cons_of_pos (by simpa using hpar)]
          simp only [List.length_cons]
          omega
      · rw [if_neg hpar]
        obtain ⟨pre, hsplit, hge, hacc, hir⟩ := ih ir acc
        refine ⟨y :: pre, ?_, ?_, ?_, ?_⟩
        · rw [List.cons_append, ← hsplit]
        · intro z hz
          rcases List.mem_cons.mp hz with h1 | h2
          · omega
          · exact hge z h2
        · rw [hacc, evens_cons_odd y pre hpar]
        · rw [hir, List.filter_cons_of_neg (by simpa using hpar)]
    · rw [if_neg hy]
      refine ⟨[], rfl, fun z hz => absurd hz (List.not_mem_nil z), ?_, rfl⟩
      simp [evens]

theorem fdClear_lt (eV : Nat) :
    ∀ (queue : List Nat) (ir : Nat) (acc : List (Nat × Bool)),
    queue.Sorted (· ≥ ·) →
    ∀ x ∈ (fdClear eV queue ir acc).1, x < eV * 2 := by
  intro queue
  induction queue with
  | nil => intro ir acc _ x hx; cases hx
  | cons y rest ih =>
    intro ir acc hs x hx
    unfold fdClear at hx
    by_cases hy : y ≥ eV * 2
    · rw [if_pos hy] at hx
      by_cases hpar : y % 2 = 0
      · rw [if_pos hpar] at hx
        exact ih _ _ (List.sorted_cons.mp hs).2 x hx
      · rw [if_neg hpar] at hx
        exact ih _ _ (List.sorted_cons.mp hs).2 x hx
    · rw [if_neg hy] at hx
      rcases List.mem_cons.mp hx with h1 | h2
      · omega
      · have := (List.sorted_cons.mp hs).1 x h2
        omega

theorem fdClear_sorted (eV : Nat) :
    ∀ (queue : List Nat) (ir : Nat) (acc : List (Nat × Bool)),
    queue.Sorted (· ≥ ·) → (fdClear eV queue ir acc).1.Sorted (· ≥ ·) := by
  intro queue
  induction queue with
  | nil => intro ir acc _; exact List.sorted_nil
  | cons y rest ih =>
    intro ir acc hs
    unfold fdClear
    by_cases hy : y ≥ eV * 2
    · rw [if_pos hy]
      by_cases hpar : y % 2 = 0
      · rw [if_pos hpar]
        exact ih _ _ (List.sorted_cons.mp hs).2
      · rw [if_neg hpar]
        exact ih _ _ (List.sorted_cons.mp hs).2
    · rw [if_neg hy]
      exact hs

theorem map_fst_falses (l : List Nat) :
    (l.map (fun y => (y, false))).map Prod.fst = l := by
  rw [List.map_map]
  exact List.map_id l

theorem filter_even_markers (ps : List Nat) :
    (ps.map (fun p => p * 2 + 1)).filter (fun x => x % 2 = 0) = [] := by
  rw [List.filter_eq_nil_iff]
  intro a ha
  obtain ⟨p, _, hp⟩ := List.mem_map.mp ha
  rw [← hp]
  simp only [decide_eq_true_eq]
  omega

/-- The conclusion of the findDominators2 walk once it stops. -/
theorem fdLoop_final (cg : CausalGraph) (versions : List Nat)
    (queue : List Nat) (ir : Nat) (acc : List (Nat × Bool))
    (H2 : versions.Perm (acc.map Prod.fst ++ evens queue))
    (H3 : ir = (queue.filter (fun x => x % 2 = 0)).length)
    (H4 : ∀ pr ∈ acc, pr.2 = true → DomSpec cg versions pr.1)
    (H5 : (trues acc).Sorted (· > ·))
    (H7 : ∀ v, DomSpec cg versions v → v ∈ trues acc ∨ v * 2 ∈ queue)
    (hstop : queue = [] ∨ ir = 0) :
    (∀ v, v ∈ trues acc ↔ DomSpec cg versions v) ∧ (trues acc).Sorted (· > ·) := by
  refine ⟨?_, H5⟩
  intro v
  constructor
  · intro hv
    exact H4 (v, true) ((trues_mem acc v).mp hv) rfl
  · intro hdom
    rcases H7 v hdom with h1 | h2
    · exact h1
    · exfalso
      have hqnil : queue.filter (fun x => x % 2 = 0) = [] := by
        rcases hstop with hq | hir
        · rw [hq]; rfl
        · rw [hir] at H3
          exact List.length_eq_zero.mp H3.symm
      have hmem : v * 2 ∈ queue.filter (fun x => x % 2 = 0) :=
        List.mem_filter.mpr ⟨h2, by simp only [decide_eq_true_eq]; omega⟩
      rw [hqnil] at hmem
      cases hmem

/-- Correctness of the findDominators2 main loop: assuming the nine queue
invariants, a completed walk marks exactly the dominators, in descending
order. -/
theorem fdLoop_spec (cg : CausalGraph) (h : WF cg) (versions : List Nat) :
    ∀ (fuel : Nat) (queue : List Nat) (ir : Nat) (acc : List (Nat × Bool))
      (ES : List CGEntry) (out : List (Nat × Bool)),
    queue.Sorted (· ≥ ·) →
    versions.Perm (acc.map Prod.fst ++ evens queue) →
    ir = (queue.filter (fun x => x % 2 = 0)).length →
    (∀ pr ∈ acc, pr.2 = true → DomSpec cg versions pr.1) →
    (trues acc).Sorted (· > ·) →
    (∀ t ∈ trues acc, ∀ enc ∈ queue, enc / 2 < t) →
    (∀ v, DomSpec cg versions v → v ∈ trues acc ∨ v * 2 ∈ queue) →
    (∀ enc ∈ queue, enc % 2 = 1 → ∃ u ∈ versions, Anc cg (enc / 2) u ∧ enc / 2 ≠ u) →
    (∀ e ∈ ES, ∀ enc ∈ queue, enc / 2 < e.version) →
    (∀ u ∈ acc.map Prod.fst, ∀ a, Anc cg a u →
      (∃ e ∈ ES, e.version ≤ a ∧ a < e.vEnd) ∨
      (∃ enc ∈ queue, enc % 2 = 1 ∧ Anc cg a (enc / 2))) →
    fdLoop cg fuel queue ir acc = some out →
    ((∀ v, v ∈ trues out ↔ DomSpec cg versions v) ∧ (trues out).Sorted (· > ·)) := by
  intro fuel
  induction fuel with
  | zero =>
    intro queue ir acc ES out H1 H2 H3 H4 H5 H6 H7 H8 H10 H9 hrun
    rw [fdLoop] at hrun
    by_cases hstop : queue = [] ∨ ir = 0
    · rw [if_pos hstop] at hrun
      have hout : out = acc := (Option.some.inj hrun).symm
      subst hout
      exact fdLoop_final cg versions queue ir out H2 H3 H4 H5 H7 hstop
    · rw [if_neg hstop] at hrun
      cases hrun
  | succ fuel ih =>
    intro queue ir acc ES out H1 H2 H3 H4 H5 H6 H7 H8 H10 H9 hrun
    cases queue with
    | nil =>
      rw [fdLoop] at hrun
      have hout : out = acc := (Option.some.inj hrun).symm
      subst hout
      exact fdLoop_final cg versions [] ir out H2 H3 H4 H5 H7 (Or.inl rfl)
    | cons vEnc rest =>
      rw [fdLoop] at hrun
      by_cases hir : ir = 0
      · rw [if_pos hir] at hrun
        have hout : out = acc := (Option.some.inj hrun).symm
        subst hout
        exact fdLoop_final cg versions (vEnc :: rest) ir out H2 H3 H4 H5 H7 (Or.inr hir)
      · rw [if_neg hir] at hrun
        dsimp only at hrun
        have hsorthead := List.sorted_cons.mp H1
        have hmax : ∀ x ∈ vEnc :: rest, x ≤ vEnc := by
          intro x hx
          rcases List.mem_cons.mp hx with h1 | h2
          · omega
          · exact hsorthead.1 x h2
        have hrest : rest.Sorted (· ≥ ·) := hsorthead.2
        cases he : findEntryContainingRaw cg (vEnc / 2) with
        | none =>
          rw [he] at hrun
          by_cases hpar : vEnc % 2 = 0
          · simp only [if_pos hpar] at hrun
            cases hrun
          · simp only [if_neg hpar] at hrun
            cases hrun
        | some e =>
          rw [he] at hrun
          obtain ⟨hmemE, hevE, hvEE⟩ := findEntryContainingRaw_some cg (vEnc / 2) e he
          have hparlt : ∀ p ∈ e.parents, p < e.version := h.parentsLT e hmemE
          by_cases hpar : vEnc % 2 = 0
          · -- input pop
            simp only [if_pos hpar] at hrun
            rcases hfd : fdClear e.version rest (ir - 1)
                (acc ++ [(vEnc / 2, true)]) with ⟨rest1, irac⟩
            obtain ⟨ir2, acc2⟩ := irac
            rw [hfd] at hrun
            dsimp only at hrun
            obtain ⟨pre, hsplit, hge, haccEq, hirEq⟩ :=
              fdClear_spec e.version rest (ir - 1) (acc ++ [(vEnc / 2, true)])
            rw [hfd] at hsplit haccEq hirEq
            dsimp only at hsplit haccEq hirEq
            have hlt1 : ∀ x ∈ rest1, x < e.version * 2 := by
              have hl := fdClear_lt e.version rest (ir - 1)
                (acc ++ [(vEnc / 2, true)]) hrest
              rw [hfd] at hl
              exact hl
            have hsorted1 : rest1.Sorted (· ≥ ·) := by
              have hl := fdClear_sorted e.version rest (ir - 1)
                (acc ++ [(vEnc / 2, true)]) hrest
              rw [hfd] at hl
              exact hl
            have hq1perm : (e.parents.foldl (fun q p => insertDesc (p * 2 + 1) q)
                rest1).Perm (e.parents.map (fun p => p * 2 + 1) ++ rest1) :=
              foldl_insertDesc_perm _ e.parents rest1
            have hq1mem : ∀ x, x ∈ e.parents.foldl
                (fun q p => insertDesc (p * 2 + 1) q) rest1 ↔
                (∃ p ∈ e.parents, p * 2 + 1 = x) ∨ x ∈ rest1 := by
              intro x
              rw [hq1perm.mem_iff, List.mem_append, List.mem_map]
            have hq1lt : ∀ enc ∈ e.parents.foldl
                (fun q p => insertDesc (p * 2 + 1) q) rest1, enc / 2 < e.version := by
              intro enc henc
              rcases (hq1mem enc).mp henc with ⟨p, hp, hpe⟩ | h2
              · have := hparlt p hp
                omega
              · have := hlt1 enc h2
                omega
            have hpre_mem : ∀ y ∈ pre, y ∈ rest := by
              intro y hy
              rw [hsplit]
              exact List.mem_append_left _ hy
            have hpre_in : ∀ y ∈ pre, e.version ≤ y / 2 ∧ y / 2 < e.vEnd := by
              intro y hy
              have h1 := hge y hy
              have h2 := hmax y (List.mem_cons_of_mem _ (hpre_mem y hy))
              omega
            have hcover : ∀ y, e.version ≤ y → y < e.vEnd → ∀ a, Anc cg a y →
                (∃ e' ∈ e :: ES, e'.version ≤ a ∧ a < e'.vEnd) ∨
                (∃ enc ∈ e.parents.foldl (fun q p => insertDesc (p * 2 + 1) q) rest1,
                  enc % 2 = 1 ∧ Anc cg a (enc / 2)) := by
              intro y hy1 hy2 a hanc
              rcases anc_inv cg h hanc e hmemE hy1 hy2 with ⟨ha1, ha2⟩ | ⟨p, hp, hancp⟩
              · exact Or.inl ⟨e, List.mem_cons_self e ES, ha1, by omega⟩
              · refine Or.inr ⟨p * 2 + 1, (hq1mem _).mpr (Or.inl ⟨p, hp, rfl⟩),
                  by omega, ?_⟩
                have hdiv : (p * 2 + 1) / 2 = p := by omega
                rw [hdiv]
                exact hancp
            have hvvers : vEnc / 2 ∈ versions := by
              apply H2.mem_iff.mpr
              apply List.mem_append_right
              rw [evens_cons_even _ _ hpar]
              exact List.mem_cons_self _ _
            have hdom : DomSpec cg versions (vEnc / 2) := by
              refine ⟨hvvers, ?_⟩
              intro w hw hanc
              by_contra hne
              have hwmem := H2.mem_iff.mp hw
              rcases List.mem_append.mp hwmem with hw1 | hw2
              · rcases H9 w hw1 (vEnc / 2) hanc with ⟨e', he', hb1, hb2⟩ |
                  ⟨enc, hencm, hodd, hanc2⟩
                · have := H10 e' he' vEnc (List.mem_cons_self _ _)
                  omega
                · have hle2 := anc_le cg h hanc2
                  have hle3 := hmax enc hencm
                  omega
              · rw [evens_cons_even _ _ hpar] at hw2
                rcases List.mem_cons.mp hw2 with h1 | h2
                · exact hne h1
                · obtain ⟨enc, hencf, hencw⟩ := List.mem_map.mp h2
                  have hencr : enc ∈ rest := (List.mem_filter.mp hencf).1
                  have heven : enc % 2 = 0 := by
                    simpa using (List.mem_filter.mp hencf).2
                  have h3 := hmax enc (List.mem_cons_of_mem _ hencr)
                  have h4 := anc_le cg h hanc
                  have : w = vEnc / 2 := by omega
                  exact hne this
            refine ih _ ir2 acc2 (e :: ES) out ?_ ?_ ?_ ?_ ?_ ?_ ?_ ?_ ?_ ?_ hrun
            · exact foldl_insertDescF_sorted _ e.parents rest1 hsorted1
            · -- multiset invariant
              have h2c : (evens (e.parents.foldl (fun q p => insertDesc (p * 2 + 1) q)
                  rest1)).Perm (evens rest1) := by
                refine (evens_perm hq1perm).trans ?_
                rw [evens_append, evens_markers, List.nil_append]
              have h2d : acc2.map Prod.fst =
                  ((acc.map Prod.fst ++ [vEnc / 2]) ++ evens pre) := by
                rw [haccEq, List.map_append, List.map_append, map_fst_falses]
                rfl
              have H2b : versions.Perm
                  (((acc.map Prod.fst ++ [vEnc / 2]) ++ evens pre) ++ evens rest1) := by
                have heq : ((acc.map Prod.fst ++ [vEnc / 2]) ++ evens pre) ++
                    evens rest1 =
                    acc.map Prod.fst ++ evens (vEnc :: rest) := by
                  rw [evens_cons_even _ _ hpar, hsplit, evens_append]
                  simp [List.append_assoc]
                rw [heq]
                exact H2
              rw [h2d]
              exact H2b.trans (List.Perm.append_left _ h2c.symm)
            · -- input count
              have h3c : ((e.parents.foldl (fun q p => insertDesc (p * 2 + 1) q)
                  rest1).filter (fun x => x % 2 = 0)).length =
                  (rest1.filter (fun x => x % 2 = 0)).length := by
                have hp2 := (hq1perm.filter (fun x => x % 2 = 0)).length_eq
                rw [List.filter_append, filter_even_markers, List.nil_append] at hp2
                exact hp2
              rw [h3c, hirEq]
              have h3a : ((vEnc :: rest).filter (fun x => x % 2 = 0)).length =
                  1 + (rest.filter (fun x => x % 2 = 0)).length := by
                rw [List.filter_cons_of_pos (by simpa using hpar)]
                simp [Nat.add_comm]
              have h3b : (rest.filter (fun x => x % 2 = 0)).length =
                  (pre.filter (fun x => x % 2 = 0)).length +
                  (rest1.filter (fun x => x % 2 = 0)).length := by
                rw [hsplit, List.filter_append, List.length_append]
              rw [H3] at hir ⊢
              omega
            · -- emitted trues are dominators
              intro pr hpr htrue
              rw [haccEq] at hpr
              rcases List.mem_append.mp hpr with h1 | h2
              · rcases List.mem_append.mp h1 with h3 | h4
                · exact H4 pr h3 htrue
                · rw [List.mem_singleton] at h4
                  rw [h4]
                  exact hdom
              · obtain ⟨y, _, hy⟩ := List.mem_map.mp h2
                rw [← hy] at htrue
                cases htrue
            · -- trues sorted
              rw [haccEq, trues_append_falses, trues_append_true]
              apply sorted_gt_append_singleton _ _ H5
              intro t ht
              exact H6 t ht vEnc (List.mem_cons_self _ _)
            · -- trues dominate the queue
              intro t ht enc henc
              rw [haccEq, trues_append_falses, trues_append_true] at ht
              have hql := hq1lt enc henc
              rcases List.mem_append.mp ht with h1 | h2
              · have := H6 t h1 vEnc (List.mem_cons_self _ _)
                omega
              · rw [List.mem_singleton] at h2
                omega
            · -- pending dominators
              intro w hdomw
              have htr : trues acc2 = trues acc ++ [vEnc / 2] := by
                rw [haccEq, trues_append_falses, trues_append_true]
              rcases H7 w hdomw with h1 | h2
              · rw [htr]
                exact Or.inl (List.mem_append_left _ h1)
              · rcases List.mem_cons.mp h2 with h3 | h4
                · rw [htr]
                  apply Or.inl
                  apply List.mem_append_right
                  rw [List.mem_singleton]
                  omega
                · rw [hsplit] at h4
                  rcases List.mem_append.mp h4 with h5 | h6
                  · by_cases hwv : w = vEnc / 2
                    · rw [htr]
                      exact Or.inl (List.mem_append_right _ (by rw [List.mem_singleton,
                        hwv]))
                    · exfalso
                      have hin := hpre_in _ h5
                      have hd2 : w * 2 / 2 = w := by omega
                      rw [hd2] at hin
                      have hwle : w ≤ vEnc / 2 := by
                        have := hmax (w * 2) (List.mem_cons_of_mem _ (hpre_mem _ h5))
                        omega
                      have hancwv : Anc cg w (vEnc / 2) :=
                        Anc.inEntry e hmemE hin.1 hwle hvEE
                      have := hdomw.2 (vEnc / 2) hvvers hancwv
                      omega
                  · exact Or.inr ((hq1mem _).mpr (Or.inr h6))
            · -- markers are strict ancestors of inputs
              intro enc henc hodd
              rcases (hq1mem enc).mp henc with ⟨p, hp, hpe⟩ | h2
              · have hdiv : enc / 2 = p := by omega
                rw [hdiv]
                refine ⟨vEnc / 2, hvvers, ?_, ?_⟩
                · exact Anc.parent p e hmemE hevE hvEE hp (Anc.refl p)
                · have := hparlt p hp
                  omega
              · exact H8 enc (List.mem_cons_of_mem _ (by
                  rw [hsplit]; exact List.mem_append_right _ h2)) hodd
            · -- queue below explored entries
              intro e' he' enc henc
              rcases List.mem_cons.mp he' with h1 | h2
              · rw [h1]
                exact hq1lt enc henc
              · have h3 := H10 e' h2 vEnc (List.mem_cons_self _ _)
                have h4 := hq1lt enc henc
                omega
            · -- exploration completeness
              intro u hu a hanc
              rw [haccEq, List.map_append, List.map_append, map_fst_falses] at hu
              rcases List.mem_append.mp hu with h1 | h2
              · rcases List.mem_append.mp h1 with h3 | h4
                · -- previously emitted input
                  rcases H9 u h3 a hanc with ⟨e', he', hb⟩ | ⟨enc, hencm, hodd, hanc2⟩
                  · exact Or.inl ⟨e', List.mem_cons_of_mem e he', hb⟩
                  · rcases List.mem_cons.mp hencm with h5 | h6
                    · exfalso
                      rw [h5] at hodd
                      omega
                    · rw [hsplit] at h6
                      rcases List.mem_append.mp h6 with h7 | h8
                      · have hin := hpre_in _ h7
                        exact hcover (enc / 2) hin.1 hin.2 a hanc2
                      · exact Or.inr ⟨enc, (hq1mem _).mpr (Or.inr h8), hodd, hanc2⟩
                · -- the input emitted this iteration
                  have h4e : u = vEnc / 2 := by simpa using h4
                  rw [h4e] at hanc
                  exact hcover (vEnc / 2) hevE hvEE a hanc
              · -- inputs cleared this iteration
                obtain ⟨y, hy, hyu⟩ := List.mem_map.mp h2
                have hy0p : y ∈ pre := (List.mem_filter.mp hy).1
                have hin := hpre_in _ hy0p
                rw [← hyu] at hanc
                exact hcover (y / 2) hin.1 hin.2 a hanc
          · -- marker pop
            simp only [if_neg hpar] at hrun
            have hodd0 : vEnc % 2 = 1 := by omega
            obtain ⟨u0, hu0, hancm, hnem⟩ := H8 vEnc (List.mem_cons_self _ _) hodd0
            rcases hfd : fdClear e.version rest ir acc with ⟨rest1, irac⟩
            obtain ⟨ir2, acc2⟩ := irac
            rw [hfd] at hrun
            dsimp only at hrun
            obtain ⟨pre, hsplit, hge, haccEq, hirEq⟩ :=
              fdClear_spec e.version rest ir acc
            rw [hfd] at hsplit haccEq hirEq
            dsimp only at hsplit haccEq hirEq
            have hlt1 : ∀ x ∈ rest1, x < e.version * 2 := by
              have hl := fdClear_lt e.version rest ir acc hrest
              rw [hfd] at hl
              exact hl
            have hsorted1 : rest1.Sorted (· ≥ ·) := by
              have hl := fdClear_sorted e.version rest ir acc hrest
              rw [hfd] at hl
              exact hl
            have hq1perm : (e.parents.foldl (fun q p => insertDesc (p * 2 + 1) q)
                rest1).Perm (e.parents.map (fun p => p * 2 + 1) ++ rest1) :=
              foldl_insertDesc_perm _ e.parents rest1
            have hq1mem : ∀ x, x ∈ e.parents.foldl
                (fun q p => insertDesc (p * 2 + 1) q) rest1 ↔
                (∃ p ∈ e.parents, p * 2 + 1 = x) ∨ x ∈ rest1 := by
              intro x
              rw [hq1perm.mem_iff, List.mem_append, List.mem_map]
            have hq1lt : ∀ enc ∈ e.parents.foldl
                (fun q p => insertDesc (p * 2 + 1) q) rest1, enc / 2 < e.version := by
              intro enc henc
              rcases (hq1mem enc).mp henc with ⟨p, hp, hpe⟩ | h2
              · have := hparlt p hp
                omega
              · have := hlt1 enc h2
                omega
            have hpre_mem : ∀ y ∈ pre, y ∈ rest := by
              intro y hy
              rw [hsplit]
              exact List.mem_append_left _ hy
            have hpre_in : ∀ y ∈ pre, e.version ≤ y / 2 ∧ y / 2 < e.vEnd := by
              intro y hy
              have h1 := hge y hy
              have h2 := hmax y (List.mem_cons_of_mem _ (hpre_mem y hy))
              omega
            have hcover : ∀ y, e.version ≤ y → y < e.vEnd → ∀ a, Anc cg a y →
                (∃ e' ∈ e :: ES, e'.version ≤ a ∧ a < e'.vEnd) ∨
                (∃ enc ∈ e.parents.foldl (fun q p => insertDesc (p * 2 + 1) q) rest1,
                  enc % 2 = 1 ∧ Anc cg a (enc / 2)) := by
              intro y hy1 hy2 a hanc
              rcases anc_inv cg h hanc e hmemE hy1 hy2 with ⟨ha1, ha2⟩ | ⟨p, hp, hancp⟩
              · exact Or.inl ⟨e, List.mem_cons_self e ES, ha1, by omega⟩
              · refine Or.inr ⟨p * 2 + 1, (hq1mem _).mpr (Or.inl ⟨p, hp, rfl⟩),
                  by omega, ?_⟩
                have hdiv : (p * 2 + 1) / 2 = p := by omega
                rw [hdiv]
                exact hancp
            refine ih _ ir2 acc2 (e :: ES) out ?_ ?_ ?_ ?_ ?_ ?_ ?_ ?_ ?_ ?_ hrun
            · exact foldl_insertDescF_sorted _ e.parents rest1 hsorted1
            · have h2c : (evens (e.parents.foldl (fun q p => insertDesc (p * 2 + 1) q)
                  rest1)).Perm (evens rest1) := by
                refine (evens_perm hq1perm).trans ?_
                rw [evens_append, evens_markers, List.nil_append]
              have h2d : acc2.map Prod.fst =
                  (acc.map Prod.fst ++ evens pre) := by
                rw [haccEq, List.map_append, map_fst_falses]
              have H2b : versions.Perm
                  ((acc.map Prod.fst ++ evens pre) ++ evens rest1) := by
                have heq : (acc.map Prod.fst ++ evens pre) ++ evens rest1 =
                    acc.map Prod.fst ++ evens (vEnc :: rest) := by
                  rw [evens_cons_odd _ _ (by omega), hsplit, evens_append]
                  simp [List.append_assoc]
                rw [heq]
                exact H2
              rw [h2d]
              exact H2b.trans (List.Perm.append_left _ h2c.symm)
            · have h3c : ((e.parents.foldl (fun q p => insertDesc (p * 2 + 1) q)
                  rest1).filter (fun x => x % 2 = 0)).length =
                  (rest1.filter (fun x => x % 2 = 0)).length := by
                have hp2 := (hq1perm.filter (fun x => x % 2 = 0)).length_eq
                rw [List.filter_append, filter_even_markers, List.nil_append] at hp2
                exact hp2
              rw [h3c, hirEq]
              have h3a : ((vEnc :: rest).filter (fun x => x % 2 = 0)).length =
                  (rest.filter (fun x => x % 2 = 0)).length := by
                rw [List.filter_cons_of_neg (by simpa using hpar)]
              have h3b : (rest.filter (fun x => x % 2 = 0)).length =
                  (pre.filter (fun x => x % 2 = 0)).length +
                  (rest1.filter (fun x => x % 2 = 0)).length := by
                rw [hsplit, List.filter_append, List.length_append]
              rw [H3]
              omega
            · intro pr hpr htrue
              rw [haccEq] at hpr
              rcases List.mem_append.mp hpr with h1 | h2
              · exact H4 pr h1 htrue
              · obtain ⟨y, _, hy⟩ := List.mem_map.mp h2
                rw [← hy] at htrue
                cases htrue
            · rw [haccEq, trues_append_falses]
              exact H5
            · intro t ht enc henc
              rw [haccEq, trues_append_falses] at ht
              have hql := hq1lt enc henc
              have := H6 t ht vEnc (List.mem_cons_self _ _)
              omega
            · intro w hdomw
              have htr : trues acc2 = trues acc := by
                rw [haccEq, trues_append_falses]
              rcases H7 w hdomw with h1 | h2
              · rw [htr]
                exact Or.inl h1
              · rcases List.mem_cons.mp h2 with h3 | h4
                · exfalso
                  omega
                · rw [hsplit] at h4
                  rcases List.mem_append.mp h4 with h5 | h6
                  · exfalso
                    have hin := hpre_in _ h5
                    have hd2 : w * 2 / 2 = w := by omega
                    rw [hd2] at hin
                    have hwle : w ≤ vEnc / 2 := by
                      have := hmax (w * 2) (List.mem_cons_of_mem _ (hpre_mem _ h5))
                      omega
                    have hancwm : Anc cg w (vEnc / 2) :=
                      Anc.inEntry e hmemE hin.1 hwle hvEE
                    have hancwu : Anc cg w u0 := anc_trans cg h hancwm hancm
                    have hmu := anc_le cg h hancm
                    have := hdomw.2 u0 hu0 hancwu
                    omega
                  · exact Or.inr ((hq1mem _).mpr (Or.inr h6))
            · intro enc henc hodd
              rcases (hq1mem enc).mp henc with ⟨p, hp, hpe⟩ | h2
              · have hdiv : enc / 2 = p := by omega
                rw [hdiv]
                refine ⟨u0, hu0, ?_, ?_⟩
                · have hpm : Anc cg p (vEnc / 2) :=
                    Anc.parent p e hmemE hevE hvEE hp (Anc.refl p)
                  exact anc_trans cg h hpm hancm
                · have h5 := hparlt p hp
                  have h6 := anc_le cg h hancm
                  omega
              · exact H8 enc (List.mem_cons_of_mem _ (by
                  rw [hsplit]; exact List.mem_append_right _ h2)) hodd
            · intro e' he' enc henc
              rcases List.mem_cons.mp he' with h1 | h2
              · rw [h1]
                exact hq1lt enc henc
              · have h3 := H10 e' h2 vEnc (List.mem_cons_self _ _)
                have h4 := hq1lt enc henc
                omega
            · intro u hu a hanc
              rw [haccEq, List.map_append, map_fst_falses] at hu
              rcases List.mem_append.mp hu with h1 | h2
              · rcases H9 u h1 a hanc with ⟨e', he', hb⟩ | ⟨enc, hencm, hodd, hanc2⟩
                · exact Or.inl ⟨e', List.mem_cons_of_mem e he', hb⟩
                · rcases List.mem_cons.mp hencm with h5 | h6
                  · rw [h5] at hanc2
                    exact hcover (vEnc / 2) hevE hvEE a hanc2
                  · rw [hsplit] at h6
                    rcases List.mem_append.mp h6 with h7 | h8
                    · have hin := hpre_in _ h7
                      exact hcover (enc / 2) hin.1 hin.2 a hanc2
                    · exact Or.inr ⟨enc, (hq1mem _).mpr (Or.inr h8), hodd, hanc2⟩
              · obtain ⟨y, hy, hyu⟩ := List.mem_map.mp h2
                have hy0p : y ∈ pre := (List.mem_filter.mp hy).1
                have hin := hpre_in _ hy0p
                rw [← hyu] at hanc
                exact hcover (y / 2) hin.1 hin.2 a hanc

theorem evens_map_double (l : List Nat) : evens (l.map (fun v => v * 2)) = l := by
  induction l with
  | nil => rfl
  | cons a t ih =>
    rw [List.map_cons, evens_cons_even _ _ (by omega), ih]
    congr 1
    omega

theorem filter_even_doubles (l : List Nat) :
    (l.map (fun v => v * 2)).filter (fun x => x % 2 = 0) = l.map (fun v => v * 2) := by
  rw [List.filter_eq_self]
  intro a ha
  obtain ⟨b, _, hb⟩ := List.mem_map.mp ha
  simp only [decide_eq_true_eq]
  omega

theorem reachable_c8cgW : Reachable c8cgW :=
  Reachable.add reachable_ex (by omega) (by
    intro p hp
    rw [List.mem_singleton] at hp
    rw [hp]
    decide)

/-- Two-input fast path of findDominators2: correctness of delegating the
dominator decision to versionContainsLV. -/
theorem fd2_two (cg : CausalGraph) (h : WF cg) (w0 w1 : Nat) (hlt : w0 < w1)
    (c : Bool) (hvc : versionContainsLV cg [w1] w0 = some c) (vs : List Nat)
    (hq : ∀ x, x ∈ vs ↔ x = w0 ∨ x = w1) :
    (∀ v, v ∈ trues [(w1, true), (w0, !c)] ↔ DomSpec cg vs v) ∧
    (trues [(w1, true), (w0, !c)]).Sorted (· > ·) := by
  have hspec := versionContainsLV_spec cg h [w1] w0 c hvc
  have hdom1 : DomSpec cg vs w1 := by
    refine ⟨(hq w1).mpr (Or.inr rfl), ?_⟩
    intro w hw hanc
    rcases (hq w).mp hw with h1 | h2
    · have := anc_le cg h hanc
      omega
    · exact h2
  cases c with
  | true =>
    have hAnc : Anc cg w0 w1 := by
      obtain ⟨f, hf, hanc⟩ := hspec.mp rfl
      rw [List.mem_singleton] at hf
      rw [← hf]
      exact hanc
    constructor
    · intro v
      constructor
      · intro hv
        have hv1 : v = w1 := by simpa [trues] using hv
        rw [hv1]
        exact hdom1
      · intro hdom
        rcases (hq v).mp hdom.1 with h1 | h2
        · exfalso
          rw [h1] at hdom
          have := hdom.2 w1 ((hq w1).mpr (Or.inr rfl)) hAnc
          omega
        · simp [trues, h2]
    · simp [trues]
  | false =>
    have hnAnc : ¬ Anc cg w0 w1 := by
      intro hanc
      have : (false : Bool) = true := hspec.mpr ⟨w1, List.mem_singleton.mpr rfl, hanc⟩
      cases this
    have hdom0 : DomSpec cg vs w0 := by
      refine ⟨(hq w0).mpr (Or.inl rfl), ?_⟩
      intro w hw hanc
      rcases (hq w).mp hw with h1 | h2
      · exact h1
      · exfalso
        rw [h2] at hanc
        exact hnAnc hanc
    constructor
    · intro v
      constructor
      · intro hv
        have hv1 : v = w1 ∨ v = w0 := by simpa [trues] using hv
        rcases hv1 with h1 | h2
        · rw [h1]; exact hdom1
        · rw [h2]; exact hdom0
      · intro hdom
        rcases (hq v).mp hdom.1 with h1 | h2
        · simp [trues, h1]
        · simp [trues, h2]
    · simp [trues, List.sorted_cons]
      omega

/-- Correctness of findDominators2: the callback receives `true` exactly on
the dominators of the input set, and the `true` marks arrive in strictly
descending order. -/
theorem findDominators2_spec (cg : CausalGraph) (h : WF cg)
    (versions : List Nat) (out2 : List (Nat × Bool))
    (hrun : findDominators2 cg versions = some out2) :
    (∀ v, v ∈ trues out2 ↔ DomSpec cg versions v) ∧
    (trues out2).Sorted (· > ·) := by
  cases versions with
  | nil =>
    have hout : out2 = [] := (Option.some.inj hrun).symm
    subst hout
    refine ⟨?_, List.sorted_nil⟩
    intro v
    constructor
    · intro hv
      exact absurd hv (List.not_mem_nil v)
    · intro hdom
      exact absurd hdom.1 (List.not_mem_nil v)
  | cons v0 tl =>
    cases tl with
    | nil =>
      have hout : out2 = [(v0, true)] := (Option.some.inj hrun).symm
      subst hout
      refine ⟨?_, List.sorted_singleton _⟩
      intro v
      constructor
      · intro hv
        have hv1 : v = v0 := by simpa [trues] using hv
        subst hv1
        refine ⟨List.mem_singleton.mpr rfl, ?_⟩
        intro w hw _
        rw [List.mem_singleton] at hw
        rw [hw]
      · intro hdom
        have := List.mem_singleton.mp hdom.1
        simp [trues, this]
    | cons v1 tl2 =>
      cases tl2 with
      | nil =>
        rw [findDominators2] at hrun
        by_cases heq : v0 = v1
        · rw [if_pos heq] at hrun
          have hout : out2 = [(v0, true), (v0, false)] := (Option.some.inj hrun).symm
          subst hout heq
          constructor
          · intro v
            constructor
            · intro hv
              have hv1 : v = v0 := by simpa [trues] using hv
              subst hv1
              refine ⟨List.mem_cons_self _ _, ?_⟩
              intro w hw _
              rcases List.mem_cons.mp hw with h1 | h2
              · exact h1
              · exact List.mem_singleton.mp h2
            · intro hdom
              have hv1 : v = v0 := by
                rcases List.mem_cons.mp hdom.1 with h1 | h2
                · exact h1
                · exact List.mem_singleton.mp h2
              simp [trues, hv1]
          · simp [trues]
        · rw [if_neg heq] at hrun
          dsimp only at hrun
          by_cases hgt : v0 > v1
          · simp only [if_pos hgt] at hrun
            obtain ⟨c, hvc, hout⟩ := Option.map_eq_some'.mp hrun
            have hout2 : out2 = [(v0, true), (v1, !c)] := hout.symm
            subst hout2
            refine fd2_two cg h v1 v0 hgt c hvc [v0, v1] ?_
            intro x
            constructor
            · intro hx
              rcases List.mem_cons.mp hx with h1 | h2
              · exact Or.inr h1
              · exact Or.inl (List.mem_singleton.mp h2)
            · intro hx
              rcases hx with h1 | h2
              · rw [h1]
                exact List.mem_cons_of_mem _ (List.mem_singleton.mpr rfl)
              · rw [h2]
                exact List.mem_cons_self _ _
          · simp only [if_neg hgt] at hrun
            obtain ⟨c, hvc, hout⟩ := Option.map_eq_some'.mp hrun
            have hout2 : out2 = [(v1, true), (v0, !c)] := hout.symm
            subst hout2
            refine fd2_two cg h v0 v1 (by omega) c hvc [v0, v1] ?_
            intro x
            constructor
            · intro hx
              rcases List.mem_cons.mp hx with h1 | h2
              · exact Or.inl h1
              · exact Or.inr (List.mem_singleton.mp h2)
            · intro hx
              rcases hx with h1 | h2
              · rw [h1]
                exact List.mem_cons_self _ _
              · rw [h2]
                exact List.mem_cons_of_mem _ (List.mem_singleton.mpr rfl)
      | cons v2 tl3 =>
        simp only [findDominators2] at hrun
        have hperm0 := foldl_insertDesc_perm (fun v => v * 2) (v0 :: v1 :: v2 :: tl3) []
        refine fdLoop_spec cg h (v0 :: v1 :: v2 :: tl3) (nextLV cg + 1)
          ((v0 :: v1 :: v2 :: tl3).foldl (fun q v => insertDesc (v * 2) q) [])
          (v0 :: v1 :: v2 :: tl3).length [] [] out2
          ?_ ?_ ?_ ?_ ?_ ?_ ?_ ?_ ?_ ?_ hrun
        · exact foldl_insertDescF_sorted (fun v => v * 2) _ [] List.sorted_nil
        · have hev : (evens ((v0 :: v1 :: v2 :: tl3).foldl
              (fun q v => insertDesc (v * 2) q) [])).Perm (v0 :: v1 :: v2 :: tl3) := by
            refine (evens_perm hperm0).trans ?_
            rw [List.append_nil, evens_map_double]
          simpa using hev.symm
        · have h3 := (hperm0.filter (fun x => x % 2 = 0)).length_eq
          rw [List.filter_append, List.filter_nil, List.append_nil,
            filter_even_doubles, List.length_map] at h3
          exact h3.symm
        · intro pr hpr
          exact absurd hpr (List.not_mem_nil pr)
        · exact List.sorted_nil
        · intro t ht
          exact absurd ht (List.not_mem_nil t)
        · intro v hdom
          exact Or.inr (hperm0.mem_iff.mpr (List.mem_append_left _
            (List.mem_map.mpr ⟨v, hdom.1, rfl⟩)))
        · intro enc henc hodd
          exfalso
          rcases List.mem_append.mp (hperm0.mem_iff.mp henc) with h1 | h2
          · obtain ⟨b, _, hb⟩ := List.mem_map.mp h1
            omega
          · exact absurd h2 (List.not_mem_nil enc)
        · intro e he
          exact absurd he (List.not_mem_nil e)
        · intro u hu
          exact absurd hu (List.not_mem_nil u)

/-- C8: for every reachable causal graph and every input list, a successful
findDominators run returns exactly those members of the input that are not a
proper causal ancestor of another input member (each such member once), in
ascending order. -/
theorem c8_findDominators (cg : CausalGraph) (hr : Reachable cg)
    (versions : List Nat) (out : List Nat)
    (hrun : findDominators cg versions = some out) :
    (∀ v, v ∈ out ↔ v ∈ versions ∧ ∀ w ∈ versions, Anc cg v w → w = v) ∧
    out.Sorted (· < ·) := by
  have h := reachable_WF cg hr
  unfold findDominators at hrun
  by_cases hlen : versions.length ≤ 1
  · rw [if_pos hlen] at hrun
    have hout : out = versions := (Option.some.inj hrun).symm
    subst hout
    cases out with
    | nil =>
      refine ⟨?_, List.sorted_nil⟩
      intro v
      constructor
      · intro hv
        exact absurd hv (List.not_mem_nil v)
      · intro hdom
        exact absurd hdom.1 (List.not_mem_nil v)
    | cons a tl =>
      cases tl with
      | nil =>
        refine ⟨?_, List.sorted_singleton _⟩
        intro v
        constructor
        · intro hv
          have hv1 : v = a := List.mem_singleton.mp hv
          subst hv1
          refine ⟨List.mem_singleton.mpr rfl, ?_⟩
          intro w hw _
          exact List.mem_singleton.mp hw
        · intro hdom
          exact hdom.1
      | cons b tl2 =>
        exfalso
        simp at hlen
  · rw [if_neg hlen] at hrun
    obtain ⟨out2, h2, hout⟩ := Option.map_eq_some'.mp hrun
    obtain ⟨hiff, hsort⟩ := findDominators2_spec cg h versions out2 h2
    have htr : out = (trues out2).reverse := hout.symm
    subst htr
    constructor
    · intro v
      rw [List.mem_reverse]
      exact hiff v
    · exact List.pairwise_reverse.mpr hsort

/-- C8 witness: on the concrete three-version graph, the dominators of
{0, 1, 2} are exactly {2}, returned ascending. -/
theorem c8_findDominators_witness :
    (∀ v, v ∈ ([2] : List Nat) ↔
      v ∈ [0, 1, 2] ∧ ∀ w ∈ [0, 1, 2], Anc c8cgW v w → w = v) ∧
    ([2] : List Nat).Sorted (· < ·) :=
  c8_findDominators c8cgW reachable_c8cgW [0, 1, 2] [2] rfl

/-- C5 witness: the self-diff of a concrete reachable graph really
serializes, and merging it back is a no-op with an empty LV range. -/
theorem c5_idempotent_witness :
    Reachable (add createCG "a" 0 2 []).1 ∧
    serializeDiff (add createCG "a" 0 2 []).1
      [(0, nextLV (add createCG "a" 0 2 []).1)] =
      some [{ agent := "a", seq := 0, len := 2, parents := [] }] ∧
    mergePartialVersionsRun (add createCG "a" 0 2 []).1
      [{ agent := "a", seq := 0, len := 2, parents := [] }] =
      ((add createCG "a" 0 2 []).1,
        some (nextLV (add createCG "a" 0 2 []).1, nextLV (add createCG "a" 0 2 []).1)) :=
  ⟨reachable_ex, by decide,
   (c5_idempotent _ reachable_ex [{ agent := "a", seq := 0, len := 2, parents := [] }]).1
     (by decide)⟩

end EgWalker
